import Mathlib

/-!
# Prima VM: the Sigil bytecode codec, the assembler and the executor

A shallow embedding of `src/vm/prima_vm.c`.

Conventions of the embedding:

* `u8` is `Fin 256`; wider C integers are `Nat` (or `Int` when signed), with the
  wrap-around written out where a value can leave its range;
* `f64` is modelled by exact rational arithmetic (`ℚ`);
* a C array is a function from the index to the cell; a pointer into a byte buffer
  that is only read is the list of bytes, read with `rd`;
* the console output (`l7_puts` and friends) is not part of the model.
-/

namespace PrimaVM

/-! ## Machine integers and constants -/

/-- One byte, the C type `u8`. -/
abbrev u8 := Fin 256

/-- The conversion `(u8)x` of a non-negative value. -/
def toU8 (x : Nat) : u8 := ⟨x % 256, Nat.mod_lt _ (by decide)⟩

/-- The conversion `(u8)x` of a signed value. -/
def intToU8 (x : Int) : u8 := ⟨(x % 256).toNat, by omega⟩

/-- Wrap-around of a signed 32-bit `int`. -/
def wrap32 (x : Int) : Int := (x + 2147483648) % 4294967296 - 2147483648

def OP_COUNT : Nat := 22

def DIMS : Nat := 12

def MAGIC_L7PR : Nat := 0x4C375052

/-! ## Sigil bytecode format -/

structure SigilHeader where
  magic : Nat
  version : Nat
  flags : u8
  n_ops : u8
  n_edges : Nat
  astrocyte : Nat
  reserved : Nat

structure SigilOp where
  opcode : u8
  flags : u8
deriving DecidableEq

structure SigilEdge where
  from_ : u8
  to_ : u8
  weights : Fin 12 → u8

/-- The C struct `Sigil`. `ops[256]` is only ever indexed by values below the 8-bit
`n_ops`, so its index is left as a `Nat`; `edges[256]` is indexed up to the 16-bit
`n_edges`, so its 256 cells are kept in the type. -/
structure Sigil where
  header : SigilHeader
  ops : Nat → SigilOp
  edges : Fin 256 → SigilEdge
  loaded : Int

/-- The cell `s->edges[i]`, when the array has such a cell. -/
def Sigil.edgeAt (s : Sigil) (i : Nat) : Option SigilEdge :=
  if h : i < 256 then some (s.edges ⟨i, h⟩) else none

/-- The store `s->edges[i] = e` as it acts on the 256 cells of the array. For `i ≥ 256`
the C store lies past the array and C defines no result for it; this function then
leaves the 256 cells as they are, so it describes the C store for `i < 256` only.
`Sigil.storeEdge` is the same store with the bound checked. -/
def Sigil.setEdge (s : Sigil) (i : Nat) (e : SigilEdge) : Sigil :=
  if h : i < 256 then { s with edges := Function.update s.edges ⟨i, h⟩ e } else s

/-- The byte `data[i]` of a read-only buffer. -/
def rd (data : List u8) (i : Nat) : u8 := data.getD i 0

/-- The operation loop of `sigil_load`: `k` records remain, `i` is the loop index and
`p = data + 16 + 2*i`. Returns 0, or -4 at the first opcode that is not below
`OP_COUNT`. -/
def load_ops (data : List u8) : Nat → Nat → Sigil → Int × Sigil
  | 0, _, s => (0, s)
  | k + 1, i, s =>
    let op : SigilOp := ⟨rd data (16 + 2 * i), rd data (16 + 2 * i + 1)⟩
    let s1 := { s with ops := Function.update s.ops i op }
    if OP_COUNT ≤ (rd data (16 + 2 * i)).val then (-4, s1)
    else load_ops data k (i + 1) s1

/-- The edge loop of `sigil_load`: `k` records remain, `i` is the loop index and
`p = data + base + 14*i`, where `base = 16 + 2*n_ops`. It describes the C loop as long as
`i + k ≤ 256`, that is for an edge count of at most 256; `load_edges_checked` is the same
loop with every store checked against the array. -/
def load_edges (data : List u8) (base : Nat) : Nat → Nat → Sigil → Sigil
  | 0, _, s => s
  | k + 1, i, s =>
    load_edges data base k (i + 1)
      (s.setEdge i ⟨rd data (base + 14 * i), rd data (base + 14 * i + 1),
                    fun d => rd data (base + 14 * i + 2 + d.val)⟩)

/-- The little-endian reading of the first four bytes. -/
def magic_le (data : List u8) : Nat :=
  (rd data 0).val ||| ((rd data 1).val <<< 8) ||| ((rd data 2).val <<< 16) |||
    ((rd data 3).val <<< 24)

/-- The big-endian reading of the first four bytes. -/
def magic_be (data : List u8) : Nat :=
  ((rd data 0).val <<< 24) ||| ((rd data 1).val <<< 16) ||| ((rd data 2).val <<< 8) |||
    (rd data 3).val

/-- The function `sigil_load(s, data, size)` with `size = data.length`: the return
code and the Sigil object as the call leaves it. On a buffer that passes the checks and
declares more than 256 edges the C call stores past `edges` and has no defined result;
the pair then tells which checks passed and what the 256 cells hold, and
`sigil_load_checked` gives `none`. -/
def sigil_load (s : Sigil) (data : List u8) : Int × Sigil :=
  let size := data.length
  if size < 16 then (-1, s)
  else if magic_le data ≠ MAGIC_L7PR ∧ magic_be data ≠ MAGIC_L7PR then
    (-2, { s with header := { s.header with magic := magic_be data } })
  else
    let magic := if magic_le data ≠ MAGIC_L7PR then magic_be data else magic_le data
    let h : SigilHeader :=
      { s.header with
        magic := magic
        version := (rd data 4).val ||| ((rd data 5).val <<< 8)
        flags := rd data 6
        n_ops := rd data 7
        n_edges := (rd data 8).val ||| ((rd data 9).val <<< 8)
        astrocyte := (rd data 10).val ||| ((rd data 11).val <<< 8) }
    let s1 : Sigil := { s with header := h }
    let expected := 16 + h.n_ops.val * 2 + h.n_edges * 14
    if size < expected then (-3, s1)
    else
      let r := load_ops data h.n_ops.val 0 s1
      if r.1 ≠ 0 then r
      else
        let s3 := load_edges data (16 + 2 * h.n_ops.val) h.n_edges 0 r.2
        (0, { s3 with loaded := 1 })

/-- A Sigil object before any load: all cells zero, `loaded = 0`. -/
def Sigil.blank : Sigil :=
  { header := ⟨0, 0, 0, 0, 0, 0, 0⟩
    ops := fun _ => ⟨0, 0⟩
    edges := fun _ => ⟨0, 0, fun _ => 0⟩
    loaded := 0 }

/-! ## Sigil assembler -/

def OP_NAMES : List (List Char) :=
  ["invoke".toList, "transmute".toList, "seal".toList, "dream".toList, "publish".toList,
   "bind".toList, "verify".toList, "orchestrate".toList, "redeem".toList, "reflect".toList,
   "rotate".toList, "audit".toList, "decompose".toList, "transition".toList,
   "translate".toList, "quarantine".toList, "recover".toList, "aspire".toList,
   "speculate".toList, "illuminate".toList, "succeed".toList, "complete".toList]

def DIM_NAMES : List (List Char) :=
  ["capability".toList, "data".toList, "presentation".toList, "persistence".toList,
   "security".toList, "detail".toList, "output".toList, "intention".toList,
   "consciousness".toList, "transformation".toList, "direction".toList, "memory".toList]

/-- The NUL character that ends a C string. -/
def NUL : Char := Char.ofNat 0

/-- The comparison loop `while (j < len && on[j] && name[j] == on[j]) j++` (`on` is the table entry) of the two
name look-ups: the value of `j` when the loop stops. The list `name` holds the `len`
characters at `name`, the list `entry` the characters of the table entry before its NUL. -/
def match_len : List Char → List Char → Nat
  | c :: name, d :: entry => if d ≠ NUL ∧ c = d then match_len name entry + 1 else 0
  | _, _ => 0

/-- The test `j == len && on[j] == 0` after the comparison loop. -/
def name_matches (name entry : List Char) : Bool :=
  decide (match_len name entry = name.length ∧ entry.getD (match_len name entry) NUL = NUL)

/-- The table scan shared by `find_op_by_name` and `find_dim_by_name`, from index `i`;
`table` holds the entries from index `i` on. -/
def find_from : List (List Char) → Nat → List Char → Int
  | [], _, _ => -1
  | entry :: table, i, name => if name_matches name entry then (i : Int) else find_from table (i + 1) name

def find_op_by_name (name : List Char) : Int := find_from OP_NAMES 0 name

def find_dim_by_name (name : List Char) : Int := find_from DIM_NAMES 0 name

/-- The test `c >= '0' && c <= '9'`. -/
def is_digit (c : Char) : Bool := decide ('0'.toNat ≤ c.toNat ∧ c.toNat ≤ '9'.toNat)

/-- The function `parse_int(s, len)` on the `len` characters at `s`; `int` arithmetic
wraps at 32 bits. -/
def parse_int (s : List Char) : Int :=
  s.foldl (fun v c => if is_digit c then wrap32 (v * 10 + ((c.toNat : Int) - ('0'.toNat : Int))) else v) 0

/-- The local arrays of `assemble` and its operation counter. -/
structure AsmState where
  opcodes : Nat → u8
  edge_weights_buf : Nat → Nat → u8
  n_ops : Nat

/-- The test of the blank-skipping loop at the start of a line. -/
def is_blank (c : Char) : Bool := c == ' ' || c == '\t' || c == '\r'

/-- The test of the blank-skipping loop between two pairs. -/
def is_space (c : Char) : Bool := c == ' ' || c == '\t'

/-- The test of the loop that reads the operation name. -/
def is_name_char (c : Char) : Bool := c != ' ' && c != '\t' && c != '\n' && c != '\r'

/-- The loop of `assemble` that reads the `dimension=value` pairs of one line. The
cursor `text + pos` is the list of the characters not yet read; `row` is
`edge_weights_buf[n_ops]`. Every turn that does not leave the loop reads at least the
`=` sign, so the `fuel` given by the caller (more than the characters left) is never
used up. Returns the row and the cursor when the loop is left. -/
def parse_pairs : Nat → List Char → (Nat → u8) → (Nat → u8) × List Char
  | 0, rest, row => (row, rest)
  | fuel + 1, rest, row =>
    match rest with
    | [] => (row, rest)
    | c :: _ =>
      if c = '\n' then (row, rest)
      else
        let r1 := rest.dropWhile is_space
        match r1 with
        | [] => (row, r1)
        | c1 :: _ =>
          if c1 = '\n' then (row, r1)
          else
            let dim_name := r1.takeWhile (fun c => c != '=')
            match r1.dropWhile (fun c => c != '=') with
            | [] => (row, [])
            | _ :: r3 =>
              let val_str := r3.takeWhile is_digit
              let r4 := r3.dropWhile is_digit
              let dim := find_dim_by_name dim_name
              if 0 ≤ dim ∧ 0 < val_str.length then
                let val := parse_int val_str
                let val := if val > 10 then 10 else val
                parse_pairs fuel r4 (Function.update row dim.toNat (intToU8 (wrap32 (val * 25))))
              else
                parse_pairs fuel r4 row

/-- The line loop of `assemble`; `none` is the `return -1` at an unknown operation
name. Every turn reads at least one character, so the `fuel` given by `assemble` (more
than the characters of the text) is never used up. -/
def parse_lines : Nat → List Char → AsmState → Option AsmState
  | 0, _, st => some st
  | fuel + 1, rest, st =>
    if rest = [] ∨ ¬ st.n_ops < 256 then some st
    else
      match rest.dropWhile is_blank with
      | [] => some st
      | c :: r1 =>
        if c = '\n' then parse_lines fuel r1 st
        else if c = '#' then parse_lines fuel ((c :: r1).dropWhile (fun c => c != '\n')) st
        else
          let name := (c :: r1).takeWhile is_name_char
          let r2 := (c :: r1).dropWhile is_name_char
          let op := find_op_by_name name
          if op < 0 then none
          else
            let pr := parse_pairs (r2.length + 1) r2 (st.edge_weights_buf st.n_ops)
            let st1 : AsmState :=
              { opcodes := Function.update st.opcodes st.n_ops (intToU8 op)
                edge_weights_buf := Function.update st.edge_weights_buf st.n_ops pr.1
                n_ops := st.n_ops + 1 }
            match pr.2 with
            | [] => parse_lines fuel [] st1
            | c2 :: r5 => if c2 = '\n' then parse_lines fuel r5 st1 else parse_lines fuel (c2 :: r5) st1

/-- The arrays of `assemble` before the line loop: the weights are set to zero; the
cells of `opcodes` are written before they are read. -/
def AsmState.init : AsmState :=
  { opcodes := fun _ => 0, edge_weights_buf := fun _ _ => 0, n_ops := 0 }

/-- The stores `out[0..15]` of the header. -/
def emit_header (n_ops n_edges : Nat) (out : Nat → u8) : Nat → u8 :=
  let out := Function.update out 0 (toU8 'L'.toNat)
  let out := Function.update out 1 (toU8 '7'.toNat)
  let out := Function.update out 2 (toU8 'P'.toNat)
  let out := Function.update out 3 (toU8 'R'.toNat)
  let out := Function.update out 4 0x01
  let out := Function.update out 5 0x00
  let out := Function.update out 6 0x02
  let out := Function.update out 7 (toU8 n_ops)
  let out := Function.update out 8 (toU8 (n_edges &&& 0xFF))
  let out := Function.update out 9 (toU8 (n_edges >>> 8))
  let out := Function.update out 10 0x00
  let out := Function.update out 11 0x4C
  let out := Function.update out 15 0
  let out := Function.update out 14 0
  let out := Function.update out 13 0
  Function.update out 12 0

/-- The operation loop of the emission: `k` records remain, `i` is the loop index and
`p = out + 16 + 2*i`. -/
def emit_ops (opcodes : Nat → u8) : Nat → Nat → (Nat → u8) → (Nat → u8)
  | 0, _, out => out
  | k + 1, i, out =>
    emit_ops opcodes k (i + 1)
      (Function.update (Function.update out (16 + 2 * i) (opcodes i)) (16 + 2 * i + 1) 0x02)

/-- The loop `for d < DIMS: p[2 + d] = row[d]` with `p = out + at`; `k` cells remain. -/
def emit_row (row : Nat → u8) (pos : Nat) : Nat → Nat → (Nat → u8) → (Nat → u8)
  | 0, _, out => out
  | k + 1, d, out => emit_row row pos k (d + 1) (Function.update out (pos + 2 + d) (row d))

/-- The edge loop of the emission: `k` records remain, `i` is the loop index and
`p = out + base + 14*i`, where `base = 16 + 2*n_ops`. -/
def emit_edges (buf : Nat → Nat → u8) (base : Nat) : Nat → Nat → (Nat → u8) → (Nat → u8)
  | 0, _, out => out
  | k + 1, i, out =>
    let out1 := Function.update out (base + 14 * i) (toU8 i)
    let out2 := Function.update out1 (base + 14 * i + 1) (toU8 (i + 1))
    emit_edges buf base k (i + 1) (emit_row (buf i) (base + 14 * i) DIMS 0 out2)

/-- The function `assemble(text, textlen, out, outmax)` with `textlen = text.length`:
the return value (the size, or -1) and the output buffer as the call leaves it. -/
def assemble (text : List Char) (out : Nat → u8) (outmax : Int) : Int × (Nat → u8) :=
  match parse_lines (text.length + 1) text AsmState.init with
  | none => (-1, out)
  | some st =>
    if st.n_ops = 0 then (-1, out)
    else
      let n_edges := if st.n_ops > 1 then st.n_ops - 1 else 0
      let total := 16 + st.n_ops * 2 + n_edges * 14
      if (total : Int) > outmax then (-1, out)
      else
        let out1 := emit_header st.n_ops n_edges out
        let out2 := emit_ops st.opcodes st.n_ops 0 out1
        ((total : Int), emit_edges st.edge_weights_buf (16 + 2 * st.n_ops) n_edges 0 out2)

/-- The first `n` bytes of a buffer, as the list of bytes a reader of the buffer gets. -/
def bytes_of (out : Nat → u8) (n : Nat) : List u8 := (List.range n).map out

/-- An output buffer before the call: all zero. -/
def zero_buf : Nat → u8 := fun _ => 0

/-! ## The 12+1D coordinate -/

/-- The C struct `Coord`: 12 dimensions and the astrocyte. -/
structure Coord where
  v : Fin 12 → ℚ
  astrocyte : ℚ

/-- The indices `0 .. DIMS-1` in loop order. -/
def dims : List (Fin 12) := [0, 1, 2, 3, 4, 5, 6, 7, 8, 9, 10, 11]

/-- The loop `while (x - y > 0.001) { x = (x + y) / 2; y = sum / x; }`, value of `x`
when it stops; `fuel` bounds the number of turns. -/
def sqrt_loop (sum : ℚ) : Nat → ℚ → ℚ → ℚ
  | 0, x, _ => x
  | fuel + 1, x, y =>
    if x - y > 1 / 1000 then sqrt_loop sum fuel ((x + y) / 2) (sum / ((x + y) / 2)) else x

/-- A number of turns the square-root loop cannot exceed: the gap `x - y` starts below
`sum` and is more than halved by every turn. -/
def sqrt_fuel (sum : ℚ) : Nat := (Int.toNat ⌈1000 * sum⌉) + 1

/-- The square-root approximation, started at `x = sum`, `y = 1.0`. -/
def sqrt_approx (sum : ℚ) : ℚ := sqrt_loop sum (sqrt_fuel sum) sum 1

def coord_distance (a b : Coord) : ℚ :=
  let sum := dims.foldl (fun sum i => sum + (a.v i - b.v i) * (a.v i - b.v i)) 0
  sqrt_approx sum

def coord_similarity (a b : Coord) : ℚ :=
  let dot := dims.foldl (fun dot i => dot + a.v i * b.v i) 0
  let ma := dims.foldl (fun ma i => ma + a.v i * a.v i) 0
  let mb := dims.foldl (fun mb i => mb + b.v i * b.v i) 0
  let sma := sqrt_approx ma
  let smb := sqrt_approx mb
  if sma < 1 / 1000 ∨ smb < 1 / 1000 then 0 else dot / (sma * smb)

/-- The function `coord_add(c, a, b, scale)`: the value stored in `*c`. Every turn of
its loop writes the cell `c->v[i]` from `a->v[i]` and `b->v[i]` alone. -/
def coord_add (a b : Coord) (scale : ℚ) : Coord :=
  { v := fun i =>
      let x := a.v i + b.v i * scale
      let x := if x < 0 then 0 else x
      if x > 10 then 10 else x
    astrocyte := a.astrocyte }

/-! ## The Field -/

def MAX_PARTICLES : Nat := 1024

def MAX_EDGES : Nat := 4096

structure Particle where
  pos : Coord
  momentum : Coord
  alive : u8
  domain : u8
  sealed : u8
  id : Nat

structure Edge where
  from_ : Nat
  to_ : Nat
  weights : Coord

/-- The C struct `Field` (the global `FIELD`), passed explicitly. -/
structure Field where
  particles : Nat → Particle
  edges : Nat → Edge
  n_particles : Nat
  n_edges : Nat
  next_id : Nat
  global_astrocyte : ℚ
  prediction_error : ℚ
  tick : Nat

/-- The function `field_create(pos)`: return value and the Field after the call. -/
def field_create (pos : Coord) (F : Field) : Int × Field :=
  if F.n_particles ≥ MAX_PARTICLES then (-1, F)
  else
    let idx := F.n_particles
    let p : Particle :=
      { pos := pos
        momentum := { v := fun _ => 0, astrocyte := 0 }
        alive := 1
        domain := 0
        sealed := 0
        id := F.next_id }
    ((idx : Int),
      { F with
        n_particles := F.n_particles + 1
        particles := Function.update F.particles idx p
        next_id := (F.next_id + 1) % 4294967296 })

/-- The function `field_connect(from, to, weights)`: return value and the Field after
the call. -/
def field_connect (from_ to_ : Nat) (weights : Coord) (F : Field) : Int × Field :=
  if F.n_edges ≥ MAX_EDGES then (-1, F)
  else
    let idx := F.n_edges
    ((idx : Int),
      { F with
        n_edges := F.n_edges + 1
        edges := Function.update F.edges idx { from_ := from_, to_ := to_, weights := weights } })

/-- The scan of `field_find`: `k` particles remain, `i` is the loop index. -/
def field_find_scan (query : Coord) (F : Field) : Nat → Nat → Int → ℚ → Int
  | 0, _, best, _ => best
  | k + 1, i, best, best_sim =>
    if (F.particles i).alive = 0 then field_find_scan query F k (i + 1) best best_sim
    else
      let sim := coord_similarity query (F.particles i).pos
      if sim > best_sim then field_find_scan query F k (i + 1) (i : Int) sim
      else field_find_scan query F k (i + 1) best best_sim

def field_find (query : Coord) (F : Field) : Int :=
  field_find_scan query F F.n_particles 0 (-1) (-1)

/-! ## The executor -/

/-- The C struct `ExecCtx`. -/
structure ExecCtx where
  particle_idx : Nat
  accumulator : Coord
  stage : u8
  halted : u8
  error : u8
  ip : Nat
  audit_count : Nat

def op_stage (opcode : u8) : u8 :=
  match opcode.val with
  | 0 | 12 | 15 => 0
  | 6 | 11 | 5 | 9 => 1
  | 1 | 3 | 18 | 17 | 19 => 2
  | 4 | 21 | 20 | 7 | 16 => 3
  | _ => 1

/-- The all-zero weight vector. -/
def Coord.zero : Coord := { v := fun _ => 0, astrocyte := 0 }

/-- The scan of `edge_weights`: `k` records remain, `i` is the loop index. The array
`s->edges` has 256 cells; the C loop runs up to the 16-bit `n_edges` and reads past
the array from index 256 on, where C defines no result. This function passes over such
an index, so it describes the C scan for `n_edges ≤ 256` only, or up to a match below
index 256; `edge_weights_scan_checked` is the same scan with every read checked. -/
def edge_weights_scan (s : Sigil) (from_op to_op : Nat) : Nat → Nat → Coord
  | 0, _ => Coord.zero
  | k + 1, i =>
    match s.edgeAt i with
    | some e =>
      if e.from_.val = from_op ∧ e.to_.val = to_op then
        { v := fun d => ((e.weights d).val : ℚ) / (51 / 2), astrocyte := 0 }
      else edge_weights_scan s from_op to_op k (i + 1)
    | none => edge_weights_scan s from_op to_op k (i + 1)

def edge_weights (s : Sigil) (from_op to_op : Nat) : Coord :=
  edge_weights_scan s from_op to_op s.header.n_edges 0

/-- The store `FIELD.particles[idx] = q` of a whole particle. -/
def Field.setParticle (F : Field) (idx : Nat) (q : Particle) : Field :=
  { F with particles := Function.update F.particles idx q }

/-- The store `FIELD.particles[idx].pos = pos`. -/
def Field.setPos (F : Field) (idx : Nat) (pos : Coord) : Field :=
  F.setParticle idx { F.particles idx with pos := pos }

/-- The value `x` capped at 10, as in `if (x > 10) x = 10`. -/
def cap10 (x : ℚ) : ℚ := if x > 10 then 10 else x

/-- The loop of `OP_ROTATE`, `for (i = DIMS-1; i > 0; i--) v[i] = v[i-1]`, on the
indices still to visit. -/
def rotate_loop : List (Fin 12) → (Fin 12 → ℚ) → (Fin 12 → ℚ)
  | [], v => v
  | i :: rest, v => rotate_loop rest (Function.update v i (v (i - 1)))

/-- The function `exec_op(ctx, s, opcode, weights)`: the context and the Field after
the call. -/
def exec_op (ctx : ExecCtx) (s : Sigil) (opcode : u8) (weights : Coord) (F : Field) :
    ExecCtx × Field :=
  let idx := ctx.particle_idx
  let p := F.particles idx
  let r : ExecCtx × Field :=
    match opcode.val with
    | 0 => -- OP_INVOKE
      (ctx, F.setPos idx { v := weights.v, astrocyte := (s.header.astrocyte : ℚ) / 65535 })
    | 1 => -- OP_TRANSMUTE
      let scale := weights.v 9 / 10
      let scale := if scale < 1 / 10 then 1 / 2 else scale
      let acc := coord_add p.pos weights scale
      ({ ctx with accumulator := acc }, F.setPos idx acc)
    | 2 => -- OP_SEAL
      (ctx, F.setParticle idx
        { p with
          sealed := 1
          pos := { v := Function.update p.pos.v 4 10, astrocyte := p.pos.astrocyte * (1 / 2) } })
    | 3 => -- OP_DREAM
      (ctx, F.setParticle idx
        { p with
          domain := 0
          pos := { v := Function.update p.pos.v 8 (cap10 (p.pos.v 8 + 3)), astrocyte := 6 / 10 } })
    | 4 => -- OP_PUBLISH
      let out := if weights.v 6 > 0 then weights.v 6 else 7
      (ctx, F.setParticle idx
        { p with
          domain := 1
          pos := { v := Function.update p.pos.v 6 out, astrocyte := p.pos.astrocyte * (3 / 10) } })
    | 5 => -- OP_BIND
      (ctx, F.setPos idx
        { p.pos with v := fun i =>
            if weights.v i > 5 then (p.pos.v i + weights.v i) / 2 else p.pos.v i })
    | 6 => -- OP_VERIFY
      let sim := coord_similarity p.pos weights
      if sim > 1 / 10 then
        (ctx, F.setPos idx { p.pos with astrocyte := p.pos.astrocyte * (1 - sim * (1 / 2)) })
      else
        ({ ctx with error := 1, halted := 1 }, F)
    | 7 => -- OP_ORCHESTRATE
      (ctx, F.setPos idx
        { p.pos with v := fun i =>
            if weights.v i > 0 then p.pos.v i * (6 / 10) + weights.v i * (4 / 10)
            else p.pos.v i })
    | 8 => -- OP_REDEEM
      let v1 := Function.update p.pos.v 9 (cap10 (p.pos.v 9 + 3))
      let v2 := Function.update v1 4 ((v1 4 + 5) / 2)
      (ctx, F.setPos idx { v := v2, astrocyte := p.pos.astrocyte * (1 / 2) })
    | 9 => -- OP_REFLECT
      let self_sim := coord_similarity p.pos ctx.accumulator
      (ctx, F.setPos idx
        { p.pos with astrocyte := p.pos.astrocyte * (8 / 10) + (1 - self_sim) * (2 / 10) })
    | 10 => -- OP_ROTATE
      let tmp := p.pos.v 11
      let v1 := rotate_loop [11, 10, 9, 8, 7, 6, 5, 4, 3, 2, 1] p.pos.v
      (ctx, F.setPos idx { p.pos with v := Function.update v1 0 tmp })
    | 11 => -- OP_AUDIT
      ({ ctx with audit_count := (ctx.audit_count + 1) % 4294967296 }, F)
    | 12 => -- OP_DECOMPOSE
      (ctx, F.setPos idx
        { v := fun i => if weights.v i < 3 then 0 else p.pos.v i, astrocyte := 8 / 10 })
    | 13 => -- OP_TRANSITION
      let st0 : u8 × ℚ := (0, 0)
      let st1 : u8 × ℚ := if weights.v 8 > st0.2 then (0, weights.v 8) else st0
      let st2 : u8 × ℚ := if weights.v 0 > st1.2 then (1, weights.v 0) else st1
      let st3 : u8 × ℚ := if weights.v 11 > st2.2 then (2, weights.v 11) else st2
      let st4 : u8 × ℚ := if weights.v 4 > st3.2 then (3, weights.v 4) else st3
      (ctx, F.setParticle idx { p with domain := st4.1 })
    | 14 => -- OP_TRANSLATE
      (ctx, F.setPos idx { p.pos with v := fun i => (p.pos.v i + weights.v i) / 2 })
    | 15 => -- OP_QUARANTINE
      let v1 := Function.update p.pos.v 4 9
      let v2 := Function.update v1 0 0
      (ctx, F.setPos idx { p.pos with v := Function.update v2 6 0 })
    | 16 => -- OP_RECOVER
      (ctx, F.setPos idx { v := ctx.accumulator.v, astrocyte := 1 / 2 })
    | 17 => -- OP_ASPIRE
      let v1 := Function.update p.pos.v 7 10
      (ctx, F.setPos idx { p.pos with v := Function.update v1 10 10 })
    | 18 => -- OP_SPECULATE
      (ctx, F.setPos idx
        { v := Function.update p.pos.v 8 (cap10 (p.pos.v 8 + 2)), astrocyte := 7 / 10 })
    | 19 => -- OP_ILLUMINATE
      (ctx, F.setPos idx
        { v := Function.update p.pos.v 2 (cap10 (p.pos.v 2 + 3))
          astrocyte := p.pos.astrocyte * (3 / 10) })
    | 20 => -- OP_SUCCEED
      (ctx, (field_create { p.pos with astrocyte := 1 / 10 } F).2)
    | 21 => -- OP_COMPLETE
      ({ ctx with halted := 1 }, F.setPos idx { p.pos with astrocyte := 0 })
    | _ => (ctx, F)
  ({ r.1 with stage := op_stage opcode }, { r.2 with tick := (r.2.tick + 1) % 18446744073709551616 })

/-- One turn of the loop of `exec_sigil`, at `ctx.ip`, without the final `ctx.ip++`. -/
def exec_iter (s : Sigil) (pidx : Nat) (ctx : ExecCtx) (F : Field) : ExecCtx × Field :=
  let opcode := (s.ops ctx.ip).opcode
  let weights :=
    if ctx.ip = 0 ∧ s.header.n_ops.val > 1 then edge_weights s 0 1
    else if ctx.ip > 0 then edge_weights s (ctx.ip - 1) ctx.ip
    else Coord.zero
  let ctx1 := { ctx with accumulator := (F.particles pidx).pos }
  let r := exec_op ctx1 s opcode weights F
  if r.1.ip > 0 then
    let err := coord_distance r.1.accumulator (r.2.particles pidx).pos
    let pe := r.2.prediction_error * (9 / 10) + err * (1 / 10)
    let delta := (err / 20 - r.2.global_astrocyte) * (1 / 10)
    let ga := r.2.global_astrocyte + delta
    let ga := if ga < 1 / 100 then 1 / 100 else ga
    let ga := if ga > 99 / 100 then 99 / 100 else ga
    (r.1, { r.2 with prediction_error := pe, global_astrocyte := ga })
  else r

/-- The loop `for (ctx.ip = 0; ctx.ip < n_ops && !ctx.halted; ctx.ip++)` of
`exec_sigil`, entered with `k = n_ops - ctx.ip` operations left. -/
def exec_loop (s : Sigil) (pidx : Nat) : Nat → ExecCtx → Field → ExecCtx × Field
  | 0, ctx, F => (ctx, F)
  | k + 1, ctx, F =>
    if ctx.halted ≠ 0 then (ctx, F)
    else
      let r := exec_iter s pidx ctx F
      exec_loop s pidx k { r.1 with ip := r.1.ip + 1 } r.2

/-- The context `exec_sigil` starts its loop with. -/
def ExecCtx.start (pidx : Nat) (initial : Coord) : ExecCtx :=
  { particle_idx := pidx, accumulator := initial, stage := 0, halted := 0, error := 0,
    ip := 0, audit_count := 0 }

/-- The position `exec_sigil` creates its particle at. -/
def initial_coord (s : Sigil) : Coord :=
  { v := fun _ => 0, astrocyte := (s.header.astrocyte : ℚ) / 65535 }

/-- The run of `exec_sigil` after its particle `pidx` has been created: the final
context and Field. -/
def exec_run (s : Sigil) (pidx : Nat) (F : Field) : ExecCtx × Field :=
  exec_loop s pidx s.header.n_ops.val (ExecCtx.start pidx (initial_coord s)) F

/-- The function `exec_sigil(s)`: return value and the Field after the call. -/
def exec_sigil (s : Sigil) (F : Field) : Int × Field :=
  if s.loaded = 0 ∨ s.header.n_ops.val = 0 then (-1, F)
  else
    let c := field_create (initial_coord s) F
    if c.1 < 0 then (-2, c.2)
    else
      let r := exec_run s c.1.toNat c.2
      (if r.1.error ≠ 0 then -3 else 0, r.2)

/-- The Field as `main` initialises it (static storage is zero). -/
def Field.init : Field :=
  { particles := fun _ =>
      { pos := Coord.zero, momentum := Coord.zero, alive := 0, domain := 0, sealed := 0, id := 0 }
    edges := fun _ => { from_ := 0, to_ := 0, weights := Coord.zero }
    n_particles := 0
    n_edges := 0
    next_id := 1
    global_astrocyte := 3 / 10
    prediction_error := 0
    tick := 0 }

/-! ## Notions used to state the properties -/

/-- The conditions under which `sigil_load` returns a failure code. -/
def load_rejects (data : List u8) : Prop :=
  data.length < 16 ∨
  ¬ (data.take 4 = [0x4C, 0x37, 0x50, 0x52] ∨ data.take 4 = [0x52, 0x50, 0x37, 0x4C]) ∨
  data.length < 16 + 2 * (rd data 7).val + 14 * ((rd data 8).val + 256 * (rd data 9).val) ∨
  ∃ i, i < (rd data 7).val ∧ 22 ≤ (rd data (16 + 2 * i)).val

/-- A buffer of 3614 bytes: magic `L7PR`, version 1, no operation, an edge count of
257 (bytes 8-9 = `01 01`), then 257 edge records of 14 bytes, the last of them keyed
(7 -> 8), the others all zero. -/
def buf_257_edges : List u8 :=
  [0x4C, 0x37, 0x50, 0x52, 1, 0, 0, 0, 1, 1, 0, 0, 0, 0, 0, 0] ++
    List.replicate (14 * 256) 0 ++ [7, 8, 0, 0, 0, 0, 0, 0, 0, 0, 0, 0, 0, 0]

/-- The 34 bytes of the program `invoke capability=8 security=7 / complete`. -/
def scenario_a_bytes : List u8 :=
  [0x4C, 0x37, 0x50, 0x52, 1, 0, 2, 2, 1, 0, 0, 0x4C, 0, 0, 0, 0,
   0, 2, 21, 2,
   0, 1, 200, 0, 0, 0, 175, 0, 0, 0, 0, 0, 0, 0]

/-! ### Source texts, line by line -/

/-- The byte `assemble` stores for the digit string of a pair: `parse_int`, the clamp to
10 and the scaling by 25, in `int` arithmetic, converted to `u8`. -/
def weight_byte (digits : List Char) : u8 :=
  intToU8 (wrap32 ((if parse_int digits > 10 then 10 else parse_int digits) * 25))

/-- A token `name=digits` of an operation line, with the blanks written before it. -/
structure SrcPair where
  sep : List Char
  name : List Char
  digits : List Char

/-- The characters of a pair. -/
def SrcPair.text (p : SrcPair) : List Char := p.sep ++ p.name ++ '=' :: p.digits

/-- A pair is well-formed when at least one space or tab stands before it, its name has
no `=` and no newline and does not start with a space or tab, and its value is made of
digits. The name need not be a dimension name and the digit string may be empty. -/
def SrcPair.wf (p : SrcPair) : Bool :=
  !p.sep.isEmpty && p.sep.all is_space &&
    p.name.all (fun c => c != '=' && c != '\n') &&
    (match p.name with
     | [] => true
     | c :: _ => !is_space c) &&
    p.digits.all is_digit

/-- What a pair does to the weight row of its line, as `assemble` reads it: a known
dimension with at least one digit gets its weight byte, any other pair changes nothing. -/
def SrcPair.apply (row : Nat → u8) (p : SrcPair) : Nat → u8 :=
  if 0 ≤ find_dim_by_name p.name ∧ 0 < p.digits.length then
    Function.update row (find_dim_by_name p.name).toNat (weight_byte p.digits)
  else row

/-- An operation line: blanks, an operation name, pairs, spaces or tabs, a newline. -/
structure SrcOp where
  indent : List Char
  op : Fin 22
  pairs : List SrcPair
  trail : List Char

/-- A line of a source text. -/
inductive SrcLine where
  | blank (ws : List Char)
  | comment (ws : List Char) (body : List Char)
  | op (l : SrcOp)

/-- The characters of a line, the newline included. -/
def SrcLine.text : SrcLine → List Char
  | .blank ws => ws ++ ['\n']
  | .comment ws body => ws ++ '#' :: body ++ ['\n']
  | .op l =>
    l.indent ++ OP_NAMES.getD l.op.val [] ++
      ((l.pairs.map SrcPair.text).flatten ++ (l.trail ++ ['\n']))

/-- A line is well-formed when its leading blanks are spaces, tabs or carriage returns,
a comment body has no newline, the pairs of an operation line are well-formed and only
spaces or tabs follow the last pair. -/
def SrcLine.wf : SrcLine → Bool
  | .blank ws => ws.all is_blank
  | .comment ws body => ws.all is_blank && body.all (fun c => c != '\n')
  | .op l => l.indent.all is_blank && l.pairs.all SrcPair.wf && l.trail.all is_space

def SrcLine.is_op : SrcLine → Bool
  | .op _ => true
  | _ => false

/-- The text of a list of lines. -/
def render (ls : List SrcLine) : List Char := (ls.map SrcLine.text).flatten

/-- The number of operation lines. -/
def count_ops (ls : List SrcLine) : Nat := (ls.filter SrcLine.is_op).length

/-- The state of the arrays of `assemble` after a line. -/
def SrcLine.run (st : AsmState) : SrcLine → AsmState
  | .op l =>
    { opcodes := Function.update st.opcodes st.n_ops (intToU8 (l.op.val : Int))
      edge_weights_buf := Function.update st.edge_weights_buf st.n_ops
        (l.pairs.foldl SrcPair.apply (st.edge_weights_buf st.n_ops))
      n_ops := st.n_ops + 1 }
  | _ => st

/-- The state of the arrays of `assemble` after a list of lines. -/
def run_lines (ls : List SrcLine) (st : AsmState) : AsmState := ls.foldl SrcLine.run st

/-- A text at whose first character (if any) the scanning loop `while (p(text[pos])) pos++`
stops at once. -/
def stops (p : Char → Bool) : List Char → Prop
  | [] => True
  | c :: _ => p c = false

/-- The line loop of `assemble` on the characters still to read, with the fuel that
`parse_lines_fuel` shows to be enough. -/
def parse_all (rest : List Char) (st : AsmState) : Option AsmState :=
  parse_lines (rest.length + 1) rest st

/-- A text that starts with a space, a tab or a newline: what follows a pair, or the
operation name, inside a well-formed operation line. -/
def starts_sep (Y : List Char) : Prop :=
  ∃ c t, Y = c :: t ∧ (is_space c = true ∨ c = '\n')

/-- The operation lines of a source, in order. -/
def op_lines : List SrcLine → List SrcOp
  | [] => []
  | .op o :: ls => o :: op_lines ls
  | _ :: ls => op_lines ls

/-- The weight row `assemble` builds for an operation line, from the all-zero row. -/
def SrcOp.row (o : SrcOp) : Nat → u8 := o.pairs.foldl SrcPair.apply (fun _ => 0)

/-- A line without the pairs whose name is not one of the 12 dimension names. -/
def SrcLine.strip_unknown : SrcLine → SrcLine
  | .op o => .op { o with pairs := o.pairs.filter (fun p => decide (p.name ∈ DIM_NAMES)) }
  | l => l

/-- A source of 256 operation lines `seal`. -/
def text_256 : List Char := (List.replicate 256 "seal\n".toList).flatten

/-- The 256 lines `seal` followed by a line `bogus`. -/
def text_257 : List Char := text_256 ++ "bogus\n".toList

/-- The source `invoke foo=7 capability=` / `complete` as a list of lines: the first
pair has an unknown name, the second no digit. -/
def malformed_source : List SrcLine :=
  [.op ⟨[], 0, [⟨" ".toList, "foo".toList, "7".toList⟩,
                ⟨" ".toList, "capability".toList, []⟩], []⟩,
   .op ⟨[], 21, [], []⟩]

/-- The source `invoke capability=8 security=7` / `complete` as a list of lines. -/
def scenario_a_source : List SrcLine :=
  [.op ⟨[], 0, [⟨" ".toList, "capability".toList, "8".toList⟩,
                ⟨" ".toList, "security".toList, "7".toList⟩], []⟩,
   .op ⟨[], 21, [], []⟩]

/-- The source text of scenario A. -/
def scenario_a_text : List Char := "invoke capability=8 security=7\ncomplete\n".toList

/-- The program of scenario A: the source assembled into an all-zero buffer and loaded. -/
def scenario_a_sigil : Sigil :=
  (sigil_load Sigil.blank (bytes_of (assemble scenario_a_text zero_buf 4096).2 34)).2

/-- The Field of scenario A when the loop of `exec_sigil` starts: the initial Field with
the particle of the run created at index 0. -/
def scenario_a_field : Field := (field_create (initial_coord scenario_a_sigil) Field.init).2

/-- Scenario A after the first turn of the loop (`invoke`). -/
def scenario_a_step1 : ExecCtx × Field :=
  exec_iter scenario_a_sigil 0 (ExecCtx.start 0 (initial_coord scenario_a_sigil)) scenario_a_field

/-- The decimal value of a digit string, read from the accumulator `acc` on. -/
def dec_value_from (acc : Nat) (digits : List Char) : Nat :=
  digits.foldl (fun v c => v * 10 + (c.toNat - '0'.toNat)) acc

/-- The decimal value of a digit string. -/
def dec_value (digits : List Char) : Nat := dec_value_from 0 digits

/-! ### Notions for the Field and the executor -/

/-- A coordinate with the single dimension `i` set to `x`, the others and the
uncertainty `u`. -/
def Coord.single (i : Fin 12) (x u : ℚ) : Coord :=
  { v := fun j => if j = i then x else 0, astrocyte := u }

/-- The initial Field with one particle, at `pos`. -/
def one_particle_field (pos : Coord) : Field := (field_create pos Field.init).2

/-- A Field whose particle table is full. -/
def full_field : Field := { Field.init with n_particles := 1024, n_edges := 4096 }

/-- A 16-byte buffer: magic `L7PR`, version 1, flags 2, no operation, no edge. -/
def scenario_c_bytes : List u8 := [0x4C, 0x37, 0x50, 0x52, 1, 0, 2, 0, 0, 0, 0, 0x4C, 0, 0, 0, 0]

/-- A loaded program of one operation, `complete`, without edges. -/
def complete_sigil : Sigil :=
  { header := ⟨MAGIC_L7PR, 1, 0, 1, 0, 0, 0⟩
    ops := fun _ => ⟨21, 0⟩
    edges := fun _ => ⟨0, 0, fun _ => 0⟩
    loaded := 1 }

/-- The weights the loop of `exec_sigil` resolves for the step at index `ip`. -/
def step_weights (s : Sigil) (ip : Nat) : Coord :=
  if ip = 0 ∧ s.header.n_ops.val > 1 then edge_weights s 0 1
  else if ip > 0 then edge_weights s (ip - 1) ip
  else Coord.zero

/-- The perceptron feedback of `exec_sigil` for the error `err`: the Field with its
prediction error and its global uncertainty updated. -/
def feedback (err : ℚ) (F : Field) : Field :=
  { F with
    prediction_error := F.prediction_error * (9 / 10) + err * (1 / 10)
    global_astrocyte :=
      (let ga := F.global_astrocyte + (err / 20 - F.global_astrocyte) * (1 / 10)
       let ga := if ga < 1 / 100 then 1 / 100 else ga
       if ga > 99 / 100 then 99 / 100 else ga) }

/-- The edge records of a program in the order of the bytecode, as far as the edge
table holds them. -/
def edge_records (s : Sigil) : List SigilEdge :=
  (List.range s.header.n_edges).filterMap s.edgeAt

/-- The first edge record keyed (a -> b), if the program has one. -/
def first_edge (s : Sigil) (a b : Nat) : Option SigilEdge :=
  (edge_records s).find? (fun e => decide (e.from_.val = a ∧ e.to_.val = b))

/-- The weight vector an edge record stands for: every byte divided by 25.5. -/
def edge_coord (e : SigilEdge) : Coord :=
  { v := fun d => ((e.weights d).val : ℚ) / (51 / 2), astrocyte := 0 }

/-- The weights of step `i` in the words of the specification: for `i = 0` those of
the first edge keyed (0 -> 1), for `i > 0` those of the first edge keyed (i-1 -> i),
all zero when there is no such edge. -/
def spec_step_weights (s : Sigil) (i : Nat) : Coord :=
  match (if i = 0 then first_edge s 0 1 else first_edge s (i - 1) i) with
  | some e => edge_coord e
  | none => Coord.zero

/-- A program of one operation, `invoke`, with one edge keyed (0 -> 1) whose weight
bytes are all 255: 32 bytes. -/
def single_op_bytes : List u8 :=
  [0x4C, 0x37, 0x50, 0x52, 1, 0, 0, 1, 1, 0, 0, 0x4C, 0, 0, 0, 0,
   0, 0,
   0, 1, 255, 255, 255, 255, 255, 255, 255, 255, 255, 255, 255, 255]

/-- The program decoded from `single_op_bytes`. -/
def single_op_sigil : Sigil := (sigil_load Sigil.blank single_op_bytes).2

/-! ### Sources whose last line may lack its newline -/

/-- The characters of a line without its newline. -/
def SrcLine.body : SrcLine → List Char
  | .blank ws => ws
  | .comment ws body => ws ++ '#' :: body
  | .op l =>
    l.indent ++ OP_NAMES.getD l.op.val [] ++ ((l.pairs.map SrcPair.text).flatten ++ l.trail)

/-- The text of a source: lines ended by a newline, then possibly a last line that the
end of the text ends. -/
def source_text (ls : List SrcLine) (last : Option SrcLine) : List Char :=
  render ls ++
    (match last with
     | none => []
     | some l => l.body)

/-- The lines of a source, the last one included. -/
def source_lines (ls : List SrcLine) (last : Option SrcLine) : List SrcLine :=
  ls ++ last.toList

/-- The state of the arrays of `assemble` after a line, the guard `n_ops < 256` of the
line loop included: once 256 operations are read, no line is read any more. -/
def SrcLine.run_capped (st : AsmState) (l : SrcLine) : AsmState :=
  if st.n_ops < 256 then l.run st else st

/-- Scenario A with blank and comment lines put before, between and after its two
operation lines; the lines of the text end with a newline. -/
def scenario_a_spaced : List SrcLine :=
  [.comment [] " scenario A".toList,
   .blank [],
   .op ⟨[], 0, [⟨" ".toList, "capability".toList, "8".toList⟩,
                ⟨" ".toList, "security".toList, "7".toList⟩], []⟩,
   .blank " \t\r".toList,
   .comment "  ".toList " invoke = 9".toList,
   .op ⟨[], 21, [], []⟩,
   .blank []]

/-! ### Notions for the clamp invariant -/

/-- Every one of the 12 dimensions of a coordinate lies in [0,10]. -/
def Coord.in_range (c : Coord) : Prop := ∀ d, 0 ≤ c.v d ∧ c.v d ≤ 10

/-- The particle `pidx` exists, and it and every particle created after it have their 12
dimensions in [0,10]: `pidx` is the particle of a run, the particles after it are those
`succeed` has created during the run. -/
def clamped_from (pidx : Nat) (F : Field) : Prop :=
  pidx < F.n_particles ∧
    ∀ j, pidx ≤ j → j < F.n_particles → (F.particles j).pos.in_range

/-- The run of `exec_sigil` on the Field `F0`, once its particle is created, after `m`
turns of its loop (fewer when the run has halted before): the context and the Field. -/
def run_steps (s : Sigil) (F0 : Field) (m : Nat) : ExecCtx × Field :=
  exec_loop s F0.n_particles m (ExecCtx.start F0.n_particles (initial_coord s))
    (field_create (initial_coord s) F0).2

/-- A source of three operations, the second of which is `succeed`. -/
def spawn_text : List Char := "invoke capability=8\nsucceed\ncomplete\n".toList

/-- The program of `spawn_text`: the source assembled into an all-zero buffer and loaded. -/
def spawn_sigil : Sigil :=
  (sigil_load Sigil.blank (bytes_of (assemble spawn_text zero_buf 4096).2 50)).2

/-! ### Notions for the square root, the runs and the particle table -/

/-- The state `(x, y)` of the square-root loop of `coord_distance` after `n` turns of
its body `x = (x + y) / 2; y = sum / x;`, started at `x = sum`, `y = 1.0`. -/
def sqrt_state (sum : ℚ) : Nat → ℚ × ℚ
  | 0 => (sum, 1)
  | n + 1 => ((((sqrt_state sum n).1 + (sqrt_state sum n).2) / 2),
      sum / (((sqrt_state sum n).1 + (sqrt_state sum n).2) / 2))

/-- The sum of the 12 squared per-dimension differences, as `coord_distance` adds it up. -/
def sq_dist (a b : Coord) : ℚ :=
  dims.foldl (fun sum i => sum + (a.v i - b.v i) * (a.v i - b.v i)) 0

/-- The square-root iteration in the words of the specification: `x ← (x+y)/2`,
`y ← sum/x`, until `|x − y| < 0.001`; `fuel` bounds the number of turns. -/
def spec_sqrt_loop (sum : ℚ) : Nat → ℚ → ℚ → ℚ
  | 0, x, _ => x
  | fuel + 1, x, y =>
    if |x - y| < 1 / 1000 then x
    else spec_sqrt_loop sum fuel ((x + y) / 2) (sum / ((x + y) / 2))

/-- The step at index `m` of the run of `exec_sigil` on `F0` is a `verify` (opcode 6)
that finds a similarity of at most 0.1 between the position of the particle of the run
and the weights of the step. -/
def verify_fails (s : Sigil) (F0 : Field) (m : Nat) : Prop :=
  (s.ops m).opcode.val = 6 ∧
    coord_similarity ((run_steps s F0 m).2.particles F0.n_particles).pos (step_weights s m)
      ≤ 1 / 10

/-- The step at index `m` of the run halts it: a `complete` (opcode 21), or a failing
`verify`. -/
def step_halts (s : Sigil) (F0 : Field) (m : Nat) : Prop :=
  (s.ops m).opcode.val = 21 ∨ verify_fails s F0 m

/-- The call of `exec_op` in one turn of the loop of `exec_sigil`: the accumulator is
the position of the particle `pidx`, the weights are those of the step. -/
def step_op (s : Sigil) (pidx : Nat) (ctx : ExecCtx) (F : Field) : ExecCtx × Field :=
  exec_op { ctx with accumulator := (F.particles pidx).pos } s (s.ops ctx.ip).opcode
    (step_weights s ctx.ip) F

/-- The program cut after its first `n` operations: the operation count of the header
is `n`, everything else is kept. -/
def Sigil.truncate (s : Sigil) (n : Nat) : Sigil :=
  { s with header := { s.header with n_ops := toU8 n } }

/-- A source whose first operation halts the run: `complete` / `seal`. -/
def halt_first_text : List Char := "complete\nseal capability=9\n".toList

/-- The program of `halt_first_text`: the source assembled into an all-zero buffer and
loaded (2 operations, 1 edge: 34 bytes). -/
def halt_first_sigil : Sigil :=
  (sigil_load Sigil.blank (bytes_of (assemble halt_first_text zero_buf 4096).2 34)).2

/-- The particle at index `i` exists and is alive. -/
def alive_at (F : Field) (i : Nat) : Prop := i < F.n_particles ∧ (F.particles i).alive ≠ 0

/-- The state of the scan of `field_find` after the particles below `i`: either no
alive particle was met and `best`, `best_sim` are still -1, or `best` is the first alive
particle of maximal similarity among them and `best_sim` is its similarity. -/
def find_inv (query : Coord) (F : Field) (i : Nat) (best : Int) (best_sim : ℚ) : Prop :=
  (best = -1 ∧ best_sim = -1 ∧ ∀ j, j < i → (F.particles j).alive = 0) ∨
  ∃ b : Nat, best = (b : Int) ∧ b < i ∧ (F.particles b).alive ≠ 0 ∧
    best_sim = coord_similarity query (F.particles b).pos ∧
    (∀ j, j < i → (F.particles j).alive ≠ 0 →
      coord_similarity query (F.particles j).pos ≤ coord_similarity query (F.particles b).pos) ∧
    (∀ j, j < b → (F.particles j).alive ≠ 0 →
      coord_similarity query (F.particles j).pos < coord_similarity query (F.particles b).pos)

/-- A call that changes the particle table: `field_create(pos)` or `exec_sigil(s)`. -/
inductive FieldAction where
  | create (pos : Coord)
  | run (s : Sigil)

/-- The Field after a call. -/
def FieldAction.apply (F : Field) : FieldAction → Field
  | .create pos => (field_create pos F).2
  | .run s => (exec_sigil s F).2

/-- The Field after a sequence of calls, from the Field as `main` initialises it. -/
def field_after (calls : List FieldAction) : Field := calls.foldl FieldAction.apply Field.init

/-- The particle table is well numbered: at most 1024 particles, the next id is the
count plus one, and the particle at index `k` has id `k + 1`, is alive and has zero
momentum. -/
def well_numbered (F : Field) : Prop :=
  F.n_particles ≤ MAX_PARTICLES ∧ F.next_id = F.n_particles + 1 ∧
    ∀ k, k < F.n_particles →
      (F.particles k).id = k + 1 ∧ (F.particles k).alive = 1 ∧
      (∀ d, (F.particles k).momentum.v d = 0) ∧ (F.particles k).momentum.astrocyte = 0

/-- The Field after `n` turns of `rotate` on the particle of the context. -/
def rotate_times (ctx : ExecCtx) (s : Sigil) (w : Coord) : Nat → Field → Field
  | 0, F => F
  | n + 1, F => rotate_times ctx s w n (exec_op ctx s 10 w F).2

/-- The Field `G` keeps of `F` the particle count, the next id, the edge table, every
particle but the one at `idx`, and the momentum, alive flag and id of that one. -/
def frame_step (idx : Nat) (F G : Field) : Prop :=
  G.n_particles = F.n_particles ∧ G.next_id = F.next_id ∧
    G.edges = F.edges ∧ G.n_edges = F.n_edges ∧
    (∀ j, j ≠ idx → G.particles j = F.particles j) ∧
    (G.particles idx).momentum = (F.particles idx).momentum ∧
    (G.particles idx).alive = (F.particles idx).alive ∧
    (G.particles idx).id = (F.particles idx).id

/-- The Field `G` of a run on the particle `idx` keeps of `F` the edge table, every
particle below the count of `F` but the one at `idx`, and the momentum, alive flag and
id of that one; it has no fewer particles. -/
def frame_run (idx : Nat) (F G : Field) : Prop :=
  F.n_particles ≤ G.n_particles ∧
    G.edges = F.edges ∧ G.n_edges = F.n_edges ∧
    (∀ j, j < F.n_particles → j ≠ idx → G.particles j = F.particles j) ∧
    (G.particles idx).momentum = (F.particles idx).momentum ∧
    (G.particles idx).alive = (F.particles idx).alive ∧
    (G.particles idx).id = (F.particles idx).id

/-! ### The edge array with its bound made explicit

`Sigil.setEdge` and `edge_weights_scan` describe the 256 cells of `edges` and say nothing
of a store or a read past them. The definitions below are the same loops with every
access checked against the array: `none` stands for an access at an index of 256 or
more, where C defines no behaviour (the program may overwrite what follows the array,
or crash). -/

/-- The store `s->edges[i] = e` where C defines it: `edges` has 256 cells, and `none`
stands for a store at an index of 256 or more. -/
def Sigil.storeEdge (s : Sigil) (i : Nat) (e : SigilEdge) : Option Sigil :=
  if h : i < 256 then some { s with edges := Function.update s.edges ⟨i, h⟩ e } else none

/-- The edge loop of `sigil_load` with every store checked: `k` records remain, `i` is
the loop index; `none` as soon as a record is stored past `edges[255]`. -/
def load_edges_checked (data : List u8) (base : Nat) : Nat → Nat → Sigil → Option Sigil
  | 0, _, s => some s
  | k + 1, i, s =>
    match s.storeEdge i ⟨rd data (base + 14 * i), rd data (base + 14 * i + 1),
        fun d => rd data (base + 14 * i + 2 + d.val)⟩ with
    | none => none
    | some s1 => load_edges_checked data base k (i + 1) s1

/-- The function `sigil_load(s, data, size)` with `size = data.length` and every store
into `edges` checked: the return code and the Sigil object as the call leaves it, or
`none` when the edge loop stores past the array. -/
def sigil_load_checked (s : Sigil) (data : List u8) : Option (Int × Sigil) :=
  let size := data.length
  if size < 16 then some (-1, s)
  else if magic_le data ≠ MAGIC_L7PR ∧ magic_be data ≠ MAGIC_L7PR then
    some (-2, { s with header := { s.header with magic := magic_be data } })
  else
    let magic := if magic_le data ≠ MAGIC_L7PR then magic_be data else magic_le data
    let h : SigilHeader :=
      { s.header with
        magic := magic
        version := (rd data 4).val ||| ((rd data 5).val <<< 8)
        flags := rd data 6
        n_ops := rd data 7
        n_edges := (rd data 8).val ||| ((rd data 9).val <<< 8)
        astrocyte := (rd data 10).val ||| ((rd data 11).val <<< 8) }
    let s1 : Sigil := { s with header := h }
    let expected := 16 + h.n_ops.val * 2 + h.n_edges * 14
    if size < expected then some (-3, s1)
    else
      let r := load_ops data h.n_ops.val 0 s1
      if r.1 ≠ 0 then some r
      else
        match load_edges_checked data (16 + 2 * h.n_ops.val) h.n_edges 0 r.2 with
        | none => none
        | some s3 => some (0, { s3 with loaded := 1 })

/-- The scan of `edge_weights` with every read checked: `none` when the scan reads
`s->edges[i]` at an index of 256 or more. -/
def edge_weights_scan_checked (s : Sigil) (from_op to_op : Nat) : Nat → Nat → Option Coord
  | 0, _ => some Coord.zero
  | k + 1, i =>
    match s.edgeAt i with
    | some e =>
      if e.from_.val = from_op ∧ e.to_.val = to_op then
        some { v := fun d => ((e.weights d).val : ℚ) / (51 / 2), astrocyte := 0 }
      else edge_weights_scan_checked s from_op to_op k (i + 1)
    | none => none

/-- The function `edge_weights` with every read checked. -/
def edge_weights_checked (s : Sigil) (from_op to_op : Nat) : Option Coord :=
  edge_weights_scan_checked s from_op to_op s.header.n_edges 0

/-! ### Inputs for the loader and for `field_find` -/

/-- A buffer of 917508 bytes: magic `L7PR`, version 1, one operation (`invoke`), an edge
count of 65535 (bytes 8-9 = `FF FF`), then the operation record and 65535 all-zero edge
records of 14 bytes. -/
def buf_max_edges : List u8 :=
  [0x4C, 0x37, 0x50, 0x52, 1, 0, 0, 1, 0xFF, 0xFF, 0, 0x4C, 0, 0, 0, 0] ++
    ([0, 0] ++ List.replicate (14 * 65535) 0)

/-- A Field of five particles for `field_find`: particle 0 is dead and lies at
(1, 0, ..., 0); particle 1 lies at (0, 1, 0, ..., 0); particles 2 and 3 lie both at
(2, 0, ..., 0); particle 4 lies at (1, 1, 0, ..., 0). -/
def find_field : Field :=
  { Field.init with
    n_particles := 5
    next_id := 6
    particles := fun i =>
      { pos :=
          (match i with
           | 0 => Coord.single 0 1 0
           | 1 => Coord.single 1 1 0
           | 2 => Coord.single 0 2 0
           | 3 => Coord.single 0 2 0
           | 4 => { v := fun d => if d = 0 ∨ d = 1 then 1 else 0, astrocyte := 0 }
           | _ => Coord.zero)
        momentum := Coord.zero
        alive := if 1 ≤ i ∧ i ≤ 4 then 1 else 0
        domain := 0
        sealed := 0
        id := i + 1 } }

/-! ## Facts about the byte readers -/

theorem or_shl_eq_add (a b n : Nat) (h : a < 2 ^ n) : a ||| (b <<< n) = a + b * 2 ^ n := by
  rw [Nat.shiftLeft_eq, Nat.lor_comm, Nat.mul_comm, ← Nat.mul_add_lt_is_or h, Nat.add_comm]

theorem le16_eq (a b : u8) : a.val ||| (b.val <<< 8) = a.val + 256 * b.val := by
  have ha := a.isLt
  rw [or_shl_eq_add _ _ _ (by omega)]
  omega

theorem le32_eq (a b c d : u8) :
    a.val ||| (b.val <<< 8) ||| (c.val <<< 16) ||| (d.val <<< 24) =
      a.val + 256 * b.val + 65536 * c.val + 16777216 * d.val := by
  have ha := a.isLt
  have hb := b.isLt
  have hc := c.isLt
  rw [or_shl_eq_add a.val _ 8 (by omega), or_shl_eq_add _ _ 16 (by omega),
    or_shl_eq_add _ _ 24 (by omega)]
  omega

theorem be32_eq (a b c d : u8) :
    (a.val <<< 24) ||| (b.val <<< 16) ||| (c.val <<< 8) ||| d.val =
      d.val + 256 * c.val + 65536 * b.val + 16777216 * a.val := by
  rw [← le32_eq]
  generalize a.val <<< 24 = p
  generalize b.val <<< 16 = q
  generalize c.val <<< 8 = r
  ac_rfl

theorem u8_eq_iff (x : u8) (n : Nat) (h : n < 256) : x = ⟨n, h⟩ ↔ x.val = n := by
  rw [Fin.ext_iff]

theorem magic_le_iff (data : List u8) :
    magic_le data = MAGIC_L7PR ↔
      rd data 0 = 0x52 ∧ rd data 1 = 0x50 ∧ rd data 2 = 0x37 ∧ rd data 3 = 0x4C := by
  unfold magic_le MAGIC_L7PR
  rw [le32_eq]
  have h0 := (rd data 0).isLt
  have h1 := (rd data 1).isLt
  have h2 := (rd data 2).isLt
  have h3 := (rd data 3).isLt
  have e0 : rd data 0 = 0x52 ↔ (rd data 0).val = 82 := u8_eq_iff _ 82 (by decide)
  have e1 : rd data 1 = 0x50 ↔ (rd data 1).val = 80 := u8_eq_iff _ 80 (by decide)
  have e2 : rd data 2 = 0x37 ↔ (rd data 2).val = 55 := u8_eq_iff _ 55 (by decide)
  have e3 : rd data 3 = 0x4C ↔ (rd data 3).val = 76 := u8_eq_iff _ 76 (by decide)
  rw [e0, e1, e2, e3]
  omega

theorem magic_be_iff (data : List u8) :
    magic_be data = MAGIC_L7PR ↔
      rd data 0 = 0x4C ∧ rd data 1 = 0x37 ∧ rd data 2 = 0x50 ∧ rd data 3 = 0x52 := by
  unfold magic_be MAGIC_L7PR
  rw [be32_eq]
  have h0 := (rd data 0).isLt
  have h1 := (rd data 1).isLt
  have h2 := (rd data 2).isLt
  have h3 := (rd data 3).isLt
  have e0 : rd data 0 = 0x4C ↔ (rd data 0).val = 76 := u8_eq_iff _ 76 (by decide)
  have e1 : rd data 1 = 0x37 ↔ (rd data 1).val = 55 := u8_eq_iff _ 55 (by decide)
  have e2 : rd data 2 = 0x50 ↔ (rd data 2).val = 80 := u8_eq_iff _ 80 (by decide)
  have e3 : rd data 3 = 0x52 ↔ (rd data 3).val = 82 := u8_eq_iff _ 82 (by decide)
  rw [e0, e1, e2, e3]
  omega

/-- The first four bytes of a buffer of at least four bytes, read one by one. -/
theorem take4_iff (data : List u8) (h : 4 ≤ data.length) (a b c d : u8) :
    data.take 4 = [a, b, c, d] ↔ rd data 0 = a ∧ rd data 1 = b ∧ rd data 2 = c ∧ rd data 3 = d := by
  obtain ⟨x0, x1, x2, x3, rest, rfl⟩ :
      ∃ x0 x1 x2 x3 rest, data = x0 :: x1 :: x2 :: x3 :: rest := by
    match data, h with
    | x0 :: x1 :: x2 :: x3 :: rest, _ => exact ⟨x0, x1, x2, x3, rest, rfl⟩
  simp [rd, List.take]

/-- The magic test of `sigil_load` on a buffer of at least four bytes. -/
theorem magic_ok_iff (data : List u8) (h : 4 ≤ data.length) :
    ¬ (magic_le data ≠ MAGIC_L7PR ∧ magic_be data ≠ MAGIC_L7PR) ↔
      (data.take 4 = [0x4C, 0x37, 0x50, 0x52] ∨ data.take 4 = [0x52, 0x50, 0x37, 0x4C]) := by
  have a := magic_le_iff data
  have b := magic_be_iff data
  have c := take4_iff data h 0x4C 0x37 0x50 0x52
  have d := take4_iff data h 0x52 0x50 0x37 0x4C
  constructor
  · intro hn
    by_cases hle : magic_le data = MAGIC_L7PR
    · exact Or.inr (d.mpr (a.mp hle))
    · by_cases hbe : magic_be data = MAGIC_L7PR
      · exact Or.inl (c.mpr (b.mp hbe))
      · exact absurd ⟨hle, hbe⟩ hn
  · rintro (h1 | h1) ⟨hle, hbe⟩
    · exact hbe (b.mpr (c.mp h1))
    · exact hle (a.mpr (d.mp h1))

/-! ## The loops of `sigil_load` -/

theorem load_ops_code (data : List u8) (k i : Nat) (s : Sigil) :
    ((load_ops data k i s).1 = 0 ∨ (load_ops data k i s).1 = -4) ∧
    ((load_ops data k i s).1 ≠ 0 ↔ ∃ j, i ≤ j ∧ j < i + k ∧ 22 ≤ (rd data (16 + 2 * j)).val) := by
  induction k generalizing i s with
  | zero =>
    refine ⟨Or.inl rfl, ?_⟩
    simp only [load_ops, ne_eq, not_true_eq_false, false_iff]
    rintro ⟨j, h1, h2, _⟩
    omega
  | succ k ih =>
    simp only [load_ops, OP_COUNT]
    split
    · rename_i hbad
      refine ⟨Or.inr rfl, ?_⟩
      simp only [ne_eq, Int.reduceNeg, Int.neg_eq_zero, OfNat.ofNat_ne_zero, not_false_eq_true,
        true_iff]
      exact ⟨i, le_refl _, by omega, hbad⟩
    · rename_i hok
      refine ⟨(ih (i + 1) _).1, ?_⟩
      rw [(ih (i + 1) _).2]
      constructor
      · rintro ⟨j, h1, h2, h3⟩
        exact ⟨j, by omega, by omega, h3⟩
      · rintro ⟨j, h1, h2, h3⟩
        have : j ≠ i := by
          rintro rfl
          exact hok h3
        exact ⟨j, by omega, by omega, h3⟩

/-- The operation loop leaves the header and the `loaded` mark alone. -/
theorem load_ops_frame (data : List u8) (k i : Nat) (s : Sigil) :
    (load_ops data k i s).2.header = s.header ∧ (load_ops data k i s).2.loaded = s.loaded ∧
      (load_ops data k i s).2.edges = s.edges := by
  induction k generalizing i s with
  | zero => simp [load_ops]
  | succ k ih =>
    simp only [load_ops]
    split
    · simp
    · exact ih (i + 1) _

theorem setEdge_frame (s : Sigil) (i : Nat) (e : SigilEdge) :
    (s.setEdge i e).header = s.header ∧ (s.setEdge i e).ops = s.ops ∧
      (s.setEdge i e).loaded = s.loaded := by
  unfold Sigil.setEdge
  split <;> simp

/-- The edge loop leaves the header, the operations and the `loaded` mark alone. -/
theorem load_edges_frame (data : List u8) (base k i : Nat) (s : Sigil) :
    (load_edges data base k i s).header = s.header ∧ (load_edges data base k i s).ops = s.ops ∧
      (load_edges data base k i s).loaded = s.loaded := by
  induction k generalizing i s with
  | zero => simp [load_edges]
  | succ k ih =>
    simp only [load_edges]
    obtain ⟨h1, h2, h3⟩ := ih (i + 1) (s.setEdge i ⟨rd data (base + 14 * i),
      rd data (base + 14 * i + 1), fun d => rd data (base + 14 * i + 2 + d.val)⟩)
    obtain ⟨g1, g2, g3⟩ := setEdge_frame s i ⟨rd data (base + 14 * i),
      rd data (base + 14 * i + 1), fun d => rd data (base + 14 * i + 2 + d.val)⟩
    exact ⟨h1.trans g1, h2.trans g2, h3.trans g3⟩

theorem sigil_load_code (s : Sigil) (data : List u8) :
    ((sigil_load s data).1 < 0 ↔ load_rejects data) ∧
    (¬ load_rejects data → (sigil_load s data).1 = 0 ∧ (sigil_load s data).2.loaded = 1) := by
  unfold load_rejects
  by_cases h16 : data.length < 16
  · simp [sigil_load, h16]
  · have hm := magic_ok_iff data (by omega)
    by_cases hmag : magic_le data ≠ MAGIC_L7PR ∧ magic_be data ≠ MAGIC_L7PR
    · have hno := (not_congr hm).mp (not_not.mpr hmag)
      simp only [sigil_load, h16, if_false, if_pos hmag]
      simp [hno]
    · have hyes := hm.mp hmag
      simp only [sigil_load, h16, if_false, if_neg hmag, le16_eq]
      by_cases hsz : data.length <
          16 + (rd data 7).val * 2 + ((rd data 8).val + 256 * (rd data 9).val) * 14
      · have hsz' : data.length <
            16 + 2 * (rd data 7).val + 14 * ((rd data 8).val + 256 * (rd data 9).val) := by omega
        simp only [if_pos hsz]
        simp [hsz']
      · have hsz' : ¬ data.length <
            16 + 2 * (rd data 7).val + 14 * ((rd data 8).val + 256 * (rd data 9).val) := by omega
        simp only [if_neg hsz]
        generalize hs1 : ({ s with header := _ } : Sigil) = s1
        obtain ⟨hc, hiff⟩ := load_ops_code data (rd data 7).val 0 s1
        by_cases hr : (load_ops data (rd data 7).val 0 s1).1 ≠ 0
        · have hneg : (load_ops data (rd data 7).val 0 s1).1 < 0 := by
            rcases hc with hc | hc
            · exact absurd hc hr
            · rw [hc]; decide
          obtain ⟨j, _, hj, hbad⟩ := hiff.mp hr
          have hex : ∃ i, i < (rd data 7).val ∧ 22 ≤ (rd data (16 + 2 * i)).val :=
            ⟨j, by omega, hbad⟩
          simp only [if_pos hr]
          simp [hneg, hex]
        · have hnex : ¬ ∃ i, i < (rd data 7).val ∧ 22 ≤ (rd data (16 + 2 * i)).val := by
            rintro ⟨j, hj, hbad⟩
            exact hr (hiff.mpr ⟨j, by omega, by omega, hbad⟩)
          simp only [if_neg hr]
          simp [h16, hyes, hsz', hnex]

/-! ## What an accepted buffer decodes to -/

/-- The operation loop, when it ends with code 0, has stored the records of the indices
it ran over and no other. -/
theorem load_ops_spec (data : List u8) (k i : Nat) (s : Sigil)
    (h : (load_ops data k i s).1 = 0) (j : Nat) :
    (load_ops data k i s).2.ops j =
      if i ≤ j ∧ j < i + k then ⟨rd data (16 + 2 * j), rd data (16 + 2 * j + 1)⟩ else s.ops j := by
  induction k generalizing i s with
  | zero =>
    have : ¬ (i ≤ j ∧ j < i) := by omega
    simp [load_ops, this]
  | succ k ih =>
    simp only [load_ops] at h ⊢
    split at h
    · simp at h
    · rename_i hok
      rw [if_neg hok, ih (i + 1) _ h]
      by_cases hj : j = i
      · subst hj
        have h1 : ¬ (j + 1 ≤ j ∧ j < j + 1 + k) := by omega
        have h2 : j ≤ j ∧ j < j + (k + 1) := by omega
        simp [h1, h2]
      · by_cases hin : i + 1 ≤ j ∧ j < i + 1 + k
        · have h2 : i ≤ j ∧ j < i + (k + 1) := by omega
          simp [hin, h2]
        · have h2 : ¬ (i ≤ j ∧ j < i + (k + 1)) := by omega
          simp [hin, h2, Function.update_noteq hj]

theorem edgeAt_setEdge (s : Sigil) (i j : Nat) (e : SigilEdge) :
    (s.setEdge i e).edgeAt j = if j = i ∧ j < 256 then some e else s.edgeAt j := by
  unfold Sigil.setEdge Sigil.edgeAt
  by_cases hi : i < 256
  · by_cases hj : j < 256
    · by_cases hji : j = i
      · subst hji
        simp [hi]
      · have : (⟨j, hj⟩ : Fin 256) ≠ ⟨i, hi⟩ := by
          intro h
          exact hji (Fin.mk.inj_iff.mp h)
        simp [hi, hj, hji, Function.update_noteq this]
    · simp [hi, hj]
  · by_cases hj : j < 256
    · have : j ≠ i := by omega
      simp [hi, hj, this]
    · simp [hi, hj]

/-- The edge loop has stored, into the cells the array has, the records of the indices
it ran over and no other. -/
theorem load_edges_spec (data : List u8) (base k i : Nat) (s : Sigil) (j : Nat) :
    (load_edges data base k i s).edgeAt j =
      if i ≤ j ∧ j < i + k ∧ j < 256 then
        some ⟨rd data (base + 14 * j), rd data (base + 14 * j + 1),
              fun d => rd data (base + 14 * j + 2 + d.val)⟩
      else s.edgeAt j := by
  induction k generalizing i s with
  | zero =>
    have : ¬ (i ≤ j ∧ j < i ∧ j < 256) := by omega
    simp [load_edges, this]
  | succ k ih =>
    simp only [load_edges]
    rw [ih (i + 1) _, edgeAt_setEdge]
    by_cases hj : j = i
    · subst hj
      have h1 : ¬ (j + 1 ≤ j ∧ j < j + 1 + k ∧ j < 256) := by omega
      by_cases h256 : j < 256
      · have h2 : j ≤ j ∧ j < j + (k + 1) ∧ j < 256 := by omega
        simp [h1, h2, h256]
      · have h2 : ¬ (j ≤ j ∧ j < j + (k + 1) ∧ j < 256) := by omega
        simp [h1, h2, h256]
    · by_cases hin : i + 1 ≤ j ∧ j < i + 1 + k ∧ j < 256
      · have h2 : i ≤ j ∧ j < i + (k + 1) ∧ j < 256 := by omega
        simp [hin, h2]
      · have h2 : ¬ (i ≤ j ∧ j < i + (k + 1) ∧ j < 256) := by omega
        simp [hin, h2, hj]

/-- The Sigil object left by an accepted load, field by field. -/
theorem sigil_load_fields (s : Sigil) (data : List u8) (h : (sigil_load s data).1 = 0) :
    (sigil_load s data).2.header.version = (rd data 4).val + 256 * (rd data 5).val ∧
    (sigil_load s data).2.header.flags = rd data 6 ∧
    (sigil_load s data).2.header.n_ops = rd data 7 ∧
    (sigil_load s data).2.header.n_edges = (rd data 8).val + 256 * (rd data 9).val ∧
    (sigil_load s data).2.header.astrocyte = (rd data 10).val + 256 * (rd data 11).val ∧
    (sigil_load s data).2.loaded = 1 ∧
    (∀ i, i < (rd data 7).val →
      (sigil_load s data).2.ops i = ⟨rd data (16 + 2 * i), rd data (16 + 2 * i + 1)⟩) ∧
    (∀ j, j < (rd data 8).val + 256 * (rd data 9).val → j < 256 →
      (sigil_load s data).2.edgeAt j =
        some ⟨rd data (16 + 2 * (rd data 7).val + 14 * j),
              rd data (16 + 2 * (rd data 7).val + 14 * j + 1),
              fun d => rd data (16 + 2 * (rd data 7).val + 14 * j + 2 + d.val)⟩) := by
  unfold sigil_load at h ⊢
  by_cases h16 : data.length < 16
  · simp [h16] at h
  simp only [h16, if_false] at h ⊢
  by_cases hmag : magic_le data ≠ MAGIC_L7PR ∧ magic_be data ≠ MAGIC_L7PR
  · simp [hmag] at h
  simp only [if_neg hmag, le16_eq] at h ⊢
  by_cases hsz : data.length <
      16 + (rd data 7).val * 2 + ((rd data 8).val + 256 * (rd data 9).val) * 14
  · simp [hsz] at h
  simp only [if_neg hsz] at h ⊢
  generalize hs1 : ({ s with header := _ } : Sigil) = s1 at h ⊢
  by_cases hr : (load_ops data (rd data 7).val 0 s1).1 ≠ 0
  · simp only [if_pos hr] at h
    exact absurd h hr
  simp only [if_neg hr]
  have hr0 : (load_ops data (rd data 7).val 0 s1).1 = 0 := not_not.mp hr
  obtain ⟨e1, e2, e3⟩ := load_edges_frame data (16 + 2 * (rd data 7).val)
    ((rd data 8).val + 256 * (rd data 9).val) 0 (load_ops data (rd data 7).val 0 s1).2
  obtain ⟨o1, o2, o3⟩ := load_ops_frame data (rd data 7).val 0 s1
  have hh : (load_edges data (16 + 2 * (rd data 7).val)
      ((rd data 8).val + 256 * (rd data 9).val) 0
      (load_ops data (rd data 7).val 0 s1).2).header = s1.header := e1.trans o1
  refine ⟨?_, ?_, ?_, ?_, ?_, ?_, ?_, ?_⟩
  · show (load_edges _ _ _ _ _).header.version = _
    rw [hh, ← hs1]
  · show (load_edges _ _ _ _ _).header.flags = _
    rw [hh, ← hs1]
  · show (load_edges _ _ _ _ _).header.n_ops = _
    rw [hh, ← hs1]
  · show (load_edges _ _ _ _ _).header.n_edges = _
    rw [hh, ← hs1]
  · show (load_edges _ _ _ _ _).header.astrocyte = _
    rw [hh, ← hs1]
  · trivial
  · intro i hi
    show (load_edges _ _ _ _ _).ops i = _
    rw [e2, load_ops_spec data _ 0 s1 hr0 i]
    simp [hi]
  · intro j hj h256
    show Sigil.edgeAt { (load_edges _ _ _ _ _) with loaded := 1 } j = _
    have hcell : ∀ (u : Sigil), Sigil.edgeAt { u with loaded := 1 } j = u.edgeAt j := by
      intro u
      rfl
    rw [hcell, load_edges_spec]
    simp [hj, h256]

/-! ## Bytes after the declared records -/

theorem rd_append (b t : List u8) (i : Nat) (h : i < b.length) : rd (b ++ t) i = rd b i := by
  unfold rd
  rw [List.getD_eq_getElem?_getD, List.getD_eq_getElem?_getD, List.getElem?_append_left h]

theorem load_ops_congr (d1 d2 : List u8) (k i : Nat) (s : Sigil)
    (h : ∀ j, j < 16 + 2 * (i + k) → rd d1 j = rd d2 j) :
    load_ops d1 k i s = load_ops d2 k i s := by
  induction k generalizing i s with
  | zero => rfl
  | succ k ih =>
    simp only [load_ops]
    rw [h (16 + 2 * i) (by omega), h (16 + 2 * i + 1) (by omega)]
    rw [ih (i + 1) _ (fun j hj => h j (by omega))]

theorem load_edges_congr (d1 d2 : List u8) (base k i : Nat) (s : Sigil)
    (h : ∀ j, j < base + 14 * (i + k) → rd d1 j = rd d2 j) :
    load_edges d1 base k i s = load_edges d2 base k i s := by
  induction k generalizing i s with
  | zero => rfl
  | succ k ih =>
    simp only [load_edges]
    rw [h (base + 14 * i) (by omega), h (base + 14 * i + 1) (by omega)]
    have hw : (fun d : Fin 12 => rd d1 (base + 14 * i + 2 + d.val)) =
        (fun d : Fin 12 => rd d2 (base + 14 * i + 2 + d.val)) := by
      funext d
      have := d.isLt
      exact h _ (by omega)
    rw [hw, ih (i + 1) _ (fun j hj => h j (by omega))]

/-- An accepted buffer followed by any bytes is loaded to the same result. -/
theorem sigil_load_append (s : Sigil) (b t : List u8) (h : (sigil_load s b).1 = 0) :
    sigil_load s (b ++ t) = sigil_load s b := by
  have hrej : ¬ load_rejects b := by
    intro hrej
    have := (sigil_load_code s b).1.mpr hrej
    omega
  unfold load_rejects at hrej
  push_neg at hrej
  obtain ⟨h16, _, hsz, _⟩ := hrej
  have hrd : ∀ j, j < 16 + 2 * (rd b 7).val + 14 * ((rd b 8).val + 256 * (rd b 9).val) →
      rd (b ++ t) j = rd b j := fun j hj => rd_append b t j (by omega)
  have hle : magic_le (b ++ t) = magic_le b := by
    unfold magic_le
    rw [hrd 0 (by omega), hrd 1 (by omega), hrd 2 (by omega), hrd 3 (by omega)]
  have hbe : magic_be (b ++ t) = magic_be b := by
    unfold magic_be
    rw [hrd 0 (by omega), hrd 1 (by omega), hrd 2 (by omega), hrd 3 (by omega)]
  have hlen : ¬ (b ++ t).length < 16 := by
    rw [List.length_append]
    omega
  have hlen' : ¬ b.length < 16 := by omega
  unfold sigil_load
  simp only [hlen, hlen', if_false, hle, hbe]
  by_cases hmag : magic_le b ≠ MAGIC_L7PR ∧ magic_be b ≠ MAGIC_L7PR
  · simp only [if_pos hmag]
  · simp only [if_neg hmag]
    rw [hrd 4 (by omega), hrd 5 (by omega), hrd 6 (by omega), hrd 7 (by omega),
      hrd 8 (by omega), hrd 9 (by omega), hrd 10 (by omega), hrd 11 (by omega)]
    simp only [le16_eq]
    have hsz1 : ¬ b.length < 16 + (rd b 7).val * 2 + ((rd b 8).val + 256 * (rd b 9).val) * 14 := by
      omega
    have hsz2 : ¬ (b ++ t).length <
        16 + (rd b 7).val * 2 + ((rd b 8).val + 256 * (rd b 9).val) * 14 := by
      rw [List.length_append]
      omega
    simp only [hsz1, hsz2, if_false]
    rw [load_ops_congr (b ++ t) b (rd b 7).val 0 _ (fun j hj => hrd j (by omega))]
    rw [load_edges_congr (b ++ t) b _ _ 0 _ (fun j hj => hrd j (by omega))]

/-! ## The loops of `assemble` use up no fuel -/

theorem dropWhile_length_le (p : Char → Bool) (l : List Char) :
    (l.dropWhile p).length ≤ l.length := by
  induction l with
  | nil => simp
  | cons a l ih =>
    rw [List.dropWhile_cons]
    split
    · exact le_trans ih (Nat.le_succ _)
    · exact le_refl _

theorem parse_pairs_length (fuel : Nat) (rest : List Char) (row : Nat → u8) :
    (parse_pairs fuel rest row).2.length ≤ rest.length := by
  induction fuel generalizing rest row with
  | zero => simp [parse_pairs]
  | succ fuel ih =>
    unfold parse_pairs
    split
    · simp
    · rename_i c t
      split
      · simp
      · dsimp only
        split
        · rename_i h1
          simp only [h1]
          simp
        · rename_i c1 t1 h1
          have hd : (List.dropWhile is_space (c :: t)).length ≤ (c :: t).length :=
            dropWhile_length_le _ _
          split
          · exact hd
          · split
            · simp
            · rename_i c3 r3 h3
              have h3' : (c3 :: r3).length ≤ (List.dropWhile is_space (c :: t)).length := by
                rw [← h3]
                exact dropWhile_length_le _ _
              have h4 : (r3.dropWhile is_digit).length ≤ r3.length :=
                dropWhile_length_le _ _
              simp only [List.length_cons] at hd h3'
              split
              · exact le_trans (ih _ _) (by simp only [List.length_cons]; omega)
              · exact le_trans (ih _ _) (by simp only [List.length_cons]; omega)

/-- A character at which the blank-skipping loop stops and which is not a newline is
read by the name loop. -/
theorem is_name_char_of (c : Char) (h1 : is_blank c = false) (h2 : c ≠ '\n') :
    is_name_char c = true := by
  simp only [is_blank, Bool.or_eq_false_iff, beq_eq_false_iff_ne] at h1
  simp only [is_name_char, Bool.and_eq_true, bne_iff_ne]
  exact ⟨⟨⟨h1.1.1, h1.1.2⟩, h2⟩, h1.2⟩

theorem dropWhile_cons_head (p : Char → Bool) (l : List Char) (c : Char) (t : List Char)
    (h : l.dropWhile p = c :: t) : p c = false := by
  induction l with
  | nil => simp at h
  | cons a l ih =>
    rw [List.dropWhile_cons] at h
    split at h
    · exact ih h
    · rename_i hp
      have : a = c := (List.cons.inj h).1
      subst this
      simpa using hp

/-- With more fuel than characters, the line loop gives the same result whatever the
fuel: no run of the loop ever uses its fuel up. -/
theorem parse_lines_fuel (f1 f2 : Nat) (rest : List Char) (st : AsmState)
    (h1 : rest.length < f1) (h2 : rest.length < f2) :
    parse_lines f1 rest st = parse_lines f2 rest st := by
  induction f1 generalizing f2 rest st with
  | zero => omega
  | succ f1 ih =>
    cases f2 with
    | zero => omega
    | succ f2 =>
      unfold parse_lines
      split
      · rfl
      · split
        · rfl
        · rename_i c r1 hdw
          have hlen : (c :: r1).length ≤ rest.length := by
            rw [← hdw]
            exact dropWhile_length_le _ _
          simp only [List.length_cons] at hlen
          have hblank : is_blank c = false := dropWhile_cons_head _ _ _ _ hdw
          split
          · exact ih f2 r1 st (by omega) (by omega)
          · rename_i hnl
            split
            · rename_i hhash
              have : ((c :: r1).dropWhile (fun c => c != '\n')).length ≤ r1.length := by
                rw [List.dropWhile_cons]
                have : (c != '\n') = true := by simpa using hnl
                simp only [this, if_true]
                exact dropWhile_length_le _ _
              exact ih f2 _ st (by omega) (by omega)
            · have hname : is_name_char c = true := is_name_char_of c hblank hnl
              have hr2 : ((c :: r1).dropWhile is_name_char).length ≤ r1.length := by
                rw [List.dropWhile_cons]
                simp only [hname, if_true]
                exact dropWhile_length_le _ _
              dsimp only
              split
              · rfl
              · have hpr := parse_pairs_length (((c :: r1).dropWhile is_name_char).length + 1)
                  ((c :: r1).dropWhile is_name_char)
                  (st.edge_weights_buf st.n_ops)
                split
                · exact ih f2 [] _ (by simp; omega) (by simp; omega)
                · rename_i c2 r5 hpr2
                  rw [hpr2] at hpr
                  simp only [List.length_cons] at hpr
                  split
                  · exact ih f2 r5 _ (by omega) (by omega)
                  · exact ih f2 (c2 :: r5) _ (by simp only [List.length_cons]; omega)
                      (by simp only [List.length_cons]; omega)

/-- The line loop with the fuel `assemble` gives it. -/
theorem parse_lines_fuel_eq (fuel : Nat) (rest : List Char) (st : AsmState)
    (h : rest.length < fuel) :
    parse_lines fuel rest st = parse_lines (rest.length + 1) rest st :=
  parse_lines_fuel fuel (rest.length + 1) rest st h (Nat.lt_succ_self _)

/-! ## When `assemble` fails -/

/-- The three ways `assemble` returns -1, and what it does otherwise. -/
theorem assemble_cases (text : List Char) (out : Nat → u8) (outmax : Int) :
    (assemble text out outmax = (-1, out) ∧
      (parse_lines (text.length + 1) text AsmState.init = none ∨
       (∃ st, parse_lines (text.length + 1) text AsmState.init = some st ∧
          (st.n_ops = 0 ∨
            ((16 + st.n_ops * 2 + (if st.n_ops > 1 then st.n_ops - 1 else 0) * 14 : Nat) : Int)
              > outmax)))) ∨
    (∃ st, parse_lines (text.length + 1) text AsmState.init = some st ∧ st.n_ops ≠ 0 ∧
      ((16 + st.n_ops * 2 + (if st.n_ops > 1 then st.n_ops - 1 else 0) * 14 : Nat) : Int)
        ≤ outmax ∧
      (assemble text out outmax).1 =
        ((16 + st.n_ops * 2 + (if st.n_ops > 1 then st.n_ops - 1 else 0) * 14 : Nat) : Int)) := by
  unfold assemble
  cases hp : parse_lines (text.length + 1) text AsmState.init with
  | none => exact Or.inl ⟨rfl, Or.inl rfl⟩
  | some st =>
    simp only
    by_cases h0 : st.n_ops = 0
    · exact Or.inl ⟨by simp [h0], Or.inr ⟨st, rfl, Or.inl h0⟩⟩
    · simp only [h0, if_false]
      by_cases hbig :
          ((16 + st.n_ops * 2 + (if st.n_ops > 1 then st.n_ops - 1 else 0) * 14 : Nat) : Int)
            > outmax
      · exact Or.inl ⟨by simp only [hbig, if_true], Or.inr ⟨st, rfl, Or.inr hbig⟩⟩
      · refine Or.inr ⟨st, rfl, h0, by omega, ?_⟩
        simp only [hbig, if_false]

/-! ## Scanning loops on a text that starts with a known prefix -/

theorem dropWhile_append_all (p : Char → Bool) (a b : List Char) (h : a.all p = true) :
    (a ++ b).dropWhile p = b.dropWhile p := by
  induction a with
  | nil => rfl
  | cons x a ih =>
    simp only [List.all_cons, Bool.and_eq_true] at h
    simp only [List.cons_append, List.dropWhile_cons, h.1, if_true]
    exact ih h.2

theorem takeWhile_append_all (p : Char → Bool) (a b : List Char) (h : a.all p = true) :
    (a ++ b).takeWhile p = a ++ b.takeWhile p := by
  induction a with
  | nil => rfl
  | cons x a ih =>
    simp only [List.all_cons, Bool.and_eq_true] at h
    simp only [List.cons_append, List.takeWhile_cons, h.1, if_true]
    rw [ih h.2]

theorem dropWhile_stops (p : Char → Bool) (b : List Char) (h : stops p b) :
    b.dropWhile p = b := by
  cases b with
  | nil => rfl
  | cons c t =>
    simp only [stops] at h
    simp [List.dropWhile_cons, h]

theorem takeWhile_stops (p : Char → Bool) (b : List Char) (h : stops p b) :
    b.takeWhile p = [] := by
  cases b with
  | nil => rfl
  | cons c t =>
    simp only [stops] at h
    simp [List.takeWhile_cons, h]

theorem dropWhile_run (p : Char → Bool) (a b : List Char) (ha : a.all p = true)
    (hb : stops p b) : (a ++ b).dropWhile p = b := by
  rw [dropWhile_append_all p a b ha, dropWhile_stops p b hb]

theorem takeWhile_run (p : Char → Bool) (a b : List Char) (ha : a.all p = true)
    (hb : stops p b) : (a ++ b).takeWhile p = a := by
  rw [takeWhile_append_all p a b ha, takeWhile_stops p b hb, List.append_nil]

/-! ## The name tables -/

theorem op_names_found : ∀ i : Fin 22, find_op_by_name (OP_NAMES.getD i.val []) = (i.val : Int) := by
  decide

theorem dim_names_found :
    ∀ i : Fin 12, find_dim_by_name (DIM_NAMES.getD i.val []) = (i.val : Int) := by
  decide

/-- An operation name is made of characters the name loop reads, and starts with none of
the characters that open a blank line or a comment. -/
theorem op_names_chars : ∀ i : Fin 22,
    (OP_NAMES.getD i.val []).all is_name_char = true ∧
    (match OP_NAMES.getD i.val [] with
     | [] => false
     | c :: _ => !is_blank c && c != '\n' && c != '#') = true := by
  decide

/-! ## One turn of each loop, written with tests instead of pattern matching -/

theorem parse_pairs_succ (fuel : Nat) (rest : List Char) (row : Nat → u8) :
    parse_pairs (fuel + 1) rest row =
      if rest = [] ∨ rest.head? = some '\n' then (row, rest)
      else if rest.dropWhile is_space = [] ∨ (rest.dropWhile is_space).head? = some '\n' then
        (row, rest.dropWhile is_space)
      else if (rest.dropWhile is_space).dropWhile (fun c => c != '=') = [] then (row, [])
      else
        parse_pairs fuel
          (((rest.dropWhile is_space).dropWhile (fun c => c != '=')).tail.dropWhile is_digit)
          (SrcPair.apply row
            ⟨[], (rest.dropWhile is_space).takeWhile (fun c => c != '='),
              ((rest.dropWhile is_space).dropWhile (fun c => c != '=')).tail.takeWhile is_digit⟩) := by
  conv_lhs => unfold parse_pairs
  cases rest with
  | nil => simp
  | cons c t =>
    by_cases hc : c = '\n'
    · simp [hc]
    · simp only [hc, if_false, List.head?_cons, Option.some.injEq, reduceCtorEq, false_or]
      cases h1 : List.dropWhile is_space (c :: t) with
      | nil => simp
      | cons c1 t1 =>
        by_cases hc1 : c1 = '\n'
        · simp [hc1]
        · simp only [hc1, if_false, List.head?_cons, Option.some.injEq, reduceCtorEq, false_or]
          cases h2 : List.dropWhile (fun c => c != '=') (c1 :: t1) with
          | nil => simp
          | cons c3 r3 =>
            simp only [reduceCtorEq, if_false, List.tail_cons, SrcPair.apply, weight_byte]
            split <;> rfl

theorem parse_lines_succ (fuel : Nat) (rest : List Char) (st : AsmState) :
    parse_lines (fuel + 1) rest st =
      if rest = [] ∨ ¬ st.n_ops < 256 then some st
      else if rest.dropWhile is_blank = [] then some st
      else if (rest.dropWhile is_blank).head? = some '\n' then
        parse_lines fuel (rest.dropWhile is_blank).tail st
      else if (rest.dropWhile is_blank).head? = some '#' then
        parse_lines fuel ((rest.dropWhile is_blank).dropWhile (fun c => c != '\n')) st
      else if find_op_by_name ((rest.dropWhile is_blank).takeWhile is_name_char) < 0 then none
      else
        parse_lines fuel
          (if (parse_pairs (((rest.dropWhile is_blank).dropWhile is_name_char).length + 1)
                ((rest.dropWhile is_blank).dropWhile is_name_char)
                (st.edge_weights_buf st.n_ops)).2.head? = some '\n'
           then (parse_pairs (((rest.dropWhile is_blank).dropWhile is_name_char).length + 1)
                ((rest.dropWhile is_blank).dropWhile is_name_char)
                (st.edge_weights_buf st.n_ops)).2.tail
           else (parse_pairs (((rest.dropWhile is_blank).dropWhile is_name_char).length + 1)
                ((rest.dropWhile is_blank).dropWhile is_name_char)
                (st.edge_weights_buf st.n_ops)).2)
          { opcodes := Function.update st.opcodes st.n_ops
              (intToU8 (find_op_by_name ((rest.dropWhile is_blank).takeWhile is_name_char)))
            edge_weights_buf := Function.update st.edge_weights_buf st.n_ops
              (parse_pairs (((rest.dropWhile is_blank).dropWhile is_name_char).length + 1)
                ((rest.dropWhile is_blank).dropWhile is_name_char)
                (st.edge_weights_buf st.n_ops)).1
            n_ops := st.n_ops + 1 } := by
  conv_lhs => unfold parse_lines
  by_cases h0 : rest = [] ∨ ¬ st.n_ops < 256
  · simp only [h0, if_true]
  · simp only [h0, if_false]
    cases h1 : List.dropWhile is_blank rest with
    | nil => simp
    | cons c r1 =>
      by_cases hc : c = '\n'
      · simp [hc]
      · by_cases hh : c = '#'
        · simp [hh]
        · simp only [hc, hh, if_false, List.head?_cons, Option.some.injEq, reduceCtorEq,
            List.tail_cons]
          split
          · rfl
          · cases h5 : (parse_pairs ((List.dropWhile is_name_char (c :: r1)).length + 1)
                (List.dropWhile is_name_char (c :: r1)) (st.edge_weights_buf st.n_ops)).2 with
            | nil => simp
            | cons c2 r5 =>
              by_cases hc2 : c2 = '\n'
              · simp [hc2]
              · simp [hc2]

theorem tail_length_lt (l : List Char) (h : l ≠ []) : l.tail.length < l.length := by
  cases l with
  | nil => exact absurd rfl h
  | cons c t => simp

/-- With more fuel than characters, the pair loop gives the same result whatever the
fuel: no run of the loop ever uses its fuel up. -/
theorem parse_pairs_fuel (f1 f2 : Nat) (rest : List Char) (row : Nat → u8)
    (h1 : rest.length < f1) (h2 : rest.length < f2) :
    parse_pairs f1 rest row = parse_pairs f2 rest row := by
  induction f1 generalizing f2 rest row with
  | zero => omega
  | succ f1 ih =>
    cases f2 with
    | zero => omega
    | succ f2 =>
      rw [parse_pairs_succ, parse_pairs_succ]
      split
      · rfl
      · split
        · rfl
        · split
          · rfl
          · rename_i hne
            have ha := dropWhile_length_le is_space rest
            have hb := dropWhile_length_le (fun c => c != '=') (rest.dropWhile is_space)
            have hc := tail_length_lt _ hne
            have hd := dropWhile_length_le is_digit
              ((rest.dropWhile is_space).dropWhile (fun c => c != '=')).tail
            exact ih f2 _ _ (by omega) (by omega)

/-! ## Well-formed pairs -/

theorem SrcPair.wf_iff (p : SrcPair) :
    p.wf = true ↔
      p.sep ≠ [] ∧ p.sep.all is_space = true ∧
      p.name.all (fun c => c != '=' && c != '\n') = true ∧
      stops is_space (p.name ++ ['=']) ∧ p.digits.all is_digit = true := by
  obtain ⟨sep, name, digits⟩ := p
  have heq : is_space '=' = false := by decide
  cases sep <;> cases name <;> simp [SrcPair.wf, stops, and_assoc, heq]

theorem starts_sep_stops_digit (Y : List Char) (h : starts_sep Y) : stops is_digit Y := by
  obtain ⟨c, t, rfl, hc⟩ := h
  simp only [stops]
  rcases hc with hc | hc
  · simp only [is_space, Bool.or_eq_true, beq_iff_eq] at hc
    rcases hc with hc | hc <;> subst hc <;> decide
  · subst hc
    decide

theorem starts_sep_stops_name (Y : List Char) (h : starts_sep Y) : stops is_name_char Y := by
  obtain ⟨c, t, rfl, hc⟩ := h
  simp only [stops]
  rcases hc with hc | hc
  · simp only [is_space, Bool.or_eq_true, beq_iff_eq] at hc
    rcases hc with hc | hc <;> subst hc <;> decide
  · subst hc
    decide

/-- The text after the operation name, or after a pair, of a well-formed line starts
with a space, a tab or the newline. -/
theorem starts_sep_tail (ps : List SrcPair) (trail rest : List Char)
    (hwf : ps.all SrcPair.wf = true) (htrail : trail.all is_space = true) :
    starts_sep ((ps.map SrcPair.text).flatten ++ (trail ++ '\n' :: rest)) := by
  cases ps with
  | nil =>
    cases trail with
    | nil => exact ⟨'\n', rest, rfl, Or.inr rfl⟩
    | cons c t =>
      simp only [List.all_cons, Bool.and_eq_true] at htrail
      exact ⟨c, t ++ '\n' :: rest, rfl, Or.inl htrail.1⟩
  | cons p ps =>
    simp only [List.all_cons, Bool.and_eq_true] at hwf
    obtain ⟨h1, h2, -⟩ := (SrcPair.wf_iff p).mp hwf.1
    cases hs : p.sep with
    | nil => exact absurd hs h1
    | cons c t =>
      rw [hs] at h2
      simp only [List.all_cons, Bool.and_eq_true] at h2
      refine ⟨c, (t ++ p.name ++ '=' :: p.digits) ++
        ((ps.map SrcPair.text).flatten ++ (trail ++ '\n' :: rest)), ?_, Or.inl h2.1⟩
      simp [SrcPair.text, hs]

theorem parse_pairs_step (fuel : Nat) (p : SrcPair) (Y : List Char) (row : Nat → u8)
    (hwf : p.wf = true) (hY : starts_sep Y) :
    parse_pairs (fuel + 1) (p.text ++ Y) row = parse_pairs fuel Y (SrcPair.apply row p) := by
  obtain ⟨h1, h2, h3, h4, h5⟩ := (SrcPair.wf_iff p).mp hwf
  have htext : p.text ++ Y = p.sep ++ (p.name ++ '=' :: (p.digits ++ Y)) := by
    simp [SrcPair.text]
  have hstop : stops is_space (p.name ++ '=' :: (p.digits ++ Y)) := by
    cases hn : p.name with
    | nil => simp only [List.nil_append, stops]; decide
    | cons c t =>
      rw [hn] at h4
      simpa [stops] using h4
  have e1 : (p.text ++ Y).dropWhile is_space = p.name ++ '=' :: (p.digits ++ Y) := by
    rw [htext]
    exact dropWhile_run _ _ _ h2 hstop
  have hne : ∀ c ∈ p.name, c ≠ '=' ∧ c ≠ '\n' := by
    intro c hc
    have := List.all_eq_true.mp h3 c hc
    simpa using this
  have hall : p.name.all (fun c => c != '=') = true := by
    rw [List.all_eq_true]
    intro c hc
    simpa using (hne c hc).1
  have hstop2 : stops (fun c => c != '=') ('=' :: (p.digits ++ Y)) := by
    simp [stops]
  have e2 : (p.name ++ '=' :: (p.digits ++ Y)).dropWhile (fun c => c != '=') =
      '=' :: (p.digits ++ Y) := dropWhile_run _ _ _ hall hstop2
  have e3 : (p.name ++ '=' :: (p.digits ++ Y)).takeWhile (fun c => c != '=') = p.name :=
    takeWhile_run _ _ _ hall hstop2
  have e4 : (p.digits ++ Y).dropWhile is_digit = Y :=
    dropWhile_run _ _ _ h5 (starts_sep_stops_digit Y hY)
  have e5 : (p.digits ++ Y).takeWhile is_digit = p.digits :=
    takeWhile_run _ _ _ h5 (starts_sep_stops_digit Y hY)
  have c1 : ¬ (p.text ++ Y = [] ∨ (p.text ++ Y).head? = some '\n') := by
    rw [htext]
    cases hs : p.sep with
    | nil => exact absurd hs h1
    | cons c t =>
      rw [hs] at h2
      simp only [List.all_cons, Bool.and_eq_true] at h2
      have : c ≠ '\n' := by
        intro hc
        rw [hc] at h2
        exact absurd h2.1 (by decide)
      simp [this]
  have c2 : ¬ (p.name ++ '=' :: (p.digits ++ Y) = [] ∨
      (p.name ++ '=' :: (p.digits ++ Y)).head? = some '\n') := by
    cases hn : p.name with
    | nil => simp
    | cons c t =>
      have := (hne c (by rw [hn]; exact List.mem_cons_self _ _)).2
      simp [this]
  rw [parse_pairs_succ]
  simp only [c1, if_false, e1, c2, e2, e3, List.tail_cons, e4, e5, reduceCtorEq]
  rfl

/-- The pair loop on the pairs of a well-formed line: every pair is applied in turn and
the loop stops in front of the newline. -/
theorem parse_pairs_render (ps : List SrcPair) (trail rest : List Char) (row : Nat → u8)
    (fuel : Nat) (hwf : ps.all SrcPair.wf = true) (htrail : trail.all is_space = true)
    (hfuel : ps.length < fuel) :
    parse_pairs fuel ((ps.map SrcPair.text).flatten ++ (trail ++ '\n' :: rest)) row =
      (ps.foldl SrcPair.apply row, '\n' :: rest) := by
  induction ps generalizing row fuel with
  | nil =>
    cases fuel with
    | zero => simp at hfuel
    | succ fuel =>
      rw [parse_pairs_succ]
      simp only [List.map_nil, List.flatten_nil, List.nil_append, List.foldl_nil]
      cases trail with
      | nil => simp
      | cons c t =>
        simp only [List.all_cons, Bool.and_eq_true] at htrail
        have hc : c ≠ '\n' := by
          intro hc
          rw [hc] at htrail
          exact absurd htrail.1 (by decide)
        have hall : (c :: t).all is_space = true := by
          simp only [List.all_cons, Bool.and_eq_true]
          exact htrail
        have e1 : ((c :: t) ++ '\n' :: rest).dropWhile is_space = '\n' :: rest :=
          dropWhile_run _ _ _ hall (by simp only [stops]; decide)
        simp only [List.cons_append] at e1
        simp [hc, e1]
  | cons p ps ih =>
    cases fuel with
    | zero => simp at hfuel
    | succ fuel =>
      simp only [List.all_cons, Bool.and_eq_true] at hwf
      simp only [List.map_cons, List.flatten_cons, List.append_assoc, List.foldl_cons]
      rw [parse_pairs_step fuel p _ row hwf.1 (starts_sep_tail ps trail rest hwf.2 htrail)]
      exact ih _ fuel hwf.2 (by simpa using hfuel)

theorem render_pairs_length (ps : List SrcPair) (hwf : ps.all SrcPair.wf = true) :
    ps.length ≤ ((ps.map SrcPair.text).flatten).length := by
  induction ps with
  | nil => simp
  | cons p ps ih =>
    simp only [List.all_cons, Bool.and_eq_true] at hwf
    have := ih hwf.2
    simp only [List.map_cons, List.flatten_cons, List.length_append, List.length_cons,
      SrcPair.text]
    omega

/-! ## The line loop on well-formed lines -/

theorem parse_all_nil (st : AsmState) : parse_all [] st = some st := by
  simp [parse_all, parse_lines_succ]

/-- Once 256 operations are read the line loop stops, whatever is left of the text. -/
theorem parse_all_full (rest : List Char) (st : AsmState) (h : ¬ st.n_ops < 256) :
    parse_all rest st = some st := by
  simp [parse_all, parse_lines_succ, h]

theorem parse_all_blank (ws rest : List Char) (st : AsmState) (hws : ws.all is_blank = true) :
    parse_all (ws ++ '\n' :: rest) st = parse_all rest st := by
  by_cases hn : st.n_ops < 256
  · have e1 : (ws ++ '\n' :: rest).dropWhile is_blank = '\n' :: rest :=
      dropWhile_run _ _ _ hws (by simp only [stops]; decide)
    have hne : ws ++ '\n' :: rest ≠ [] := by simp
    unfold parse_all
    rw [parse_lines_succ]
    simp only [hne, hn, not_true_eq_false, or_self, if_false, e1, reduceCtorEq, List.head?_cons,
      if_true, List.tail_cons]
    exact parse_lines_fuel_eq _ _ _ (by simp; omega)
  · rw [parse_all_full _ _ hn, parse_all_full _ _ hn]

theorem parse_all_comment (ws body rest : List Char) (st : AsmState)
    (hws : ws.all is_blank = true) (hbody : body.all (fun c => c != '\n') = true) :
    parse_all (ws ++ '#' :: (body ++ '\n' :: rest)) st = parse_all rest st := by
  by_cases hn : st.n_ops < 256
  · have e1 : (ws ++ '#' :: (body ++ '\n' :: rest)).dropWhile is_blank =
        '#' :: (body ++ '\n' :: rest) :=
      dropWhile_run _ _ _ hws (by simp only [stops]; decide)
    have hall : ('#' :: body).all (fun c => c != '\n') = true := by
      simp only [List.all_cons, Bool.and_eq_true]
      exact ⟨by decide, hbody⟩
    have e2 : ('#' :: (body ++ '\n' :: rest)).dropWhile (fun c => c != '\n') = '\n' :: rest := by
      have := dropWhile_run (fun c => c != '\n') ('#' :: body) ('\n' :: rest) hall
        (by simp [stops])
      simpa using this
    have hne : ws ++ '#' :: (body ++ '\n' :: rest) ≠ [] := by simp
    have h1 : ¬ ((some '#' : Option Char) = some '\n') := by decide
    unfold parse_all
    rw [parse_lines_succ]
    simp only [hne, hn, not_true_eq_false, or_self, if_false, e1, reduceCtorEq, List.head?_cons,
      h1, if_true, e2]
    rw [parse_lines_fuel_eq _ _ _ (by simp; omega)]
    exact parse_all_blank [] rest st rfl
  · rw [parse_all_full _ _ hn, parse_all_full _ _ hn]

theorem intToU8_op (i : Fin 22) : intToU8 (i.val : Int) = ⟨i.val, by omega⟩ := by
  revert i
  decide

theorem parse_all_op (l : SrcOp) (rest : List Char) (st : AsmState)
    (hwf : (SrcLine.op l).wf = true) (hn : st.n_ops < 256) :
    parse_all ((SrcLine.op l).text ++ rest) st = parse_all rest (SrcLine.run st (.op l)) := by
  simp only [SrcLine.wf, Bool.and_eq_true] at hwf
  obtain ⟨⟨hind, hps⟩, htrail⟩ := hwf
  obtain ⟨hchars, hhead⟩ := op_names_chars l.op
  have hfound := op_names_found l.op
  generalize hname : OP_NAMES.getD l.op.val [] = name at hchars hhead hfound
  cases name with
  | nil => simp at hhead
  | cons c t =>
    simp only [Bool.and_eq_true, Bool.not_eq_true', bne_iff_ne, ne_eq] at hhead
    obtain ⟨⟨hb, hnl⟩, hhash⟩ := hhead
    have hX := starts_sep_tail l.pairs l.trail rest hps htrail
    generalize hXe : (l.pairs.map SrcPair.text).flatten ++ (l.trail ++ '\n' :: rest) = X at hX
    have htext : (SrcLine.op l).text ++ rest = l.indent ++ (c :: (t ++ X)) := by
      simp only [SrcLine.text, hname, ← hXe]
      simp
    have e1 : (l.indent ++ (c :: (t ++ X))).dropWhile is_blank = c :: (t ++ X) :=
      dropWhile_run _ _ _ hind (by simpa [stops] using hb)
    have e2 : (c :: (t ++ X)).takeWhile is_name_char = c :: t := by
      have := takeWhile_run is_name_char (c :: t) X hchars (starts_sep_stops_name X hX)
      simpa using this
    have e3 : (c :: (t ++ X)).dropWhile is_name_char = X := by
      have := dropWhile_run is_name_char (c :: t) X hchars (starts_sep_stops_name X hX)
      simpa using this
    have e4 : parse_pairs (X.length + 1) X (st.edge_weights_buf st.n_ops) =
        (l.pairs.foldl SrcPair.apply (st.edge_weights_buf st.n_ops), '\n' :: rest) := by
      rw [← hXe]
      apply parse_pairs_render _ _ _ _ _ hps htrail
      have := render_pairs_length l.pairs hps
      simp only [List.length_append]
      omega
    have hne : l.indent ++ (c :: (t ++ X)) ≠ [] := by simp
    have h1 : ¬ ((some c : Option Char) = some '\n') := by simpa using hnl
    have h2 : ¬ ((some c : Option Char) = some '#') := by simpa using hhash
    have h3 : ¬ ((l.op.val : Int) < 0) := by omega
    rw [htext]
    unfold parse_all
    rw [parse_lines_succ]
    simp only [hne, hn, not_true_eq_false, or_self, if_false, e1, reduceCtorEq, List.head?_cons,
      h1, h2, e2, e3, hfound, h3, e4, if_true, List.tail_cons]
    rw [parse_lines_fuel_eq _ _ _ (by
      have : rest.length < X.length := by
        rw [← hXe]
        simp only [List.length_append, List.length_cons]
        omega
      simp only [List.length_append, List.length_cons]
      omega)]
    rfl

theorem count_ops_cons (l : SrcLine) (ls : List SrcLine) :
    count_ops (l :: ls) = (if l.is_op then 1 else 0) + count_ops ls := by
  unfold count_ops
  rw [List.filter_cons]
  split <;> simp [Nat.add_comm]

theorem run_n_ops (st : AsmState) (l : SrcLine) :
    (SrcLine.run st l).n_ops = st.n_ops + (if l.is_op then 1 else 0) := by
  cases l <;> simp [SrcLine.run, SrcLine.is_op]

theorem run_lines_n_ops (ls : List SrcLine) (st : AsmState) :
    (run_lines ls st).n_ops = st.n_ops + count_ops ls := by
  induction ls generalizing st with
  | nil => simp [run_lines, count_ops]
  | cons l ls ih =>
    have := ih (SrcLine.run st l)
    simp only [run_lines, List.foldl_cons] at this ⊢
    rw [this, run_n_ops, count_ops_cons]
    omega

/-- The line loop reads a list of well-formed lines, no more than 256 operation lines
in all, one after the other, and goes on with what follows them. -/
theorem parse_all_render (ls : List SrcLine) (rest : List Char) (st : AsmState)
    (hwf : ls.all SrcLine.wf = true) (hcount : st.n_ops + count_ops ls ≤ 256) :
    parse_all (render ls ++ rest) st = parse_all rest (run_lines ls st) := by
  induction ls generalizing st with
  | nil => simp [render, run_lines]
  | cons l ls ih =>
    simp only [List.all_cons, Bool.and_eq_true] at hwf
    rw [count_ops_cons] at hcount
    have hstep : parse_all (l.text ++ (render ls ++ rest)) st =
        parse_all (render ls ++ rest) (SrcLine.run st l) := by
      cases l with
      | blank ws =>
        have := parse_all_blank ws (render ls ++ rest) st (by simpa [SrcLine.wf] using hwf.1)
        simpa [SrcLine.text, SrcLine.run] using this
      | comment ws body =>
        have hw : ws.all is_blank = true ∧ body.all (fun c => c != '\n') = true := by
          simpa [SrcLine.wf] using hwf.1
        have := parse_all_comment ws body (render ls ++ rest) st hw.1 hw.2
        simpa [SrcLine.text, SrcLine.run] using this
      | op o =>
        exact parse_all_op o _ st hwf.1 (by simp [SrcLine.is_op] at hcount; omega)
    have hr : render (l :: ls) ++ rest = l.text ++ (render ls ++ rest) := by
      simp [render]
    rw [hr, hstep, ih (SrcLine.run st l) hwf.2 (by rw [run_n_ops]; omega)]
    rfl

/-! ## The name look-ups find exactly the entries of their tables -/

/-- On a table entry without NUL, the comparison loop and its final test accept a name
exactly when it is the entry. -/
theorem name_matches_iff (name entry : List Char) (h : NUL ∉ entry) :
    name_matches name entry = true ↔ name = entry := by
  unfold name_matches
  rw [decide_eq_true_iff]
  induction name generalizing entry with
  | nil =>
    cases entry with
    | nil => simp [match_len]
    | cons d e =>
      have hd : d ≠ NUL := fun hd => h (hd ▸ List.mem_cons_self _ _)
      simp [match_len, hd]
  | cons c n ih =>
    cases entry with
    | nil => simp [match_len]
    | cons d e =>
      have hd : d ≠ NUL := fun hd => h (hd ▸ List.mem_cons_self _ _)
      have he : NUL ∉ e := fun he => h (List.mem_cons_of_mem _ he)
      by_cases hcd : c = d
      · subst hcd
        simp only [match_len, hd, ne_eq, not_false_eq_true, and_self, if_true, List.length_cons,
          Nat.add_right_cancel_iff, List.getD_cons_succ, List.cons.injEq, true_and]
        exact ih e he
      · simp [match_len, hcd]

theorem find_from_neg_iff (table : List (List Char)) (i : Nat) (name : List Char)
    (h : ∀ entry ∈ table, NUL ∉ entry) :
    find_from table i name < 0 ↔ name ∉ table := by
  induction table generalizing i with
  | nil => simp [find_from]
  | cons entry table ih =>
    have h1 := name_matches_iff name entry (h entry (List.mem_cons_self _ _))
    have h2 := ih (i + 1) (fun e he => h e (List.mem_cons_of_mem _ he))
    unfold find_from
    by_cases hm : name_matches name entry = true
    · have hmem : name ∈ entry :: table := by
        rw [h1.mp hm]
        exact List.mem_cons_self _ _
      rw [if_pos hm]
      constructor
      · intro hneg
        omega
      · intro hnot
        exact absurd hmem hnot
    · have hne : ¬ name = entry := fun he => hm (h1.mpr he)
      rw [if_neg hm, h2]
      simp [hne]

theorem op_names_no_nul : ∀ entry ∈ OP_NAMES, NUL ∉ entry := by decide

theorem dim_names_no_nul : ∀ entry ∈ DIM_NAMES, NUL ∉ entry := by decide

/-- The look-up `find_op_by_name` fails exactly on the names that are not in `OP_NAMES`. -/
theorem find_op_neg_iff (name : List Char) : find_op_by_name name < 0 ↔ name ∉ OP_NAMES :=
  find_from_neg_iff OP_NAMES 0 name op_names_no_nul

/-- The look-up `find_dim_by_name` fails exactly on the names that are not in
`DIM_NAMES`. -/
theorem find_dim_neg_iff (name : List Char) : find_dim_by_name name < 0 ↔ name ∉ DIM_NAMES :=
  find_from_neg_iff DIM_NAMES 0 name dim_names_no_nul

/-! ## The bytes written by the emission loops -/

theorem emit_row_read (row : Nat → u8) (pos k d : Nat) (out : Nat → u8) (j : Nat) :
    emit_row row pos k d out j =
      if pos + 2 + d ≤ j ∧ j < pos + 2 + d + k then row (j - pos - 2) else out j := by
  induction k generalizing d out with
  | zero =>
    have : ¬ (pos + 2 + d ≤ j ∧ j < pos + 2 + d) := by omega
    simp [emit_row, this]
  | succ k ih =>
    rw [emit_row, ih]
    by_cases hj : j = pos + 2 + d
    · subst hj
      have h1 : ¬ (pos + 2 + (d + 1) ≤ pos + 2 + d ∧ pos + 2 + d < pos + 2 + (d + 1) + k) := by
        omega
      have h2 : pos + 2 + d ≤ pos + 2 + d ∧ pos + 2 + d < pos + 2 + d + (k + 1) := by omega
      have h3 : pos + 2 + d - pos - 2 = d := by omega
      rw [if_neg h1, if_pos h2, Function.update_same, h3]
    · rw [Function.update_noteq hj]
      by_cases hin : pos + 2 + (d + 1) ≤ j ∧ j < pos + 2 + (d + 1) + k
      · have h2 : pos + 2 + d ≤ j ∧ j < pos + 2 + d + (k + 1) := by omega
        rw [if_pos hin, if_pos h2]
      · have h2 : ¬ (pos + 2 + d ≤ j ∧ j < pos + 2 + d + (k + 1)) := by omega
        rw [if_neg hin, if_neg h2]

theorem emit_ops_read (opcodes : Nat → u8) (k i : Nat) (out : Nat → u8) (j : Nat) :
    emit_ops opcodes k i out j =
      if 16 + 2 * i ≤ j ∧ j < 16 + 2 * (i + k) then
        (if (j - 16) % 2 = 0 then opcodes ((j - 16) / 2) else 0x02)
      else out j := by
  induction k generalizing i out with
  | zero =>
    have : ¬ (16 + 2 * i ≤ j ∧ j < 16 + 2 * (i + 0)) := by omega
    rw [emit_ops, if_neg this]
  | succ k ih =>
    rw [emit_ops, ih]
    by_cases h0 : j = 16 + 2 * i
    · subst h0
      have h1 : ¬ (16 + 2 * (i + 1) ≤ 16 + 2 * i ∧ 16 + 2 * i < 16 + 2 * (i + 1 + k)) := by omega
      have h2 : 16 + 2 * i ≤ 16 + 2 * i ∧ 16 + 2 * i < 16 + 2 * (i + (k + 1)) := by omega
      have h3 : (16 + 2 * i - 16) % 2 = 0 := by omega
      have h4 : (16 + 2 * i - 16) / 2 = i := by omega
      have h5 : 16 + 2 * i ≠ 16 + 2 * i + 1 := by omega
      rw [if_neg h1, if_pos h2, if_pos h3, h4, Function.update_noteq h5, Function.update_same]
    · by_cases h1' : j = 16 + 2 * i + 1
      · subst h1'
        have h1 : ¬ (16 + 2 * (i + 1) ≤ 16 + 2 * i + 1 ∧
            16 + 2 * i + 1 < 16 + 2 * (i + 1 + k)) := by omega
        have h2 : 16 + 2 * i ≤ 16 + 2 * i + 1 ∧ 16 + 2 * i + 1 < 16 + 2 * (i + (k + 1)) := by
          omega
        have h3 : ¬ (16 + 2 * i + 1 - 16) % 2 = 0 := by omega
        rw [if_neg h1, if_pos h2, if_neg h3, Function.update_same]
      · rw [Function.update_noteq h1', Function.update_noteq h0]
        by_cases hin : 16 + 2 * (i + 1) ≤ j ∧ j < 16 + 2 * (i + 1 + k)
        · have h2 : 16 + 2 * i ≤ j ∧ j < 16 + 2 * (i + (k + 1)) := by omega
          rw [if_pos hin, if_pos h2]
        · have h2 : ¬ (16 + 2 * i ≤ j ∧ j < 16 + 2 * (i + (k + 1))) := by omega
          rw [if_neg hin, if_neg h2]

theorem emit_edges_read (buf : Nat → Nat → u8) (base k i : Nat) (out : Nat → u8) (j : Nat) :
    emit_edges buf base k i out j =
      if base + 14 * i ≤ j ∧ j < base + 14 * (i + k) then
        (if (j - base) % 14 = 0 then toU8 ((j - base) / 14)
         else if (j - base) % 14 = 1 then toU8 ((j - base) / 14 + 1)
         else buf ((j - base) / 14) ((j - base) % 14 - 2))
      else out j := by
  induction k generalizing i out with
  | zero =>
    have : ¬ (base + 14 * i ≤ j ∧ j < base + 14 * (i + 0)) := by omega
    rw [emit_edges, if_neg this]
  | succ k ih =>
    rw [emit_edges]
    simp only [DIMS]
    rw [ih, emit_row_read]
    by_cases hin : base + 14 * (i + 1) ≤ j ∧ j < base + 14 * (i + 1 + k)
    · have h2 : base + 14 * i ≤ j ∧ j < base + 14 * (i + (k + 1)) := by omega
      rw [if_pos hin, if_pos h2]
    · rw [if_neg hin]
      by_cases hrow : base + 14 * i + 2 + 0 ≤ j ∧ j < base + 14 * i + 2 + 0 + 12
      · have h2 : base + 14 * i ≤ j ∧ j < base + 14 * (i + (k + 1)) := by omega
        have h3 : ¬ (j - base) % 14 = 0 := by omega
        have h4 : ¬ (j - base) % 14 = 1 := by omega
        have h5 : (j - base) / 14 = i := by omega
        have h6 : (j - base) % 14 - 2 = j - (base + 14 * i) - 2 := by omega
        rw [if_pos hrow, if_pos h2, if_neg h3, if_neg h4, h5, h6]
      · rw [if_neg hrow]
        by_cases h1' : j = base + 14 * i + 1
        · subst h1'
          have h2 : base + 14 * i ≤ base + 14 * i + 1 ∧
              base + 14 * i + 1 < base + 14 * (i + (k + 1)) := by omega
          have h3 : ¬ (base + 14 * i + 1 - base) % 14 = 0 := by omega
          have h4 : (base + 14 * i + 1 - base) % 14 = 1 := by omega
          have h5 : (base + 14 * i + 1 - base) / 14 = i := by omega
          rw [if_pos h2, if_neg h3, if_pos h4, h5, Function.update_same]
        · rw [Function.update_noteq h1']
          by_cases h0 : j = base + 14 * i
          · subst h0
            have h2 : base + 14 * i ≤ base + 14 * i ∧
                base + 14 * i < base + 14 * (i + (k + 1)) := by omega
            have h3 : (base + 14 * i - base) % 14 = 0 := by omega
            have h5 : (base + 14 * i - base) / 14 = i := by omega
            rw [if_pos h2, if_pos h3, h5, Function.update_same]
          · have h2 : ¬ (base + 14 * i ≤ j ∧ j < base + 14 * (i + (k + 1))) := by omega
            rw [Function.update_noteq h0, if_neg h2]

/-- The 16 header bytes written by `emit_header`, and the bytes it leaves alone. -/
theorem emit_header_read (n_ops n_edges : Nat) (out : Nat → u8) (j : Nat) :
    emit_header n_ops n_edges out j =
      if j = 0 then 0x4C else if j = 1 then 0x37 else if j = 2 then 0x50
      else if j = 3 then 0x52 else if j = 4 then 0x01 else if j = 5 then 0x00
      else if j = 6 then 0x02 else if j = 7 then toU8 n_ops
      else if j = 8 then toU8 (n_edges &&& 0xFF) else if j = 9 then toU8 (n_edges >>> 8)
      else if j = 10 then 0x00 else if j = 11 then 0x4C
      else if j = 12 ∨ j = 13 ∨ j = 14 ∨ j = 15 then 0 else out j := by
  by_cases hj : j < 16
  · have e0 : toU8 'L'.toNat = 0x4C := by decide
    have e1 : toU8 '7'.toNat = 0x37 := by decide
    have e2 : toU8 'P'.toNat = 0x50 := by decide
    have e3 : toU8 'R'.toNat = 0x52 := by decide
    unfold emit_header
    rw [e0, e1, e2, e3]
    interval_cases j <;> rfl
  · unfold emit_header
    iterate 16 rw [Function.update_noteq (by omega)]
    iterate 13 rw [if_neg (by omega)]

/-! ## What a successful `assemble` leaves in the output buffer -/

theorem parse_all_eq (text : List Char) (st : AsmState) :
    parse_lines (text.length + 1) text st = parse_all text st := rfl

/-- The result of `assemble` depends on the text through the line loop alone. -/
theorem assemble_congr (t1 t2 : List Char) (out : Nat → u8) (outmax : Int)
    (h : parse_all t1 AsmState.init = parse_all t2 AsmState.init) :
    assemble t1 out outmax = assemble t2 out outmax := by
  unfold assemble
  rw [parse_all_eq, parse_all_eq, h]

theorem assemble_none (text : List Char) (out : Nat → u8) (outmax : Int)
    (h : parse_all text AsmState.init = none) : assemble text out outmax = (-1, out) := by
  unfold assemble
  rw [parse_all_eq, h]

/-- The result of `assemble` when the line loop has read `st.n_ops ≥ 1` operations and
the output has room. -/
theorem assemble_some (text : List Char) (out : Nat → u8) (outmax : Int) (st : AsmState)
    (h : parse_all text AsmState.init = some st) (h0 : st.n_ops ≠ 0)
    (hroom : ((16 + st.n_ops * 2 + (st.n_ops - 1) * 14 : Nat) : Int) ≤ outmax) :
    assemble text out outmax =
      (((16 + st.n_ops * 2 + (st.n_ops - 1) * 14 : Nat) : Int),
        emit_edges st.edge_weights_buf (16 + 2 * st.n_ops) (st.n_ops - 1) 0
          (emit_ops st.opcodes st.n_ops 0 (emit_header st.n_ops (st.n_ops - 1) out))) := by
  unfold assemble
  rw [parse_all_eq, h]
  have he : (if st.n_ops > 1 then st.n_ops - 1 else 0) = st.n_ops - 1 := by
    split <;> omega
  simp only [h0, if_false, he]
  have : ¬ ((16 + st.n_ops * 2 + (st.n_ops - 1) * 14 : Nat) : Int) > outmax := by omega
  rw [if_neg this]

/-- The bytes of the buffer after a successful `assemble`: the header, one record per
operation, one record per pair of adjacent operations, and the old bytes behind them. -/
theorem assemble_bytes (text : List Char) (out : Nat → u8) (outmax : Int) (st : AsmState)
    (h : parse_all text AsmState.init = some st) (h0 : st.n_ops ≠ 0)
    (hroom : ((16 + st.n_ops * 2 + (st.n_ops - 1) * 14 : Nat) : Int) ≤ outmax) :
    (∀ j, j < 16 → (assemble text out outmax).2 j =
      emit_header st.n_ops (st.n_ops - 1) out j) ∧
    (∀ i, i < st.n_ops →
      (assemble text out outmax).2 (16 + 2 * i) = st.opcodes i ∧
      (assemble text out outmax).2 (16 + 2 * i + 1) = 0x02) ∧
    (∀ e, e < st.n_ops - 1 →
      (assemble text out outmax).2 (16 + 2 * st.n_ops + 14 * e) = toU8 e ∧
      (assemble text out outmax).2 (16 + 2 * st.n_ops + 14 * e + 1) = toU8 (e + 1) ∧
      ∀ d, d < 12 →
        (assemble text out outmax).2 (16 + 2 * st.n_ops + 14 * e + 2 + d) =
          st.edge_weights_buf e d) ∧
    (∀ j, 16 + st.n_ops * 2 + (st.n_ops - 1) * 14 ≤ j → (assemble text out outmax).2 j = out j) := by
  rw [assemble_some text out outmax st h h0 hroom]
  simp only
  refine ⟨?_, ?_, ?_, ?_⟩
  · intro j hj
    rw [emit_edges_read, if_neg (by omega), emit_ops_read, if_neg (by omega)]
  · intro i hi
    constructor
    · rw [emit_edges_read, if_neg (by omega), emit_ops_read, if_pos (by omega),
        if_pos (by omega)]
      congr 1
      omega
    · rw [emit_edges_read, if_neg (by omega), emit_ops_read, if_pos (by omega),
        if_neg (by omega)]
  · intro e he
    refine ⟨?_, ?_, ?_⟩
    · rw [emit_edges_read, if_pos (by omega), if_pos (by omega)]
      congr 1
      omega
    · rw [emit_edges_read, if_pos (by omega), if_neg (by omega), if_pos (by omega)]
      congr 2
      omega
    · intro d hd
      rw [emit_edges_read, if_pos (by omega), if_neg (by omega), if_neg (by omega)]
      congr 1 <;> omega
  · intro j hj
    rw [emit_edges_read, if_neg (by omega), emit_ops_read, if_neg (by omega),
      emit_header_read]
    iterate 13 rw [if_neg (by omega)]

/-! ## What the line loop keeps true of its state -/

theorem find_from_range (table : List (List Char)) (i : Nat) (name : List Char) :
    find_from table i name = -1 ∨
      ((i : Int) ≤ find_from table i name ∧ find_from table i name < (i + table.length : Nat)) := by
  induction table generalizing i with
  | nil => exact Or.inl rfl
  | cons entry table ih =>
    unfold find_from
    split
    · right
      simp only [List.length_cons]
      omega
    · rcases ih (i + 1) with h | h
      · exact Or.inl h
      · right
        simp only [List.length_cons]
        omega

theorem find_op_range (name : List Char) (h : ¬ find_op_by_name name < 0) :
    (intToU8 (find_op_by_name name)).val < 22 := by
  unfold find_op_by_name at h ⊢
  rcases find_from_range OP_NAMES 0 name with h1 | h1
  · omega
  · have hl : OP_NAMES.length = 22 := rfl
    rw [hl] at h1
    simp only [intToU8]
    omega

/-- A property of the assembler state that holds before the line loop and is kept by
the reading of one operation line holds when the loop ends. -/
theorem parse_lines_inv (P : AsmState → Prop)
    (hstep : ∀ (st : AsmState) (name : List Char) (row : Nat → u8), P st → st.n_ops < 256 →
      ¬ find_op_by_name name < 0 →
      P { opcodes := Function.update st.opcodes st.n_ops (intToU8 (find_op_by_name name))
          edge_weights_buf := Function.update st.edge_weights_buf st.n_ops row
          n_ops := st.n_ops + 1 })
    (fuel : Nat) (rest : List Char) (st st' : AsmState) (h0 : P st)
    (h : parse_lines fuel rest st = some st') : P st' := by
  induction fuel generalizing rest st with
  | zero =>
    simp only [parse_lines, Option.some.injEq] at h
    exact h ▸ h0
  | succ fuel ih =>
    rw [parse_lines_succ] at h
    split at h
    · simp only [Option.some.injEq] at h
      exact h ▸ h0
    · rename_i hc
      split at h
      · simp only [Option.some.injEq] at h
        exact h ▸ h0
      · split at h
        · exact ih _ _ h0 h
        · split at h
          · exact ih _ _ h0 h
          · split at h
            · exact absurd h (by simp)
            · rename_i hfind
              refine ih _ _ (hstep st _ _ h0 ?_ hfind) h
              by_contra hn
              exact hc (Or.inr hn)

/-- Every opcode the line loop has stored is below 22, and it never counts more than
256 operations. -/
theorem parse_all_opcodes (text : List Char) (st : AsmState)
    (h : parse_all text AsmState.init = some st) :
    st.n_ops ≤ 256 ∧ ∀ i, i < st.n_ops → (st.opcodes i).val < 22 := by
  refine parse_lines_inv (fun st => st.n_ops ≤ 256 ∧ ∀ i, i < st.n_ops → (st.opcodes i).val < 22)
    ?_ _ text AsmState.init st ?_ h
  · intro st name row hP hn hfind
    refine ⟨by simp only; omega, ?_⟩
    intro i hi
    simp only at hi ⊢
    by_cases hi' : i = st.n_ops
    · subst hi'
      rw [Function.update_same]
      exact find_op_range name hfind
    · rw [Function.update_noteq hi']
      exact hP.2 i (by omega)
  · exact ⟨by simp [AsmState.init], by simp [AsmState.init]⟩

/-! ## Decoding what `assemble` has emitted -/

theorem length_bytes_of (out : Nat → u8) (n : Nat) : (bytes_of out n).length = n := by
  simp [bytes_of]

theorem rd_bytes_of (out : Nat → u8) (n j : Nat) (h : j < n) : rd (bytes_of out n) j = out j := by
  simp [rd, bytes_of, List.getD_eq_getElem?_getD, List.getElem?_map, List.getElem?_range h]

theorem toU8_val (x : Nat) : (toU8 x).val = x % 256 := rfl

theorem and_ff (x : Nat) : x &&& 0xFF = x % 256 := Nat.and_pow_two_sub_one_eq_mod x 8

theorem shr8 (x : Nat) : x >>> 8 = x / 256 := Nat.shiftRight_eq_div_pow x 8

/-- Round trip, up to 255 operations: `sigil_load` accepts the bytes `assemble` has
emitted and rebuilds the operation count, the opcodes and the edges (i -> i+1) with the
weight rows of the assembler. -/
theorem decode_assemble (text : List Char) (out : Nat → u8) (outmax : Int) (s : Sigil)
    (st : AsmState) (h : parse_all text AsmState.init = some st) (h0 : st.n_ops ≠ 0)
    (h255 : st.n_ops ≤ 255)
    (hroom : ((16 + st.n_ops * 2 + (st.n_ops - 1) * 14 : Nat) : Int) ≤ outmax) :
    (sigil_load s (bytes_of (assemble text out outmax).2
        (16 + st.n_ops * 2 + (st.n_ops - 1) * 14))).1 = 0 ∧
    (sigil_load s (bytes_of (assemble text out outmax).2
        (16 + st.n_ops * 2 + (st.n_ops - 1) * 14))).2.loaded = 1 ∧
    (sigil_load s (bytes_of (assemble text out outmax).2
        (16 + st.n_ops * 2 + (st.n_ops - 1) * 14))).2.header.n_ops.val = st.n_ops ∧
    (sigil_load s (bytes_of (assemble text out outmax).2
        (16 + st.n_ops * 2 + (st.n_ops - 1) * 14))).2.header.n_edges = st.n_ops - 1 ∧
    (sigil_load s (bytes_of (assemble text out outmax).2
        (16 + st.n_ops * 2 + (st.n_ops - 1) * 14))).2.header.astrocyte = 0x4C00 ∧
    (sigil_load s (bytes_of (assemble text out outmax).2
        (16 + st.n_ops * 2 + (st.n_ops - 1) * 14))).2.header.flags = 0x02 ∧
    (∀ i, i < st.n_ops →
      (sigil_load s (bytes_of (assemble text out outmax).2
        (16 + st.n_ops * 2 + (st.n_ops - 1) * 14))).2.ops i = ⟨st.opcodes i, 0x02⟩) ∧
    (∀ e, e < st.n_ops - 1 →
      (sigil_load s (bytes_of (assemble text out outmax).2
        (16 + st.n_ops * 2 + (st.n_ops - 1) * 14))).2.edgeAt e =
        some ⟨toU8 e, toU8 (e + 1), fun d => st.edge_weights_buf e d.val⟩) := by
  obtain ⟨hhdr, hops, hedges, -⟩ := assemble_bytes text out outmax st h h0 hroom
  obtain ⟨-, hlt⟩ := parse_all_opcodes text st h
  generalize hB : bytes_of (assemble text out outmax).2
    (16 + st.n_ops * 2 + (st.n_ops - 1) * 14) = B
  have hlen : B.length = 16 + st.n_ops * 2 + (st.n_ops - 1) * 14 := by
    rw [← hB, length_bytes_of]
  have hrd : ∀ j, j < 16 + st.n_ops * 2 + (st.n_ops - 1) * 14 →
      rd B j = (assemble text out outmax).2 j := by
    intro j hj
    rw [← hB, rd_bytes_of _ _ _ hj]
  have hH : ∀ j, j < 16 → rd B j = emit_header st.n_ops (st.n_ops - 1) out j := by
    intro j hj
    rw [hrd j (by omega), hhdr j hj]
  have b0 : rd B 0 = 0x4C := by rw [hH 0 (by omega), emit_header_read]; rfl
  have b1 : rd B 1 = 0x37 := by rw [hH 1 (by omega), emit_header_read]; rfl
  have b2 : rd B 2 = 0x50 := by rw [hH 2 (by omega), emit_header_read]; rfl
  have b3 : rd B 3 = 0x52 := by rw [hH 3 (by omega), emit_header_read]; rfl
  have b4 : rd B 4 = 0x01 := by rw [hH 4 (by omega), emit_header_read]; rfl
  have b5 : rd B 5 = 0x00 := by rw [hH 5 (by omega), emit_header_read]; rfl
  have b6 : rd B 6 = 0x02 := by rw [hH 6 (by omega), emit_header_read]; rfl
  have b7 : rd B 7 = toU8 st.n_ops := by rw [hH 7 (by omega), emit_header_read]; rfl
  have b8 : rd B 8 = toU8 ((st.n_ops - 1) &&& 0xFF) := by
    rw [hH 8 (by omega), emit_header_read]; rfl
  have b9 : rd B 9 = toU8 ((st.n_ops - 1) >>> 8) := by
    rw [hH 9 (by omega), emit_header_read]; rfl
  have b10 : rd B 10 = 0x00 := by rw [hH 10 (by omega), emit_header_read]; rfl
  have b11 : rd B 11 = 0x4C := by rw [hH 11 (by omega), emit_header_read]; rfl
  have v7 : (rd B 7).val = st.n_ops := by
    rw [b7, toU8_val]
    omega
  have v8 : (rd B 8).val = st.n_ops - 1 := by
    rw [b8, toU8_val, and_ff]
    omega
  have v9 : (rd B 9).val = 0 := by
    rw [b9, toU8_val, shr8]
    omega
  have hacc : ¬ load_rejects B := by
    unfold load_rejects
    rw [v7, v8, v9, hlen]
    push_neg
    refine ⟨by omega, ?_, by omega, ?_⟩
    · exact Or.inl ((take4_iff B (by omega) _ _ _ _).mpr ⟨b0, b1, b2, b3⟩)
    · intro i hi
      rw [hrd _ (by omega), (hops i hi).1]
      exact hlt i hi
  have hcode := (sigil_load_code s B).2 hacc
  obtain ⟨-, f2, f3, f4, f5, -, f7, f8⟩ := sigil_load_fields s B hcode.1
  refine ⟨hcode.1, hcode.2, ?_, ?_, ?_, ?_, ?_, ?_⟩
  · rw [f3, v7]
  · rw [f4, v8, v9]
    omega
  · rw [f5, b10, b11]
    rfl
  · rw [f2, b6]
  · intro i hi
    rw [f7 i (by omega), hrd _ (by omega), hrd _ (by omega), (hops i hi).1, (hops i hi).2]
  · intro e he
    rw [f8 e (by rw [v8, v9]; omega) (by omega), v7, hrd _ (by omega), hrd _ (by omega),
      (hedges e he).1, (hedges e he).2.1]
    have hw : (fun d : Fin 12 => rd B (16 + 2 * st.n_ops + 14 * e + 2 + d.val)) =
        (fun d : Fin 12 => st.edge_weights_buf e d.val) := by
      funext d
      have := d.isLt
      rw [hrd _ (by omega), (hedges e he).2.2 d.val d.isLt]
    rw [hw]

/-! ## The assembler state after well-formed lines -/

theorem count_ops_eq (ls : List SrcLine) : count_ops ls = (op_lines ls).length := by
  induction ls with
  | nil => rfl
  | cons l ls ih =>
    rw [count_ops_cons, ih]
    cases l <;> simp [op_lines, SrcLine.is_op, Nat.add_comm]

/-- Lines leave the cells below the operation counter alone. -/
theorem run_lines_frame (ls : List SrcLine) (st : AsmState) (j : Nat) (hj : j < st.n_ops) :
    (run_lines ls st).opcodes j = st.opcodes j ∧
    (run_lines ls st).edge_weights_buf j = st.edge_weights_buf j := by
  induction ls generalizing st with
  | nil => exact ⟨rfl, rfl⟩
  | cons l ls ih =>
    have hstep : (SrcLine.run st l).opcodes j = st.opcodes j ∧
        (SrcLine.run st l).edge_weights_buf j = st.edge_weights_buf j := by
      cases l with
      | blank ws => exact ⟨rfl, rfl⟩
      | comment ws body => exact ⟨rfl, rfl⟩
      | op o =>
        have hne : j ≠ st.n_ops := by omega
        simp only [SrcLine.run]
        exact ⟨Function.update_noteq hne _ _, Function.update_noteq hne _ _⟩
    have := ih (SrcLine.run st l) (by rw [run_n_ops]; omega)
    simp only [run_lines, List.foldl_cons] at this ⊢
    exact ⟨this.1.trans hstep.1, this.2.trans hstep.2⟩

/-- The k-th operation line sets the k-th opcode and the k-th weight row after the
operations already counted. -/
theorem run_lines_spec (ls : List SrcLine) (st : AsmState) (k : Nat) (o : SrcOp)
    (hk : (op_lines ls)[k]? = some o) :
    (run_lines ls st).opcodes (st.n_ops + k) = intToU8 (o.op.val : Int) ∧
    (run_lines ls st).edge_weights_buf (st.n_ops + k) =
      o.pairs.foldl SrcPair.apply (st.edge_weights_buf (st.n_ops + k)) := by
  induction ls generalizing st k with
  | nil => simp [op_lines] at hk
  | cons l ls ih =>
    cases l with
    | blank ws => exact ih st k hk
    | comment ws body => exact ih st k hk
    | op o' =>
      cases k with
      | zero =>
        simp only [op_lines, List.getElem?_cons_zero, Option.some.injEq] at hk
        subst hk
        have := run_lines_frame ls (SrcLine.run st (.op o')) st.n_ops
          (by rw [run_n_ops]; simp [SrcLine.is_op])
        simp only [run_lines, List.foldl_cons, Nat.add_zero] at this ⊢
        rw [this.1, this.2]
        simp only [SrcLine.run, Function.update_same]
        exact ⟨trivial, trivial⟩
      | succ k =>
        simp only [op_lines, List.getElem?_cons_succ] at hk
        have := ih (SrcLine.run st (.op o')) k hk
        have hn : (SrcLine.run st (.op o')).n_ops + k = st.n_ops + (k + 1) := by
          rw [run_n_ops]
          simp only [SrcLine.is_op, if_true]
          omega
        rw [hn] at this
        simp only [run_lines, List.foldl_cons] at this ⊢
        rw [this.1, this.2]
        refine ⟨rfl, ?_⟩
        have hne : st.n_ops + (k + 1) ≠ st.n_ops := by omega
        simp only [SrcLine.run, Function.update_noteq hne]

/-- The line loop on a well-formed source of at most 256 operation lines. -/
theorem parse_all_source (ls : List SrcLine) (hwf : ls.all SrcLine.wf = true)
    (hcount : count_ops ls ≤ 256) :
    parse_all (render ls) AsmState.init = some (run_lines ls AsmState.init) := by
  have := parse_all_render ls [] AsmState.init hwf (by simpa [AsmState.init] using hcount)
  rw [List.append_nil, parse_all_nil] at this
  exact this

/-! ## Pairs with an unknown name -/

theorem apply_unknown (row : Nat → u8) (p : SrcPair) (h : p.name ∉ DIM_NAMES) :
    SrcPair.apply row p = row := by
  unfold SrcPair.apply
  have := (find_dim_neg_iff p.name).mpr h
  rw [if_neg (by omega)]

theorem foldl_apply_filter (ps : List SrcPair) (row : Nat → u8) :
    (ps.filter (fun p => decide (p.name ∈ DIM_NAMES))).foldl SrcPair.apply row =
      ps.foldl SrcPair.apply row := by
  induction ps generalizing row with
  | nil => rfl
  | cons p ps ih =>
    by_cases hp : p.name ∈ DIM_NAMES
    · simp only [List.filter_cons, hp, decide_True, if_true, List.foldl_cons]
      exact ih _
    · simp only [List.filter_cons, hp, decide_False, Bool.false_eq_true, if_false,
        List.foldl_cons, apply_unknown row p hp]
      exact ih _

theorem run_strip_unknown (st : AsmState) (l : SrcLine) :
    SrcLine.run st l.strip_unknown = SrcLine.run st l := by
  cases l with
  | blank ws => rfl
  | comment ws body => rfl
  | op o =>
    simp only [SrcLine.strip_unknown, SrcLine.run, foldl_apply_filter]

theorem run_lines_strip_unknown (ls : List SrcLine) (st : AsmState) :
    run_lines (ls.map SrcLine.strip_unknown) st = run_lines ls st := by
  induction ls generalizing st with
  | nil => rfl
  | cons l ls ih =>
    simp only [run_lines, List.map_cons, List.foldl_cons, run_strip_unknown] at ih ⊢
    exact ih _

theorem wf_strip_unknown (l : SrcLine) (h : l.wf = true) : l.strip_unknown.wf = true := by
  cases l with
  | blank ws => exact h
  | comment ws body => exact h
  | op o =>
    simp only [SrcLine.wf, Bool.and_eq_true, List.all_eq_true, SrcLine.strip_unknown] at h ⊢
    refine ⟨⟨h.1.1, ?_⟩, h.2⟩
    intro p hp
    exact h.1.2 p (List.mem_of_mem_filter hp)

theorem count_ops_strip_unknown (ls : List SrcLine) :
    count_ops (ls.map SrcLine.strip_unknown) = count_ops ls := by
  induction ls with
  | nil => rfl
  | cons l ls ih =>
    rw [List.map_cons, count_ops_cons, count_ops_cons, ih]
    cases l <;> rfl

/-! ## The weight byte of a value that fits a 32-bit `int` -/

theorem dec_value_from_ge (acc : Nat) (digits : List Char) : acc ≤ dec_value_from acc digits := by
  induction digits generalizing acc with
  | nil => exact le_refl _
  | cons c t ih =>
    have := ih (acc * 10 + (c.toNat - '0'.toNat))
    simp only [dec_value_from, List.foldl_cons] at this ⊢
    omega

theorem wrap32_small (x : Int) (h0 : 0 ≤ x) (h1 : x < 2147483648) : wrap32 x = x := by
  unfold wrap32
  omega

theorem parse_int_from (acc : Nat) (digits : List Char) (hd : digits.all is_digit = true)
    (h : dec_value_from acc digits < 2147483648) :
    digits.foldl (fun v c =>
        if is_digit c then wrap32 (v * 10 + ((c.toNat : Int) - ('0'.toNat : Int))) else v)
      (acc : Int) = (dec_value_from acc digits : Int) := by
  induction digits generalizing acc with
  | nil => rfl
  | cons c t ih =>
    simp only [List.all_cons, Bool.and_eq_true] at hd
    have hc := hd.1
    simp only [is_digit, decide_eq_true_eq] at hc
    have h48 : '0'.toNat = 48 := rfl
    have hstep : dec_value_from acc (c :: t) =
        dec_value_from (acc * 10 + (c.toNat - '0'.toNat)) t := rfl
    rw [hstep] at h ⊢
    have hle := dec_value_from_ge (acc * 10 + (c.toNat - '0'.toNat)) t
    have hw : wrap32 ((acc : Int) * 10 + ((c.toNat : Int) - ('0'.toNat : Int))) =
        ((acc * 10 + (c.toNat - '0'.toNat) : Nat) : Int) := by
      rw [wrap32_small _ (by omega) (by omega)]
      omega
    simp only [List.foldl_cons, hd.1, if_true, hw]
    exact ih _ hd.2 h

/-- On a digit string whose decimal value fits a 32-bit `int`, `parse_int` returns that
value. -/
theorem parse_int_small (digits : List Char) (hd : digits.all is_digit = true)
    (h : dec_value digits < 2147483648) : parse_int digits = (dec_value digits : Int) := by
  have := parse_int_from 0 digits hd h
  simpa [parse_int, dec_value] using this

/-- On a digit string whose decimal value `v` fits a 32-bit `int`, the byte `assemble`
stores is `25 * min(v, 10)`. -/
theorem weight_byte_small (digits : List Char) (hd : digits.all is_digit = true)
    (h : dec_value digits < 2147483648) :
    (weight_byte digits).val = 25 * min (dec_value digits) 10 := by
  unfold weight_byte
  rw [parse_int_small digits hd h]
  by_cases hv : dec_value digits > 10
  · have : ((dec_value digits : Nat) : Int) > 10 := by omega
    rw [if_pos this, Nat.min_eq_right (by omega)]
    rfl
  · have : ¬ ((dec_value digits : Nat) : Int) > 10 := by omega
    rw [if_neg this, Nat.min_eq_left (by omega), wrap32_small _ (by omega) (by omega)]
    simp only [intToU8]
    omega

/-! ## The square-root loop uses up no fuel -/

/-- One turn of the square-root loop keeps `x * y = sum` and `0 < y ≤ x`, and more than
halves the gap `x - y`. -/
theorem sqrt_step (sum x y : ℚ) (hy : 0 < y) (hxy : y ≤ x) (hs : x * y = sum) :
    0 < sum / ((x + y) / 2) ∧ sum / ((x + y) / 2) ≤ (x + y) / 2 ∧
    (x + y) / 2 * (sum / ((x + y) / 2)) = sum ∧
    (x + y) / 2 - sum / ((x + y) / 2) ≤ (x - y) / 2 := by
  have hx : 0 < x := lt_of_lt_of_le hy hxy
  have hm : 0 < (x + y) / 2 := by positivity
  have hsum : 0 < sum := by rw [← hs]; positivity
  refine ⟨by positivity, ?_, ?_, ?_⟩
  · rw [div_le_iff₀ hm, ← hs]
    nlinarith [sq_nonneg (x - y)]
  · field_simp
    ring
  · rw [sub_le_iff_le_add, ← sub_le_iff_le_add', le_div_iff₀ hm, ← hs]
    nlinarith [mul_nonneg (sub_nonneg.mpr hxy) (le_of_lt hy)]

/-- From a state with `x * y = sum`, `0 < y ≤ x` and a gap of at most `2^n / 1000`, the
loop stops within `n` turns: more fuel changes nothing. -/
theorem sqrt_loop_stable (sum : ℚ) (n : Nat) :
    ∀ (x y : ℚ), 0 < y → y ≤ x → x * y = sum → x - y ≤ (2 : ℚ) ^ n / 1000 →
      ∀ f, n ≤ f → sqrt_loop sum f x y = sqrt_loop sum n x y := by
  induction n with
  | zero =>
    intro x y _ _ _ hgap f _
    have hno : ¬ x - y > 1 / 1000 := by
      simp only [pow_zero] at hgap
      exact not_lt.mpr hgap
    cases f with
    | zero => rfl
    | succ f => simp only [sqrt_loop, hno, if_false]
  | succ n ih =>
    intro x y hy hxy hs hgap f hf
    obtain ⟨k, rfl⟩ : ∃ k, f = k + 1 := ⟨f - 1, by omega⟩
    simp only [sqrt_loop]
    by_cases hc : x - y > 1 / 1000
    · rw [if_pos hc, if_pos hc]
      obtain ⟨h1, h2, h3, h4⟩ := sqrt_step sum x y hy hxy hs
      refine ih _ _ h1 h2 h3 ?_ k (by omega)
      have : (2 : ℚ) ^ (n + 1) / 1000 = 2 * ((2 : ℚ) ^ n / 1000) := by ring
      rw [this] at hgap
      linarith
    · rw [if_neg hc, if_neg hc]

theorem sqrt_fuel_bound (sum : ℚ) : sum - 1 ≤ (2 : ℚ) ^ (sqrt_fuel sum) / 1000 := by
  have h1 : 1000 * sum ≤ ((Int.toNat ⌈1000 * sum⌉ : Nat) : ℚ) := by
    have ha : 1000 * sum ≤ ((⌈1000 * sum⌉ : Int) : ℚ) := Int.le_ceil _
    have hb : (⌈1000 * sum⌉ : Int) ≤ ((Int.toNat ⌈1000 * sum⌉ : Nat) : Int) :=
      Int.self_le_toNat _
    have hc : ((⌈1000 * sum⌉ : Int) : ℚ) ≤ (((Int.toNat ⌈1000 * sum⌉ : Nat) : Int) : ℚ) := by
      exact_mod_cast hb
    calc 1000 * sum ≤ ((⌈1000 * sum⌉ : Int) : ℚ) := ha
      _ ≤ (((Int.toNat ⌈1000 * sum⌉ : Nat) : Int) : ℚ) := hc
      _ = ((Int.toNat ⌈1000 * sum⌉ : Nat) : ℚ) := by norm_cast
  have h2 : ((sqrt_fuel sum : Nat) : ℚ) ≤ (2 : ℚ) ^ (sqrt_fuel sum) := by
    have := Nat.lt_two_pow (sqrt_fuel sum)
    exact_mod_cast le_of_lt this
  have h3 : ((sqrt_fuel sum : Nat) : ℚ) = ((Int.toNat ⌈1000 * sum⌉ : Nat) : ℚ) + 1 := by
    simp [sqrt_fuel]
  rw [le_div_iff₀ (by norm_num)]
  linarith

/-- The fuel `sqrt_approx` gives the square-root loop is never used up: any larger
fuel gives the same value. -/
theorem sqrt_approx_fuel (sum : ℚ) (f : Nat) (hf : sqrt_fuel sum ≤ f) :
    sqrt_loop sum f sum 1 = sqrt_approx sum := by
  unfold sqrt_approx
  by_cases h1 : (1 : ℚ) ≤ sum
  · exact sqrt_loop_stable sum (sqrt_fuel sum) sum 1 (by norm_num) h1 (by ring)
      (sqrt_fuel_bound sum) f hf
  · have hno : ¬ sum - 1 > 1 / 1000 := by
      push_neg at h1
      linarith
    have e : ∀ g, sqrt_loop sum g sum 1 = sum := by
      intro g
      cases g with
      | zero => rfl
      | succ g => simp only [sqrt_loop, hno, if_false]
    rw [e, e]

/-! ## Single operations of the executor -/

theorem exec_op_complete (ctx : ExecCtx) (s : Sigil) (w : Coord) (F : Field) :
    exec_op ctx s 21 w F =
      ({ ctx with halted := 1, stage := 3 },
       { F.setPos ctx.particle_idx { (F.particles ctx.particle_idx).pos with astrocyte := 0 } with
         tick := (F.tick + 1) % 18446744073709551616 }) := rfl

theorem exec_op_verify (ctx : ExecCtx) (s : Sigil) (w : Coord) (F : Field) :
    exec_op ctx s 6 w F =
      if coord_similarity (F.particles ctx.particle_idx).pos w > 1 / 10 then
        ({ ctx with stage := 1 },
         { F.setPos ctx.particle_idx
             { (F.particles ctx.particle_idx).pos with
               astrocyte := (F.particles ctx.particle_idx).pos.astrocyte *
                 (1 - coord_similarity (F.particles ctx.particle_idx).pos w * (1 / 2)) } with
           tick := (F.tick + 1) % 18446744073709551616 })
      else
        ({ ctx with error := 1, halted := 1, stage := 1 },
         { F with tick := (F.tick + 1) % 18446744073709551616 }) := by
  unfold exec_op
  simp only [show ((6 : u8) : Nat) = 6 from rfl]
  split <;> rfl

theorem setPos_same (F : Field) (idx : Nat) (pos : Coord) :
    ((F.setPos idx pos).particles idx).pos = pos ∧
    ((F.setPos idx pos).particles idx).domain = (F.particles idx).domain ∧
    ((F.setPos idx pos).particles idx).sealed = (F.particles idx).sealed ∧
    ((F.setPos idx pos).particles idx).momentum = (F.particles idx).momentum ∧
    ((F.setPos idx pos).particles idx).alive = (F.particles idx).alive ∧
    ((F.setPos idx pos).particles idx).id = (F.particles idx).id := by
  simp [Field.setPos, Field.setParticle]

/-- A halted context leaves the loop of `exec_sigil` at once. -/
theorem exec_loop_halted (s : Sigil) (pidx k : Nat) (ctx : ExecCtx) (F : Field)
    (h : ctx.halted ≠ 0) : exec_loop s pidx k ctx F = (ctx, F) := by
  cases k with
  | zero => rfl
  | succ k => simp [exec_loop, h]

theorem exec_loop_succ (s : Sigil) (pidx k : Nat) (ctx : ExecCtx) (F : Field)
    (h : ctx.halted = 0) :
    exec_loop s pidx (k + 1) ctx F =
      exec_loop s pidx k
        { (exec_iter s pidx ctx F).1 with ip := (exec_iter s pidx ctx F).1.ip + 1 }
        (exec_iter s pidx ctx F).2 := by
  simp [exec_loop, h]

/-- One turn of the loop of `exec_sigil`: the weights of the step, the operation, then
the feedback when the step is not the first. -/
theorem exec_iter_eq (s : Sigil) (pidx : Nat) (ctx : ExecCtx) (F : Field) :
    exec_iter s pidx ctx F =
      if (exec_op { ctx with accumulator := (F.particles pidx).pos } s (s.ops ctx.ip).opcode
            (step_weights s ctx.ip) F).1.ip > 0
      then
        ((exec_op { ctx with accumulator := (F.particles pidx).pos } s (s.ops ctx.ip).opcode
            (step_weights s ctx.ip) F).1,
         feedback
           (coord_distance
             (exec_op { ctx with accumulator := (F.particles pidx).pos } s (s.ops ctx.ip).opcode
               (step_weights s ctx.ip) F).1.accumulator
             ((exec_op { ctx with accumulator := (F.particles pidx).pos } s (s.ops ctx.ip).opcode
               (step_weights s ctx.ip) F).2.particles pidx).pos)
           (exec_op { ctx with accumulator := (F.particles pidx).pos } s (s.ops ctx.ip).opcode
             (step_weights s ctx.ip) F).2)
      else
        exec_op { ctx with accumulator := (F.particles pidx).pos } s (s.ops ctx.ip).opcode
          (step_weights s ctx.ip) F := rfl

/-- No operation moves the instruction pointer or changes the particle the context
works on. -/
theorem exec_op_ctx (ctx : ExecCtx) (s : Sigil) (opcode : u8) (w : Coord) (F : Field) :
    (exec_op ctx s opcode w F).1.ip = ctx.ip ∧
    (exec_op ctx s opcode w F).1.particle_idx = ctx.particle_idx := by
  unfold exec_op
  simp only
  split <;> first | exact ⟨rfl, rfl⟩ | (split <;> exact ⟨rfl, rfl⟩)

/-! ## What the operations leave alone -/

/-- No operation touches the aggregate counters of the perceptron. -/
theorem exec_op_stats (ctx : ExecCtx) (s : Sigil) (opcode : u8) (w : Coord) (F : Field) :
    (exec_op ctx s opcode w F).2.prediction_error = F.prediction_error ∧
    (exec_op ctx s opcode w F).2.global_astrocyte = F.global_astrocyte := by
  unfold exec_op
  simp only
  split <;>
    first
    | exact ⟨rfl, rfl⟩
    | (split <;> exact ⟨rfl, rfl⟩)
    | (simp only [field_create]; split <;> exact ⟨rfl, rfl⟩)

/-- Only `transmute` writes the accumulator. -/
theorem exec_op_accumulator (ctx : ExecCtx) (s : Sigil) (opcode : u8) (w : Coord) (F : Field)
    (h : opcode ≠ 1) : (exec_op ctx s opcode w F).1.accumulator = ctx.accumulator := by
  unfold exec_op
  simp only
  split <;>
    first
    | rfl
    | (split <;> rfl)
    | (rename_i h1; exact absurd (Fin.ext h1) h)

/-! ## The scan of `edge_weights` -/

theorem edge_weights_scan_eq (s : Sigil) (a b k i : Nat) :
    edge_weights_scan s a b k i =
      match ((List.range' i k).filterMap s.edgeAt).find?
          (fun e => decide (e.from_.val = a ∧ e.to_.val = b)) with
      | some e => edge_coord e
      | none => Coord.zero := by
  induction k generalizing i with
  | zero => rfl
  | succ k ih =>
    rw [edge_weights_scan, List.range'_succ, List.filterMap_cons]
    cases he : s.edgeAt i with
    | none =>
      simp only
      exact ih (i + 1)
    | some e =>
      simp only [List.find?_cons]
      by_cases hm : e.from_.val = a ∧ e.to_.val = b
      · simp only [hm, and_self, if_true, decide_True]
        rfl
      · simp only [hm, if_false, decide_False]
        exact ih (i + 1)

/-- The function `edge_weights` returns the weights of the first record keyed
(a -> b) among the records the table holds, all zero when there is none. -/
theorem edge_weights_eq (s : Sigil) (a b : Nat) :
    edge_weights s a b =
      match first_edge s a b with
      | some e => edge_coord e
      | none => Coord.zero := by
  unfold edge_weights first_edge edge_records
  rw [edge_weights_scan_eq, List.range_eq_range']

/-- With at most 256 edges every record of the program is in the table. -/
theorem edge_records_length (s : Sigil) (h : s.header.n_edges ≤ 256) :
    (edge_records s).length = s.header.n_edges := by
  unfold edge_records
  have : ∀ (n : Nat), n ≤ 256 → ((List.range n).filterMap s.edgeAt).length = n := by
    intro n hn
    induction n with
    | zero => rfl
    | succ n ih =>
      rw [List.range_succ, List.filterMap_append, List.length_append, ih (by omega)]
      have : s.edgeAt n = some (s.edges ⟨n, by omega⟩) := by
        unfold Sigil.edgeAt
        rw [dif_pos (by omega)]
      simp [List.filterMap_cons, this]
  exact this _ h

/-! ## Lines that are not operation lines, and the last line of a text -/

theorem stops_append_left (p : Char → Bool) (a b : List Char) (h : stops p (a ++ b)) :
    stops p a := by
  cases a with
  | nil => trivial
  | cons c t => exact h

/-- The pair loop on one well-formed pair, whatever follows it as long as it is no digit. -/
theorem parse_pairs_step_stop (fuel : Nat) (p : SrcPair) (Y : List Char) (row : Nat → u8)
    (hwf : p.wf = true) (hY : stops is_digit Y) :
    parse_pairs (fuel + 1) (p.text ++ Y) row = parse_pairs fuel Y (SrcPair.apply row p) := by
  obtain ⟨h1, h2, h3, h4, h5⟩ := (SrcPair.wf_iff p).mp hwf
  have htext : p.text ++ Y = p.sep ++ (p.name ++ '=' :: (p.digits ++ Y)) := by
    simp [SrcPair.text]
  have hstop : stops is_space (p.name ++ '=' :: (p.digits ++ Y)) := by
    cases hn : p.name with
    | nil => simp only [List.nil_append, stops]; decide
    | cons c t =>
      rw [hn] at h4
      simpa [stops] using h4
  have e1 : (p.text ++ Y).dropWhile is_space = p.name ++ '=' :: (p.digits ++ Y) := by
    rw [htext]
    exact dropWhile_run _ _ _ h2 hstop
  have hne : ∀ c ∈ p.name, c ≠ '=' ∧ c ≠ '\n' := by
    intro c hc
    have := List.all_eq_true.mp h3 c hc
    simpa using this
  have hall : p.name.all (fun c => c != '=') = true := by
    rw [List.all_eq_true]
    intro c hc
    simpa using (hne c hc).1
  have hstop2 : stops (fun c => c != '=') ('=' :: (p.digits ++ Y)) := by
    simp [stops]
  have e2 : (p.name ++ '=' :: (p.digits ++ Y)).dropWhile (fun c => c != '=') =
      '=' :: (p.digits ++ Y) := dropWhile_run _ _ _ hall hstop2
  have e3 : (p.name ++ '=' :: (p.digits ++ Y)).takeWhile (fun c => c != '=') = p.name :=
    takeWhile_run _ _ _ hall hstop2
  have e4 : (p.digits ++ Y).dropWhile is_digit = Y := dropWhile_run _ _ _ h5 hY
  have e5 : (p.digits ++ Y).takeWhile is_digit = p.digits := takeWhile_run _ _ _ h5 hY
  have c1 : ¬ (p.text ++ Y = [] ∨ (p.text ++ Y).head? = some '\n') := by
    rw [htext]
    cases hs : p.sep with
    | nil => exact absurd hs h1
    | cons c t =>
      rw [hs] at h2
      simp only [List.all_cons, Bool.and_eq_true] at h2
      have : c ≠ '\n' := by
        intro hc
        rw [hc] at h2
        exact absurd h2.1 (by decide)
      simp [this]
  have c2 : ¬ (p.name ++ '=' :: (p.digits ++ Y) = [] ∨
      (p.name ++ '=' :: (p.digits ++ Y)).head? = some '\n') := by
    cases hn : p.name with
    | nil => simp
    | cons c t =>
      have := (hne c (by rw [hn]; exact List.mem_cons_self _ _)).2
      simp [this]
  rw [parse_pairs_succ]
  simp only [c1, if_false, e1, c2, e2, e3, List.tail_cons, e4, e5, reduceCtorEq]
  rfl

/-- The pair loop on the pairs of a well-formed line that the end of the text ends:
every pair is applied in turn and the loop stops at the end of the text. -/
theorem parse_pairs_render_end (ps : List SrcPair) (trail : List Char) (row : Nat → u8)
    (fuel : Nat) (hwf : ps.all SrcPair.wf = true) (htrail : trail.all is_space = true)
    (hfuel : ps.length < fuel) :
    parse_pairs fuel ((ps.map SrcPair.text).flatten ++ trail) row =
      (ps.foldl SrcPair.apply row, []) := by
  induction ps generalizing row fuel with
  | nil =>
    cases fuel with
    | zero => simp at hfuel
    | succ fuel =>
      rw [parse_pairs_succ]
      simp only [List.map_nil, List.flatten_nil, List.nil_append, List.foldl_nil]
      cases trail with
      | nil => simp
      | cons c t =>
        simp only [List.all_cons, Bool.and_eq_true] at htrail
        have hc : c ≠ '\n' := by
          intro hc
          rw [hc] at htrail
          exact absurd htrail.1 (by decide)
        have hall : (c :: t).all is_space = true := by
          simp only [List.all_cons, Bool.and_eq_true]
          exact htrail
        have e1 : (c :: t).dropWhile is_space = [] := by
          have := dropWhile_run is_space (c :: t) [] hall trivial
          simpa using this
        simp [hc, e1]
  | cons p ps ih =>
    cases fuel with
    | zero => simp at hfuel
    | succ fuel =>
      simp only [List.all_cons, Bool.and_eq_true] at hwf
      simp only [List.map_cons, List.flatten_cons, List.append_assoc, List.foldl_cons]
      have hY : stops is_digit ((ps.map SrcPair.text).flatten ++ trail) := by
        have := starts_sep_stops_digit _ (starts_sep_tail ps trail [] hwf.2 htrail)
        rw [← List.append_assoc] at this
        exact stops_append_left _ _ _ this
      rw [parse_pairs_step_stop fuel p _ row hwf.1 hY]
      exact ih _ fuel hwf.2 (by simpa using hfuel)

theorem parse_lines_nil (fuel : Nat) (st : AsmState) : parse_lines fuel [] st = some st := by
  cases fuel with
  | zero => rfl
  | succ fuel => simp [parse_lines_succ]

theorem text_eq_body (l : SrcLine) : l.text = l.body ++ ['\n'] := by
  cases l <;> simp [SrcLine.text, SrcLine.body]

/-- The line loop on a well-formed line read under the guard `n_ops < 256`. -/
theorem parse_all_line (l : SrcLine) (rest : List Char) (st : AsmState) (hwf : l.wf = true) :
    parse_all (l.text ++ rest) st = parse_all rest (SrcLine.run_capped st l) := by
  unfold SrcLine.run_capped
  by_cases hn : st.n_ops < 256
  · rw [if_pos hn]
    cases l with
    | blank ws =>
      have := parse_all_blank ws rest st (by simpa [SrcLine.wf] using hwf)
      simpa [SrcLine.text, SrcLine.run] using this
    | comment ws body =>
      have hw : ws.all is_blank = true ∧ body.all (fun c => c != '\n') = true := by
        simpa [SrcLine.wf] using hwf
      have := parse_all_comment ws body rest st hw.1 hw.2
      simpa [SrcLine.text, SrcLine.run] using this
    | op o => exact parse_all_op o _ st hwf hn
  · rw [if_neg hn, parse_all_full _ _ hn, parse_all_full _ _ hn]

/-! ## The last line of a text needs no newline -/

theorem parse_all_last_blank (ws : List Char) (st : AsmState) (hws : ws.all is_blank = true) :
    parse_all ws st = some st := by
  have e1 : ws.dropWhile is_blank = [] := by
    have := dropWhile_run is_blank ws [] hws trivial
    simpa using this
  unfold parse_all
  rw [parse_lines_succ]
  simp [e1]

theorem parse_all_last_comment (ws body : List Char) (st : AsmState)
    (hws : ws.all is_blank = true) (hbody : body.all (fun c => c != '\n') = true) :
    parse_all (ws ++ '#' :: body) st = some st := by
  by_cases hn : st.n_ops < 256
  · have e1 : (ws ++ '#' :: body).dropWhile is_blank = '#' :: body :=
      dropWhile_run _ _ _ hws (by simp only [stops]; decide)
    have hall : ('#' :: body).all (fun c => c != '\n') = true := by
      simp only [List.all_cons, Bool.and_eq_true]
      exact ⟨by decide, hbody⟩
    have e2 : ('#' :: body).dropWhile (fun c => c != '\n') = [] := by
      have := dropWhile_run (fun c => c != '\n') ('#' :: body) [] hall trivial
      simpa using this
    have hne : ws ++ '#' :: body ≠ [] := by simp
    have h1 : ¬ ((some '#' : Option Char) = some '\n') := by decide
    unfold parse_all
    rw [parse_lines_succ]
    simp only [hne, hn, not_true_eq_false, or_self, if_false, e1, reduceCtorEq, List.head?_cons,
      h1, if_true, e2]
    exact parse_lines_nil _ _
  · exact parse_all_full _ _ hn

theorem parse_all_last_op (l : SrcOp) (st : AsmState)
    (hwf : (SrcLine.op l).wf = true) (hn : st.n_ops < 256) :
    parse_all (SrcLine.op l).body st = some (SrcLine.run st (.op l)) := by
  simp only [SrcLine.wf, Bool.and_eq_true] at hwf
  obtain ⟨⟨hind, hps⟩, htrail⟩ := hwf
  obtain ⟨hchars, hhead⟩ := op_names_chars l.op
  have hfound := op_names_found l.op
  generalize hname : OP_NAMES.getD l.op.val [] = name at hchars hhead hfound
  cases name with
  | nil => simp at hhead
  | cons c t =>
    simp only [Bool.and_eq_true, Bool.not_eq_true', bne_iff_ne, ne_eq] at hhead
    obtain ⟨⟨hb, hnl⟩, hhash⟩ := hhead
    have hX : stops is_name_char ((l.pairs.map SrcPair.text).flatten ++ l.trail) := by
      have := starts_sep_stops_name _ (starts_sep_tail l.pairs l.trail [] hps htrail)
      rw [← List.append_assoc] at this
      exact stops_append_left _ _ _ this
    generalize hXe : (l.pairs.map SrcPair.text).flatten ++ l.trail = X at hX
    have htext : (SrcLine.op l).body = l.indent ++ (c :: (t ++ X)) := by
      simp only [SrcLine.body, hname, ← hXe]
      simp
    have e1 : (l.indent ++ (c :: (t ++ X))).dropWhile is_blank = c :: (t ++ X) :=
      dropWhile_run _ _ _ hind (by simpa [stops] using hb)
    have e2 : (c :: (t ++ X)).takeWhile is_name_char = c :: t := by
      have := takeWhile_run is_name_char (c :: t) X hchars hX
      simpa using this
    have e3 : (c :: (t ++ X)).dropWhile is_name_char = X := by
      have := dropWhile_run is_name_char (c :: t) X hchars hX
      simpa using this
    have e4 : parse_pairs (X.length + 1) X (st.edge_weights_buf st.n_ops) =
        (l.pairs.foldl SrcPair.apply (st.edge_weights_buf st.n_ops), []) := by
      rw [← hXe]
      apply parse_pairs_render_end _ _ _ _ hps htrail
      have := render_pairs_length l.pairs hps
      simp only [List.length_append]
      omega
    have hne : l.indent ++ (c :: (t ++ X)) ≠ [] := by simp
    have h1 : ¬ ((some c : Option Char) = some '\n') := by simpa using hnl
    have h2 : ¬ ((some c : Option Char) = some '#') := by simpa using hhash
    have h3 : ¬ ((l.op.val : Int) < 0) := by omega
    rw [htext]
    unfold parse_all
    rw [parse_lines_succ]
    simp only [hne, hn, not_true_eq_false, or_self, if_false, e1, reduceCtorEq, List.head?_cons,
      h1, h2, e2, e3, hfound, h3, e4, if_true, List.tail_cons, List.head?_nil]
    rw [parse_lines_nil]
    rfl

/-- The line loop on a well-formed last line that the end of the text ends. -/
theorem parse_all_last (l : SrcLine) (st : AsmState) (hwf : l.wf = true) :
    parse_all l.body st = some (SrcLine.run_capped st l) := by
  unfold SrcLine.run_capped
  by_cases hn : st.n_ops < 256
  · rw [if_pos hn]
    cases l with
    | blank ws => exact parse_all_last_blank ws st (by simpa [SrcLine.wf] using hwf)
    | comment ws body =>
      have hw : ws.all is_blank = true ∧ body.all (fun c => c != '\n') = true := by
        simpa [SrcLine.wf] using hwf
      exact parse_all_last_comment ws body st hw.1 hw.2
    | op o => exact parse_all_last_op o st hwf hn
  · rw [if_neg hn, parse_all_full _ _ hn]

/-- The line loop reads well-formed lines one after the other. -/
theorem parse_all_lines (ls : List SrcLine) (rest : List Char) (st : AsmState)
    (hwf : ls.all SrcLine.wf = true) :
    parse_all (render ls ++ rest) st = parse_all rest (ls.foldl SrcLine.run_capped st) := by
  induction ls generalizing st with
  | nil => simp [render]
  | cons l ls ih =>
    simp only [List.all_cons, Bool.and_eq_true] at hwf
    have hr : render (l :: ls) ++ rest = l.text ++ (render ls ++ rest) := by
      simp [render]
    rw [hr, parse_all_line l _ st hwf.1, ih _ hwf.2]
    rfl

/-- The line loop on a whole well-formed source. -/
theorem parse_all_source_text (ls : List SrcLine) (last : Option SrcLine) (st : AsmState)
    (hwf : (source_lines ls last).all SrcLine.wf = true) :
    parse_all (source_text ls last) st =
      some ((source_lines ls last).foldl SrcLine.run_capped st) := by
  unfold source_lines at hwf ⊢
  unfold source_text
  rw [List.all_append, Bool.and_eq_true] at hwf
  rw [parse_all_lines ls _ st hwf.1, List.foldl_append]
  cases last with
  | none => simp [parse_all_nil]
  | some l =>
    have hl : l.wf = true := by simpa using hwf.2
    simp only [Option.toList, List.foldl_cons, List.foldl_nil]
    exact parse_all_last l _ hl

/-- Lines that are not operation lines leave the arrays of `assemble` alone: the state
after a list of lines is the state after its operation lines. -/
theorem run_capped_op_lines (ls : List SrcLine) (st : AsmState) :
    ls.foldl SrcLine.run_capped st =
      ((op_lines ls).map SrcLine.op).foldl SrcLine.run_capped st := by
  induction ls generalizing st with
  | nil => rfl
  | cons l ls ih =>
    cases l with
    | blank ws =>
      have : SrcLine.run_capped st (.blank ws) = st := by
        simp [SrcLine.run_capped, SrcLine.run]
      simp only [List.foldl_cons, op_lines, this]
      exact ih st
    | comment ws body =>
      have : SrcLine.run_capped st (.comment ws body) = st := by
        simp [SrcLine.run_capped, SrcLine.run]
      simp only [List.foldl_cons, op_lines, this]
      exact ih st
    | op o =>
      simp only [List.foldl_cons, op_lines, List.map_cons]
      exact ih _

/-! ## The clamp invariant, operation by operation -/

theorem edge_coord_range (e : SigilEdge) : (edge_coord e).in_range := by
  intro d
  have h : ((e.weights d).val : ℚ) ≤ 255 := by
    have : (e.weights d).val ≤ 255 := by
      have := (e.weights d).isLt
      omega
    exact_mod_cast this
  have h0 : (0 : ℚ) ≤ ((e.weights d).val : ℚ) := Nat.cast_nonneg _
  simp only [edge_coord]
  constructor
  · positivity
  · rw [div_le_iff₀ (by norm_num)]
    linarith

theorem zero_range : Coord.zero.in_range := by
  intro d
  simp [Coord.zero]

/-- The weights of an edge are bytes divided by 25.5: they lie in [0,10]. -/
theorem edge_weights_range (s : Sigil) (a b : Nat) : (edge_weights s a b).in_range := by
  rw [edge_weights_eq]
  split
  · exact edge_coord_range _
  · exact zero_range

theorem step_weights_range (s : Sigil) (i : Nat) : (step_weights s i).in_range := by
  unfold step_weights
  split
  · exact edge_weights_range s 0 1
  · split
    · exact edge_weights_range s (i - 1) i
    · exact zero_range

theorem coord_add_range (a b : Coord) (scale : ℚ) : (coord_add a b scale).in_range := by
  intro d
  simp only [coord_add]
  split_ifs <;> constructor <;> linarith

theorem rotate_loop_range (l : List (Fin 12)) (v : Fin 12 → ℚ)
    (h : ∀ d, 0 ≤ v d ∧ v d ≤ 10) : ∀ d, 0 ≤ rotate_loop l v d ∧ rotate_loop l v d ≤ 10 := by
  induction l generalizing v with
  | nil => exact h
  | cons i rest ih =>
    apply ih
    intro d
    rw [Function.update_apply]
    split
    · exact h _
    · exact h d

/-- A Field that differs from a clamped one in the particle `pidx` alone, whose new
position is in range, is clamped. -/
theorem clamped_of (pidx : Nat) (F G : Field) (h : clamped_from pidx F)
    (hn : G.n_particles = F.n_particles)
    (hpart : ∀ j, j ≠ pidx → G.particles j = F.particles j)
    (hpos : (G.particles pidx).pos.in_range) : clamped_from pidx G := by
  refine ⟨by rw [hn]; exact h.1, ?_⟩
  intro j h1 h2
  by_cases hj : j = pidx
  · rw [hj]
    exact hpos
  · rw [hpart j hj]
    exact h.2 j h1 (by rw [← hn]; exact h2)

/-- A particle created at a position in range keeps a clamped Field clamped. -/
theorem clamped_create (pidx : Nat) (F : Field) (pos : Coord) (h : clamped_from pidx F)
    (hpos : pos.in_range) : clamped_from pidx (field_create pos F).2 := by
  unfold field_create
  split
  · exact h
  · refine ⟨?_, ?_⟩
    · have := h.1
      simp only
      omega
    · intro j h1 h2
      simp only at h2 ⊢
      by_cases hj : j = F.n_particles
      · rw [hj, Function.update_same]
        exact hpos
      · rw [Function.update_noteq hj]
        exact h.2 j h1 (by omega)

/-! ## Every operation keeps the dimensions in [0,10] -/

theorem clamped_congr (pidx : Nat) (G G1 : Field) (h : clamped_from pidx G1)
    (hn : G.n_particles = G1.n_particles) (hparts : G.particles = G1.particles) :
    clamped_from pidx G := by
  unfold clamped_from at h ⊢
  rw [hn, hparts]
  exact h

/-- A store into the particle `pidx` of a position in range keeps a clamped Field clamped. -/
theorem clamped_update (pidx : Nat) (F : Field) (q : Particle) (G : Field)
    (h : clamped_from pidx F) (hn : G.n_particles = F.n_particles)
    (hparts : G.particles = Function.update F.particles pidx q) (hq : q.pos.in_range) :
    clamped_from pidx G := by
  refine clamped_of pidx F G h hn (fun j hj => ?_) ?_
  · rw [hparts, Function.update_noteq hj]
  · rw [hparts, Function.update_same]
    exact hq

theorem range_update (v : Fin 12 → ℚ) (i : Fin 12) (x : ℚ) (hv : ∀ d, 0 ≤ v d ∧ v d ≤ 10)
    (hx : 0 ≤ x ∧ x ≤ 10) : ∀ d, 0 ≤ Function.update v i x d ∧ Function.update v i x d ≤ 10 := by
  intro d
  rw [Function.update_apply]
  split
  · exact hx
  · exact hv d

theorem cap10_range (x : ℚ) (h : 0 ≤ x) : 0 ≤ cap10 x ∧ cap10 x ≤ 10 := by
  unfold cap10
  split_ifs <;> constructor <;> linarith

/-- With weights in [0,10] and an accumulator in [0,10], every operation leaves the
particle of the run, and the particles created after it, with their dimensions in [0,10]. -/
theorem exec_op_clamp (ctx : ExecCtx) (s : Sigil) (opcode : u8) (w : Coord) (F : Field)
    (hw : w.in_range) (hacc : ctx.accumulator.in_range)
    (h : clamped_from ctx.particle_idx F) :
    clamped_from ctx.particle_idx (exec_op ctx s opcode w F).2 := by
  have hp : (F.particles ctx.particle_idx).pos.in_range := h.2 _ (le_refl _) h.1
  have hpv : ∀ d, 0 ≤ (F.particles ctx.particle_idx).pos.v d ∧
      (F.particles ctx.particle_idx).pos.v d ≤ 10 := hp
  have hwv : ∀ d, 0 ≤ w.v d ∧ w.v d ≤ 10 := hw
  have ten : (0 : ℚ) ≤ 10 ∧ (10 : ℚ) ≤ 10 := ⟨by norm_num, le_refl _⟩
  have zero : (0 : ℚ) ≤ 0 ∧ (0 : ℚ) ≤ 10 := ⟨le_refl _, by norm_num⟩
  have nine : (0 : ℚ) ≤ 9 ∧ (9 : ℚ) ≤ 10 := ⟨by norm_num, by norm_num⟩
  unfold exec_op
  simp only
  split
  · -- invoke
    exact clamped_update _ F _ _ h rfl rfl hw
  · -- transmute
    exact clamped_update _ F _ _ h rfl rfl (coord_add_range _ _ _)
  · -- seal
    exact clamped_update _ F _ _ h rfl rfl (range_update _ 4 _ hpv ten)
  · -- dream
    exact clamped_update _ F _ _ h rfl rfl
      (range_update _ 8 _ hpv (cap10_range _ (by linarith [(hpv 8).1])))
  · -- publish
    refine clamped_update _ F _ _ h rfl rfl (range_update _ 6 _ hpv ?_)
    have := hwv 6
    split_ifs <;> constructor <;> linarith
  · -- bind
    refine clamped_update _ F _ _ h rfl rfl ?_
    intro d
    have := hpv d
    have := hwv d
    dsimp only
    split_ifs <;> constructor <;> linarith
  · -- verify
    split
    · exact clamped_update _ F _ _ h rfl rfl hp
    · exact clamped_congr _ _ F h rfl rfl
  · -- orchestrate
    refine clamped_update _ F _ _ h rfl rfl ?_
    intro d
    have := hpv d
    have := hwv d
    dsimp only
    split_ifs <;> constructor <;> linarith
  · -- redeem
    have h1 := range_update _ 9 _ hpv
      (cap10_range ((F.particles ctx.particle_idx).pos.v 9 + 3) (by linarith [(hpv 9).1]))
    exact clamped_update _ F _ _ h rfl rfl
      (range_update _ 4 _ h1 ⟨by linarith [(h1 4).1], by linarith [(h1 4).2]⟩)
  · -- reflect
    exact clamped_update _ F _ _ h rfl rfl hp
  · -- rotate
    exact clamped_update _ F _ _ h rfl rfl
      (range_update _ 0 _ (rotate_loop_range _ _ hpv) (hpv 11))
  · -- audit
    exact clamped_congr _ _ F h rfl rfl
  · -- decompose
    refine clamped_update _ F _ _ h rfl rfl ?_
    intro d
    have := hpv d
    dsimp only
    split_ifs <;> constructor <;> linarith
  · -- transition
    exact clamped_update _ F _ _ h rfl rfl hp
  · -- translate
    refine clamped_update _ F _ _ h rfl rfl ?_
    intro d
    have := hpv d
    have := hwv d
    dsimp only
    constructor <;> linarith
  · -- quarantine
    exact clamped_update _ F _ _ h rfl rfl
      (range_update _ 6 _ (range_update _ 0 _ (range_update _ 4 _ hpv nine) zero) zero)
  · -- recover
    exact clamped_update _ F _ _ h rfl rfl hacc
  · -- aspire
    exact clamped_update _ F _ _ h rfl rfl
      (range_update _ 10 _ (range_update _ 7 _ hpv ten) ten)
  · -- speculate
    exact clamped_update _ F _ _ h rfl rfl
      (range_update _ 8 _ hpv (cap10_range _ (by linarith [(hpv 8).1])))
  · -- illuminate
    exact clamped_update _ F _ _ h rfl rfl
      (range_update _ 2 _ hpv (cap10_range _ (by linarith [(hpv 2).1])))
  · -- succeed
    exact clamped_congr _ _ _
      (clamped_create _ F { v := (F.particles ctx.particle_idx).pos.v, astrocyte := 1 / 10 } h hp)
      rfl rfl
  · -- complete
    exact clamped_update _ F _ _ h rfl rfl hp
  · exact clamped_congr _ _ F h rfl rfl

/-! ## The clamp invariant along a run -/

theorem exec_iter_clamp (s : Sigil) (pidx : Nat) (ctx : ExecCtx) (F : Field)
    (hidx : ctx.particle_idx = pidx) (h : clamped_from pidx F) :
    clamped_from pidx (exec_iter s pidx ctx F).2 ∧
    (exec_iter s pidx ctx F).1.particle_idx = pidx := by
  subst hidx
  have hop := exec_op_clamp { ctx with accumulator := (F.particles ctx.particle_idx).pos } s
    (s.ops ctx.ip).opcode (step_weights s ctx.ip) F (step_weights_range s ctx.ip)
    (h.2 ctx.particle_idx (le_refl _) h.1) h
  have hctx := (exec_op_ctx { ctx with accumulator := (F.particles ctx.particle_idx).pos } s
    (s.ops ctx.ip).opcode (step_weights s ctx.ip) F).2
  rw [exec_iter_eq]
  split
  · exact ⟨clamped_congr _ _ _ hop rfl rfl, hctx⟩
  · exact ⟨hop, hctx⟩

theorem exec_loop_clamp (s : Sigil) (pidx m : Nat) (ctx : ExecCtx) (F : Field)
    (hidx : ctx.particle_idx = pidx) (h : clamped_from pidx F) :
    clamped_from pidx (exec_loop s pidx m ctx F).2 := by
  induction m generalizing ctx F with
  | zero => exact h
  | succ m ih =>
    by_cases hh : ctx.halted = 0
    · rw [exec_loop_succ s pidx m ctx F hh]
      obtain ⟨h1, h2⟩ := exec_iter_clamp s pidx ctx F hidx h
      exact ih _ _ h2 h1
    · rw [exec_loop_halted s pidx _ ctx F hh]
      exact h

/-- The particle `exec_sigil` creates for the run starts at the origin. -/
theorem clamped_start (s : Sigil) (F0 : Field) (hroom : F0.n_particles < MAX_PARTICLES) :
    clamped_from F0.n_particles (field_create (initial_coord s) F0).2 := by
  have hno : ¬ F0.n_particles ≥ MAX_PARTICLES := by omega
  unfold field_create
  rw [if_neg hno]
  refine ⟨Nat.lt_succ_self _, ?_⟩
  intro j h1 h2
  have hj : j = F0.n_particles := by
    simp only at h2
    omega
  subst hj
  simp only [Function.update_same]
  intro d
  simp [initial_coord]

/-- A turn more of the loop of `exec_sigil`: nothing when the run has halted, else the
step at `ip` and the increment of `ip`. -/
theorem exec_loop_snoc (s : Sigil) (pidx m : Nat) (ctx : ExecCtx) (F : Field) :
    exec_loop s pidx (m + 1) ctx F =
      if (exec_loop s pidx m ctx F).1.halted ≠ 0 then exec_loop s pidx m ctx F
      else
        ({ (exec_iter s pidx (exec_loop s pidx m ctx F).1 (exec_loop s pidx m ctx F).2).1 with
           ip := (exec_iter s pidx (exec_loop s pidx m ctx F).1
             (exec_loop s pidx m ctx F).2).1.ip + 1 },
         (exec_iter s pidx (exec_loop s pidx m ctx F).1 (exec_loop s pidx m ctx F).2).2) := by
  induction m generalizing ctx F with
  | zero =>
    by_cases hh : ctx.halted = 0
    · rw [exec_loop_succ s pidx 0 ctx F hh]
      simp [exec_loop, hh]
    · rw [exec_loop_halted s pidx _ ctx F hh]
      simp [exec_loop, hh]
  | succ m ih =>
    by_cases hh : ctx.halted = 0
    · rw [exec_loop_succ s pidx (m + 1) ctx F hh, exec_loop_succ s pidx m ctx F hh]
      exact ih _ _
    · rw [exec_loop_halted s pidx _ ctx F hh, exec_loop_halted s pidx _ ctx F hh]
      simp [hh]

/-- The states of `run_steps` are the states of the run after each executed step. -/
theorem run_steps_succ (s : Sigil) (F0 : Field) (m : Nat) :
    run_steps s F0 (m + 1) =
      if (run_steps s F0 m).1.halted ≠ 0 then run_steps s F0 m
      else
        ({ (exec_iter s F0.n_particles (run_steps s F0 m).1 (run_steps s F0 m).2).1 with
           ip := (exec_iter s F0.n_particles (run_steps s F0 m).1 (run_steps s F0 m).2).1.ip + 1 },
         (exec_iter s F0.n_particles (run_steps s F0 m).1 (run_steps s F0 m).2).2) :=
  exec_loop_snoc s F0.n_particles m _ _

/-- The call `exec_sigil(s)` on a loaded program with an operation and a Field with
room for a particle: its Field is the last state of the run. -/
theorem exec_sigil_run (s : Sigil) (F0 : Field) (hl : s.loaded ≠ 0)
    (hn : s.header.n_ops.val ≠ 0) (hroom : F0.n_particles < MAX_PARTICLES) :
    exec_sigil s F0 =
      (if (run_steps s F0 s.header.n_ops.val).1.error ≠ 0 then -3 else 0,
       (run_steps s F0 s.header.n_ops.val).2) := by
  have hno : ¬ F0.n_particles ≥ MAX_PARTICLES := by omega
  have hc : field_create (initial_coord s) F0 =
      ((F0.n_particles : Int), (field_create (initial_coord s) F0).2) := by
    unfold field_create
    rw [if_neg hno]
  unfold exec_sigil
  rw [if_neg (by simp [hl, hn])]
  simp only
  rw [hc]
  simp only
  rw [if_neg (by omega)]
  rfl

/-! ## What the square-root loop returns, and the similarity of a coordinate with itself -/

/-- From a state with `x * y = sum` and `0 < y ≤ x`, the loop returns an `r` that has a
partner `y1` with `r * y1 = sum`, `0 < y1 ≤ r` and `r - y1 ≤ 0.001`. -/
theorem sqrt_loop_post (sum : ℚ) (n : Nat) :
    ∀ (x y : ℚ), 0 < y → y ≤ x → x * y = sum → x - y ≤ (2 : ℚ) ^ n / 1000 →
      ∃ y1, 0 < y1 ∧ y1 ≤ sqrt_loop sum n x y ∧ sqrt_loop sum n x y * y1 = sum ∧
        sqrt_loop sum n x y - y1 ≤ 1 / 1000 := by
  induction n with
  | zero =>
    intro x y hy hxy hs hgap
    simp only [pow_zero] at hgap
    exact ⟨y, hy, hxy, hs, hgap⟩
  | succ n ih =>
    intro x y hy hxy hs hgap
    simp only [sqrt_loop]
    by_cases hc : x - y > 1 / 1000
    · rw [if_pos hc]
      obtain ⟨h1, h2, h3, h4⟩ := sqrt_step sum x y hy hxy hs
      refine ih _ _ h1 h2 h3 ?_
      have : (2 : ℚ) ^ (n + 1) / 1000 = 2 * ((2 : ℚ) ^ n / 1000) := by ring
      rw [this] at hgap
      linarith
    · rw [if_neg hc]
      exact ⟨y, hy, hxy, hs, not_lt.mp hc⟩

/-- For `sum ≥ 1` the value `r` of `sqrt_approx` has `r ≥ 1` and `sum / r` within 0.001
below it. -/
theorem sqrt_approx_post (sum : ℚ) (h : 1 ≤ sum) :
    1 ≤ sqrt_approx sum ∧ sum / sqrt_approx sum ≤ sqrt_approx sum ∧
    sqrt_approx sum - sum / sqrt_approx sum ≤ 1 / 1000 := by
  have hpost : ∃ y1, 0 < y1 ∧ y1 ≤ sqrt_approx sum ∧ sqrt_approx sum * y1 = sum ∧
      sqrt_approx sum - y1 ≤ 1 / 1000 :=
    sqrt_loop_post sum (sqrt_fuel sum) sum 1 (by norm_num) h (by ring) (sqrt_fuel_bound sum)
  obtain ⟨y1, h1, h2, h3, h4⟩ := hpost
  generalize sqrt_approx sum = r at h2 h3 h4 ⊢
  have hr : 0 < r := lt_of_lt_of_le h1 h2
  have hy : sum / r = y1 := by
    rw [← h3]
    field_simp
  have hr1 : 1 ≤ r := by
    by_contra hlt
    push_neg at hlt
    have : r * y1 < 1 := by nlinarith
    linarith
  rw [hy]
  exact ⟨hr1, h2, h4⟩

/-- For a coordinate whose sum of squares is at least 1, `coord_similarity(a, a)` is
within 0.001 of 1. -/
theorem similarity_self_large (a : Coord)
    (h : 1 ≤ dims.foldl (fun ma i => ma + a.v i * a.v i) 0) :
    1 - 1 / 1000 ≤ coord_similarity a a ∧ coord_similarity a a ≤ 1 := by
  unfold coord_similarity
  simp only
  generalize dims.foldl (fun ma i => ma + a.v i * a.v i) 0 = sum at h ⊢
  obtain ⟨h1, h2, h3⟩ := sqrt_approx_post sum h
  generalize sqrt_approx sum = r at h1 h2 h3 ⊢
  have hr : 0 < r := by linarith
  have hno : ¬ (r < 1 / 1000 ∨ r < 1 / 1000) := by
    intro hc
    rcases hc with hc | hc <;> linarith
  rw [if_neg hno]
  have e : sum / (r * r) = sum / r / r := by
    field_simp
  rw [e]
  constructor
  · rw [le_div_iff₀ hr]
    nlinarith
  · rw [div_le_iff₀ hr]
    linarith

/-! ## The feedback after `transmute` -/

theorem sqrt_approx_zero : sqrt_approx 0 = 0 := by
  unfold sqrt_approx sqrt_fuel
  simp [sqrt_loop]
  norm_num

theorem coord_distance_self (a : Coord) : coord_distance a a = 0 := by
  unfold coord_distance
  simp only [sub_self, mul_zero, add_zero]
  have : dims.foldl (fun (sum : ℚ) (_ : Fin 12) => sum) 0 = 0 := by
    simp [dims]
  rw [this]
  exact sqrt_approx_zero

theorem exec_op_transmute (ctx : ExecCtx) (s : Sigil) (w : Coord) (F : Field) :
    (exec_op ctx s 1 w F).1.accumulator =
      ((exec_op ctx s 1 w F).2.particles ctx.particle_idx).pos := by
  unfold exec_op
  simp [Field.setPos, Field.setParticle]

/-- The operation `transmute` stores its result in the accumulator before it stores it
in the particle, so the error of the feedback after it, the distance between the
accumulator and the position, is 0 however far the particle has moved. -/
theorem transmute_feedback (s : Sigil) (ctx : ExecCtx) (F : Field)
    (hpos : 0 < ctx.ip) (hop : (s.ops ctx.ip).opcode = 1) :
    (exec_iter s ctx.particle_idx ctx F).2.prediction_error = F.prediction_error * (9 / 10) := by
  obtain ⟨hip, -⟩ := exec_op_ctx
    { ctx with accumulator := (F.particles ctx.particle_idx).pos } s
    (s.ops ctx.ip).opcode (step_weights s ctx.ip) F
  obtain ⟨hpe, -⟩ := exec_op_stats
    { ctx with accumulator := (F.particles ctx.particle_idx).pos } s
    (s.ops ctx.ip).opcode (step_weights s ctx.ip) F
  have hacc := exec_op_transmute
    { ctx with accumulator := (F.particles ctx.particle_idx).pos } s (step_weights s ctx.ip) F
  rw [exec_iter_eq, hip, if_pos hpos]
  simp only [feedback, hpe]
  rw [hop, hacc, coord_distance_self]
  ring

/-! ## The square-root loop stops by its own test -/

theorem sqrt_approx_small (sum : ℚ) (h : sum < 1) : sqrt_approx sum = sum := by
  unfold sqrt_approx
  have hno : ¬ sum - 1 > 1 / 1000 := by linarith
  have hf : sqrt_fuel sum = (Int.toNat ⌈1000 * sum⌉) + 1 := rfl
  rw [hf]
  simp only [sqrt_loop, hno, if_false]

theorem sqrt_state_succ (sum : ℚ) (n : Nat) :
    sqrt_state sum (n + 1) =
      (((sqrt_state sum n).1 + (sqrt_state sum n).2) / 2,
        sum / (((sqrt_state sum n).1 + (sqrt_state sum n).2) / 2)) := rfl

/-- From the state after `k` turns, with `x * y = sum`, `0 < y ≤ x` and a gap of at most
`2^f / 1000`, the loop with fuel `f` stops by its test after `n - k` more turns. -/
theorem sqrt_loop_stops (sum : ℚ) (f : Nat) :
    ∀ k, 0 < (sqrt_state sum k).2 → (sqrt_state sum k).2 ≤ (sqrt_state sum k).1 →
      (sqrt_state sum k).1 * (sqrt_state sum k).2 = sum →
      (sqrt_state sum k).1 - (sqrt_state sum k).2 ≤ (2 : ℚ) ^ f / 1000 →
      ∃ n, k ≤ n ∧ n ≤ k + f ∧
        (∀ m, k ≤ m → m < n → (sqrt_state sum m).1 - (sqrt_state sum m).2 > 1 / 1000) ∧
        ¬ (sqrt_state sum n).1 - (sqrt_state sum n).2 > 1 / 1000 ∧
        sqrt_loop sum f (sqrt_state sum k).1 (sqrt_state sum k).2 = (sqrt_state sum n).1 := by
  induction f with
  | zero =>
    intro k _ _ _ hgap
    simp only [pow_zero] at hgap
    exact ⟨k, le_refl _, le_refl _, fun m h1 h2 => absurd h2 (by omega), not_lt.mpr hgap, rfl⟩
  | succ f ih =>
    intro k hy hxy hs hgap
    by_cases hc : (sqrt_state sum k).1 - (sqrt_state sum k).2 > 1 / 1000
    · obtain ⟨h1, h2, h3, h4⟩ := sqrt_step sum _ _ hy hxy hs
      have hgap2 : (sqrt_state sum (k + 1)).1 - (sqrt_state sum (k + 1)).2 ≤ (2 : ℚ) ^ f / 1000 := by
        rw [sqrt_state_succ]
        have : (2 : ℚ) ^ (f + 1) / 1000 = 2 * ((2 : ℚ) ^ f / 1000) := by ring
        rw [this] at hgap
        simp only
        linarith
      obtain ⟨n, hn1, hn2, hn3, hn4, hn5⟩ := ih (k + 1) h1 h2 h3 hgap2
      refine ⟨n, by omega, by omega, ?_, hn4, ?_⟩
      · intro m hm1 hm2
        by_cases hmk : m = k
        · rw [hmk]
          exact hc
        · exact hn3 m (by omega) hm2
      · rw [← hn5]
        simp only [sqrt_loop, hc, if_true]
        rfl
    · refine ⟨k, le_refl _, by omega, fun m h1 h2 => absurd h2 (by omega), hc, ?_⟩
      simp only [sqrt_loop, hc, if_false]

/-- The square-root loop terminates on every sum: there is a number `n` of turns, within
the fuel of the model, after which the test `x - y > 0.001` fails for the first time, and
`sqrt_approx` is the `x` of that moment. -/
theorem sqrt_terminates (sum : ℚ) :
    ∃ n, n ≤ sqrt_fuel sum ∧
      (∀ m, m < n → (sqrt_state sum m).1 - (sqrt_state sum m).2 > 1 / 1000) ∧
      ¬ (sqrt_state sum n).1 - (sqrt_state sum n).2 > 1 / 1000 ∧
      sqrt_approx sum = (sqrt_state sum n).1 := by
  by_cases h1 : (1 : ℚ) ≤ sum
  · obtain ⟨n, -, hn2, hn3, hn4, hn5⟩ := sqrt_loop_stops sum (sqrt_fuel sum) 0
      (by simp [sqrt_state]) (by simpa [sqrt_state] using h1) (by simp [sqrt_state])
      (by simpa [sqrt_state] using sqrt_fuel_bound sum)
    exact ⟨n, by omega, fun m hm => hn3 m (Nat.zero_le _) hm, hn4, hn5⟩
  · push_neg at h1
    refine ⟨0, Nat.zero_le _, fun m hm => absurd hm (by omega), ?_, ?_⟩
    · simp only [sqrt_state]
      linarith
    · rw [sqrt_approx_small sum h1]
      rfl

/-- For `sum ≥ 1` the result lies between the square root of the sum and the square
root plus 0.001. -/
theorem sqrt_approx_real (sum : ℚ) (h : 1 ≤ sum) :
    Real.sqrt (sum : ℝ) ≤ (sqrt_approx sum : ℝ) ∧
    (sqrt_approx sum : ℝ) ≤ Real.sqrt (sum : ℝ) + 1 / 1000 := by
  obtain ⟨h1, h2, h3⟩ := sqrt_approx_post sum h
  generalize sqrt_approx sum = r at h1 h2 h3
  have hr : 0 < r := by linarith
  have hS : 0 < sum := by linarith
  have hy : 0 < sum / r := div_pos hS hr
  have e : sum / r * r = sum := by field_simp
  have hle : sum ≤ r * r := by
    calc sum = sum / r * r := e.symm
      _ ≤ r * r := by nlinarith
  have hge : sum / r * (sum / r) ≤ sum := by
    calc sum / r * (sum / r) ≤ sum / r * r := by nlinarith
      _ = sum := e
  have hleR : (sum : ℝ) ≤ (r : ℝ) ^ 2 := by
    have : ((sum : ℚ) : ℝ) ≤ ((r * r : ℚ) : ℝ) := by exact_mod_cast hle
    rw [pow_two]
    exact_mod_cast this
  have hgeR : ((sum / r : ℚ) : ℝ) ^ 2 ≤ (sum : ℝ) := by
    have : ((sum / r * (sum / r) : ℚ) : ℝ) ≤ ((sum : ℚ) : ℝ) := by exact_mod_cast hge
    rw [pow_two]
    exact_mod_cast this
  have hr0 : (0 : ℝ) ≤ (r : ℝ) := by exact_mod_cast le_of_lt hr
  have hy0 : (0 : ℝ) ≤ ((sum / r : ℚ) : ℝ) := by exact_mod_cast le_of_lt hy
  have hS0 : (0 : ℝ) ≤ (sum : ℝ) := by exact_mod_cast le_of_lt hS
  constructor
  · exact Real.sqrt_le_iff.mpr ⟨hr0, hleR⟩
  · have hys : ((sum / r : ℚ) : ℝ) ≤ Real.sqrt (sum : ℝ) := Real.le_sqrt_of_sq_le hgeR
    have h3R : (r : ℝ) - ((sum / r : ℚ) : ℝ) ≤ 1 / 1000 := by
      have : ((r - sum / r : ℚ) : ℝ) ≤ ((1 / 1000 : ℚ) : ℝ) := by exact_mod_cast h3
      push_cast at this ⊢
      linarith
    linarith

/-! ## What an operation does to the flags, the tick and the rest of the Field -/

/-- The flags after an operation: `complete` and a failing `verify` set `halted`, a
failing `verify` sets `error`, and nothing else touches them. -/
theorem exec_op_flags (ctx : ExecCtx) (s : Sigil) (opcode : u8) (w : Coord) (F : Field) :
    (exec_op ctx s opcode w F).1.halted =
      (if opcode.val = 21 ∨
          (opcode.val = 6 ∧ coord_similarity (F.particles ctx.particle_idx).pos w ≤ 1 / 10)
        then 1 else ctx.halted) ∧
    (exec_op ctx s opcode w F).1.error =
      (if opcode.val = 6 ∧ coord_similarity (F.particles ctx.particle_idx).pos w ≤ 1 / 10
        then 1 else ctx.error) := by
  by_cases h6 : opcode.val = 6
  · have e : opcode = 6 := Fin.ext h6
    subst e
    rw [exec_op_verify]
    by_cases hs : coord_similarity (F.particles ctx.particle_idx).pos w > 1 / 10
    · have hle : ¬ coord_similarity (F.particles ctx.particle_idx).pos w ≤ 1 / 10 := not_le.mpr hs
      rw [if_pos hs, if_neg (fun h => h.elim (fun h21 => absurd h21 (by decide)) (fun h => hle h.2)),
        if_neg (fun h => hle h.2)]
      exact ⟨rfl, rfl⟩
    · have hle : coord_similarity (F.particles ctx.particle_idx).pos w ≤ 1 / 10 := not_lt.mp hs
      rw [if_neg hs, if_pos (Or.inr ⟨rfl, hle⟩), if_pos ⟨rfl, hle⟩]
      exact ⟨rfl, rfl⟩
  · unfold exec_op
    simp only
    split
    all_goals
      first
      | (rename_i heq; exact absurd heq h6)
      | (rename_i heq; simp [heq]; done)
      | (rename_i heq; have h21 : ¬ opcode.val = 21 := heq; simp [h21, h6])

/-- Every operation advances the tick of the Field by one (modulo 2^64). -/
theorem exec_op_tick (ctx : ExecCtx) (s : Sigil) (opcode : u8) (w : Coord) (F : Field) :
    (exec_op ctx s opcode w F).2.tick = (F.tick + 1) % 18446744073709551616 := by
  unfold exec_op
  simp only
  split <;>
    first
    | rfl
    | (split <;> rfl)
    | (simp only [field_create]; split <;> rfl)

/-- The stage after an operation is the stage of its opcode. -/
theorem exec_op_stage (ctx : ExecCtx) (s : Sigil) (opcode : u8) (w : Coord) (F : Field) :
    (exec_op ctx s opcode w F).1.stage = op_stage opcode := rfl

theorem exec_op_succeed (ctx : ExecCtx) (s : Sigil) (w : Coord) (F : Field) :
    exec_op ctx s 20 w F =
      ({ ctx with stage := 3 },
       { (field_create
            { v := (F.particles ctx.particle_idx).pos.v, astrocyte := 1 / 10 } F).2 with
         tick := ((field_create
            { v := (F.particles ctx.particle_idx).pos.v, astrocyte := 1 / 10 } F).2.tick + 1) %
              18446744073709551616 }) := rfl

theorem frame_step_update (idx : Nat) (F G : Field) (q : Particle)
    (hn : G.n_particles = F.n_particles) (hid : G.next_id = F.next_id)
    (he : G.edges = F.edges) (hne : G.n_edges = F.n_edges)
    (hparts : G.particles = Function.update F.particles idx q)
    (h1 : q.momentum = (F.particles idx).momentum) (h2 : q.alive = (F.particles idx).alive)
    (h3 : q.id = (F.particles idx).id) : frame_step idx F G := by
  refine ⟨hn, hid, he, hne, fun j hj => ?_, ?_, ?_, ?_⟩
  · rw [hparts, Function.update_noteq hj]
  · rw [hparts, Function.update_same, h1]
  · rw [hparts, Function.update_same, h2]
  · rw [hparts, Function.update_same, h3]

theorem frame_step_same (idx : Nat) (F G : Field)
    (hn : G.n_particles = F.n_particles) (hid : G.next_id = F.next_id)
    (he : G.edges = F.edges) (hne : G.n_edges = F.n_edges)
    (hparts : G.particles = F.particles) : frame_step idx F G := by
  refine ⟨hn, hid, he, hne, fun j _ => ?_, ?_, ?_, ?_⟩ <;> rw [hparts]

/-- Every operation but `succeed` leaves the Field as it is but for the tick and for the
position, domain and sealed flag of the particle of the context. -/
theorem exec_op_frame (ctx : ExecCtx) (s : Sigil) (opcode : u8) (w : Coord) (F : Field)
    (h : opcode.val ≠ 20) :
    frame_step ctx.particle_idx F (exec_op ctx s opcode w F).2 := by
  unfold exec_op
  simp only
  split
  · exact frame_step_update _ F _ _ rfl rfl rfl rfl rfl rfl rfl rfl
  · exact frame_step_update _ F _ _ rfl rfl rfl rfl rfl rfl rfl rfl
  · exact frame_step_update _ F _ _ rfl rfl rfl rfl rfl rfl rfl rfl
  · exact frame_step_update _ F _ _ rfl rfl rfl rfl rfl rfl rfl rfl
  · exact frame_step_update _ F _ _ rfl rfl rfl rfl rfl rfl rfl rfl
  · exact frame_step_update _ F _ _ rfl rfl rfl rfl rfl rfl rfl rfl
  · split
    · exact frame_step_update _ F _ _ rfl rfl rfl rfl rfl rfl rfl rfl
    · exact frame_step_same _ F _ rfl rfl rfl rfl rfl
  · exact frame_step_update _ F _ _ rfl rfl rfl rfl rfl rfl rfl rfl
  · exact frame_step_update _ F _ _ rfl rfl rfl rfl rfl rfl rfl rfl
  · exact frame_step_update _ F _ _ rfl rfl rfl rfl rfl rfl rfl rfl
  · exact frame_step_update _ F _ _ rfl rfl rfl rfl rfl rfl rfl rfl
  · exact frame_step_same _ F _ rfl rfl rfl rfl rfl
  · exact frame_step_update _ F _ _ rfl rfl rfl rfl rfl rfl rfl rfl
  · exact frame_step_update _ F _ _ rfl rfl rfl rfl rfl rfl rfl rfl
  · exact frame_step_update _ F _ _ rfl rfl rfl rfl rfl rfl rfl rfl
  · exact frame_step_update _ F _ _ rfl rfl rfl rfl rfl rfl rfl rfl
  · exact frame_step_update _ F _ _ rfl rfl rfl rfl rfl rfl rfl rfl
  · exact frame_step_update _ F _ _ rfl rfl rfl rfl rfl rfl rfl rfl
  · exact frame_step_update _ F _ _ rfl rfl rfl rfl rfl rfl rfl rfl
  · exact frame_step_update _ F _ _ rfl rfl rfl rfl rfl rfl rfl rfl
  · rename_i heq
    exact absurd heq h
  · exact frame_step_update _ F _ _ rfl rfl rfl rfl rfl rfl rfl rfl
  · exact frame_step_same _ F _ rfl rfl rfl rfl rfl

/-- A program cut short has the operations, the edges and the header uncertainty of the
whole program: every operation does the same in both. -/
theorem exec_op_truncate (ctx : ExecCtx) (s : Sigil) (n : Nat) (opcode : u8) (w : Coord)
    (F : Field) : exec_op ctx (s.truncate n) opcode w F = exec_op ctx s opcode w F := rfl

/-! ## The flags along a run -/

theorem exec_iter_step (s : Sigil) (pidx : Nat) (ctx : ExecCtx) (F : Field) :
    exec_iter s pidx ctx F =
      if (step_op s pidx ctx F).1.ip > 0 then
        ((step_op s pidx ctx F).1,
          feedback
            (coord_distance (step_op s pidx ctx F).1.accumulator
              ((step_op s pidx ctx F).2.particles pidx).pos)
            (step_op s pidx ctx F).2)
      else step_op s pidx ctx F := rfl

/-- One turn of the loop leaves the context that the operation leaves, and a Field that
differs from the one the operation leaves in the two counters of the feedback alone. -/
theorem exec_iter_parts (s : Sigil) (pidx : Nat) (ctx : ExecCtx) (F : Field) :
    (exec_iter s pidx ctx F).1 = (step_op s pidx ctx F).1 ∧
    (exec_iter s pidx ctx F).2.particles = (step_op s pidx ctx F).2.particles ∧
    (exec_iter s pidx ctx F).2.n_particles = (step_op s pidx ctx F).2.n_particles ∧
    (exec_iter s pidx ctx F).2.next_id = (step_op s pidx ctx F).2.next_id ∧
    (exec_iter s pidx ctx F).2.edges = (step_op s pidx ctx F).2.edges ∧
    (exec_iter s pidx ctx F).2.n_edges = (step_op s pidx ctx F).2.n_edges ∧
    (exec_iter s pidx ctx F).2.tick = (step_op s pidx ctx F).2.tick := by
  rw [exec_iter_step]
  split
  · exact ⟨rfl, rfl, rfl, rfl, rfl, rfl, rfl⟩
  · exact ⟨rfl, rfl, rfl, rfl, rfl, rfl, rfl⟩

theorem run_steps_zero (s : Sigil) (F0 : Field) :
    run_steps s F0 0 =
      (ExecCtx.start F0.n_particles (initial_coord s), (field_create (initial_coord s) F0).2) :=
  rfl

/-- Once halted, a run stays as it is. -/
theorem run_steps_halted (s : Sigil) (F0 : Field) (a : Nat)
    (h : (run_steps s F0 a).1.halted ≠ 0) : ∀ b, a ≤ b → run_steps s F0 b = run_steps s F0 a := by
  intro b hb
  induction b with
  | zero =>
    have : a = 0 := by omega
    rw [this]
  | succ b ih =>
    by_cases hab : a = b + 1
    · rw [hab]
    · have hb1 := ih (by omega)
      rw [run_steps_succ, hb1, if_pos h]

/-- While a run is not halted: its context works on the particle of the run, its
instruction pointer is the number of turns made, and no error is set. -/
theorem run_steps_ctx (s : Sigil) (F0 : Field) (m : Nat) :
    (run_steps s F0 m).1.particle_idx = F0.n_particles ∧
    ((run_steps s F0 m).1.halted = 0 →
      (run_steps s F0 m).1.ip = m ∧ (run_steps s F0 m).1.error = 0) := by
  induction m with
  | zero => exact ⟨rfl, fun _ => ⟨rfl, rfl⟩⟩
  | succ m ih =>
    obtain ⟨h1, h2⟩ := ih
    rw [run_steps_succ]
    by_cases hh : (run_steps s F0 m).1.halted = 0
    · obtain ⟨hip, herr⟩ := h2 hh
      rw [if_neg (by simp [hh])]
      obtain ⟨e1, -⟩ := exec_iter_parts s F0.n_particles (run_steps s F0 m).1 (run_steps s F0 m).2
      obtain ⟨c1, c2⟩ := exec_op_ctx
        { (run_steps s F0 m).1 with
          accumulator := ((run_steps s F0 m).2.particles F0.n_particles).pos } s
        (s.ops (run_steps s F0 m).1.ip).opcode (step_weights s (run_steps s F0 m).1.ip)
        (run_steps s F0 m).2
      obtain ⟨f1, f2⟩ := exec_op_flags
        { (run_steps s F0 m).1 with
          accumulator := ((run_steps s F0 m).2.particles F0.n_particles).pos } s
        (s.ops (run_steps s F0 m).1.ip).opcode (step_weights s (run_steps s F0 m).1.ip)
        (run_steps s F0 m).2
      simp only [e1]
      refine ⟨c2.trans h1, ?_⟩
      intro hh2
      change (step_op s F0.n_particles (run_steps s F0 m).1 (run_steps s F0 m).2).1.halted = 0
        at hh2
      refine ⟨?_, ?_⟩
      · change (step_op s F0.n_particles (run_steps s F0 m).1 (run_steps s F0 m).2).1.ip + 1 =
          m + 1
        rw [show (step_op s F0.n_particles (run_steps s F0 m).1 (run_steps s F0 m).2).1.ip =
          (run_steps s F0 m).1.ip from c1, hip]
      · change (step_op s F0.n_particles (run_steps s F0 m).1 (run_steps s F0 m).2).1.error = 0
        unfold step_op at hh2 ⊢
        rw [f2]
        rw [f1] at hh2
        split
        · rename_i hv
          rw [if_pos (Or.inr hv)] at hh2
          exact absurd hh2 (by decide)
        · exact herr
    · rw [if_pos hh]
      exact ⟨h1, fun h => absurd h hh⟩

/-- The flags after the step at index `m` of a run that has not halted before: `halted`
is set exactly by a `complete` or a failing `verify`, `error` exactly by a failing
`verify`. -/
theorem run_steps_flags (s : Sigil) (F0 : Field) (m : Nat)
    (hh : (run_steps s F0 m).1.halted = 0) :
    ((run_steps s F0 (m + 1)).1.halted ≠ 0 ↔ step_halts s F0 m) ∧
    ((run_steps s F0 (m + 1)).1.error ≠ 0 ↔ verify_fails s F0 m) := by
  obtain ⟨hidx, h2⟩ := run_steps_ctx s F0 m
  obtain ⟨hip, herr⟩ := h2 hh
  obtain ⟨e1, -⟩ := exec_iter_parts s F0.n_particles (run_steps s F0 m).1 (run_steps s F0 m).2
  obtain ⟨f1, f2⟩ := exec_op_flags
    { (run_steps s F0 m).1 with
      accumulator := ((run_steps s F0 m).2.particles F0.n_particles).pos } s
    (s.ops (run_steps s F0 m).1.ip).opcode (step_weights s (run_steps s F0 m).1.ip)
    (run_steps s F0 m).2
  have g1 : (run_steps s F0 (m + 1)).1.halted =
      (step_op s F0.n_particles (run_steps s F0 m).1 (run_steps s F0 m).2).1.halted := by
    rw [run_steps_succ, if_neg (by simp [hh])]
    simp only [e1]
  have g2 : (run_steps s F0 (m + 1)).1.error =
      (step_op s F0.n_particles (run_steps s F0 m).1 (run_steps s F0 m).2).1.error := by
    rw [run_steps_succ, if_neg (by simp [hh])]
    simp only [e1]
  rw [g1, g2]
  unfold step_op
  rw [f1, f2]
  simp only [hip, hh, herr, hidx]
  unfold step_halts verify_fails
  constructor
  · constructor
    · intro h
      by_contra hc
      rw [if_neg hc] at h
      exact h rfl
    · intro h
      rw [if_pos h]
      decide
  · constructor
    · intro h
      by_contra hc
      rw [if_neg hc] at h
      exact h rfl
    · intro h
      rw [if_pos h]
      decide

/-! ## Which runs halt, and which end in error -/

/-- A run is halted after `m` turns exactly when one of its first `m` steps was executed
and was a `complete` or a failing `verify`. -/
theorem run_halted_iff (s : Sigil) (F0 : Field) (m : Nat) :
    (run_steps s F0 m).1.halted ≠ 0 ↔
      ∃ j, j < m ∧ (run_steps s F0 j).1.halted = 0 ∧ step_halts s F0 j := by
  induction m with
  | zero =>
    constructor
    · intro h
      exact absurd rfl h
    · rintro ⟨j, hj, -⟩
      omega
  | succ m ih =>
    by_cases hh : (run_steps s F0 m).1.halted = 0
    · rw [(run_steps_flags s F0 m hh).1]
      constructor
      · intro h
        exact ⟨m, Nat.lt_succ_self _, hh, h⟩
      · rintro ⟨j, hj, hj1, hj2⟩
        by_cases hjm : j = m
        · rw [← hjm]
          exact hj2
        · exact absurd hh (ih.mpr ⟨j, by omega, hj1, hj2⟩)
    · rw [run_steps_halted s F0 m hh (m + 1) (Nat.le_succ _)]
      constructor
      · intro _
        obtain ⟨j, hj, hj1, hj2⟩ := ih.mp hh
        exact ⟨j, by omega, hj1, hj2⟩
      · intro _
        exact hh

/-- The error flag is set after `m` turns exactly when one of the first `m` steps was
executed and was a failing `verify`. -/
theorem run_error_iff (s : Sigil) (F0 : Field) (m : Nat) :
    (run_steps s F0 m).1.error ≠ 0 ↔
      ∃ j, j < m ∧ (run_steps s F0 j).1.halted = 0 ∧ verify_fails s F0 j := by
  induction m with
  | zero =>
    constructor
    · intro h
      exact absurd rfl h
    · rintro ⟨j, hj, -⟩
      omega
  | succ m ih =>
    by_cases hh : (run_steps s F0 m).1.halted = 0
    · rw [(run_steps_flags s F0 m hh).2]
      constructor
      · intro h
        exact ⟨m, Nat.lt_succ_self _, hh, h⟩
      · rintro ⟨j, hj, hj1, hj2⟩
        by_cases hjm : j = m
        · rw [← hjm]
          exact hj2
        · have := ih.mpr ⟨j, by omega, hj1, hj2⟩
          exact absurd ((run_steps_ctx s F0 m).2 hh).2 this
    · rw [run_steps_halted s F0 m hh (m + 1) (Nat.le_succ _)]
      constructor
      · intro h
        obtain ⟨j, hj, hj1, hj2⟩ := ih.mp h
        exact ⟨j, by omega, hj1, hj2⟩
      · rintro ⟨j, hj, hj1, hj2⟩
        by_cases hjm : j = m
        · rw [hjm] at hj1
          exact absurd hj1 hh
        · exact ih.mpr ⟨j, by omega, hj1, hj2⟩

/-! ## The tick of a run, and a program cut short -/

/-- A step of a run that has not halted advances the tick by one (modulo 2^64). -/
theorem run_steps_tick_succ (s : Sigil) (F0 : Field) (m : Nat)
    (hh : (run_steps s F0 m).1.halted = 0) :
    (run_steps s F0 (m + 1)).2.tick =
      ((run_steps s F0 m).2.tick + 1) % 18446744073709551616 := by
  obtain ⟨-, -, -, -, -, -, e7⟩ :=
    exec_iter_parts s F0.n_particles (run_steps s F0 m).1 (run_steps s F0 m).2
  rw [run_steps_succ, if_neg (by simp [hh])]
  simp only [e7]
  exact exec_op_tick _ _ _ _ _

theorem field_create_tick (pos : Coord) (F : Field) : (field_create pos F).2.tick = F.tick := by
  unfold field_create
  split <;> rfl

/-- After `m` steps, none of them after a halt, the tick has advanced by `m`. -/
theorem run_steps_tick (s : Sigil) (F0 : Field) (m : Nat)
    (hh : ∀ j, j < m → (run_steps s F0 j).1.halted = 0) :
    (run_steps s F0 m).2.tick = (F0.tick + m) % 18446744073709551616 ∨
    (m = 0 ∧ (run_steps s F0 m).2.tick = F0.tick) := by
  induction m with
  | zero =>
    right
    exact ⟨rfl, field_create_tick _ _⟩
  | succ m ih =>
    left
    rw [run_steps_tick_succ s F0 m (hh m (Nat.lt_succ_self _))]
    rcases ih (fun j hj => hh j (by omega)) with h | ⟨h0, h⟩
    · rw [h]
      omega
    · rw [h, h0]

theorem edge_weights_truncate (s : Sigil) (n a b : Nat) :
    edge_weights (s.truncate n) a b = edge_weights s a b := by
  have hscan : ∀ k i, edge_weights_scan (s.truncate n) a b k i = edge_weights_scan s a b k i := by
    intro k
    induction k with
    | zero => intro i; rfl
    | succ k ih =>
      intro i
      have he : (s.truncate n).edgeAt i = s.edgeAt i := rfl
      rw [edge_weights_scan, edge_weights_scan, he]
      cases s.edgeAt i with
      | none => exact ih (i + 1)
      | some e =>
        simp only
        split
        · rfl
        · exact ih (i + 1)
  exact hscan _ _

theorem step_weights_truncate (s : Sigil) (n i : Nat)
    (h : (toU8 n).val > 1 ↔ s.header.n_ops.val > 1) :
    step_weights (s.truncate n) i = step_weights s i := by
  unfold step_weights
  have e : (s.truncate n).header.n_ops.val = (toU8 n).val := rfl
  rw [e]
  by_cases h0 : i = 0 ∧ s.header.n_ops.val > 1
  · rw [if_pos h0, if_pos ⟨h0.1, h.mpr h0.2⟩, edge_weights_truncate]
  · rw [if_neg h0, if_neg (fun hc => h0 ⟨hc.1, h.mp hc.2⟩), edge_weights_truncate]

/-- When the cut leaves more than one operation, or the program has only one, every
turn of the loop does the same in the program cut short as in the whole program. -/
theorem exec_iter_truncate (s : Sigil) (n pidx : Nat) (ctx : ExecCtx) (F : Field)
    (h : (toU8 n).val > 1 ↔ s.header.n_ops.val > 1) :
    exec_iter (s.truncate n) pidx ctx F = exec_iter s pidx ctx F := by
  have e : step_op (s.truncate n) pidx ctx F = step_op s pidx ctx F := by
    unfold step_op
    rw [step_weights_truncate s n ctx.ip h]
    rfl
  rw [exec_iter_step, exec_iter_step, e]

theorem exec_loop_truncate (s : Sigil) (n pidx m : Nat) (ctx : ExecCtx) (F : Field)
    (h : (toU8 n).val > 1 ↔ s.header.n_ops.val > 1) :
    exec_loop (s.truncate n) pidx m ctx F = exec_loop s pidx m ctx F := by
  induction m generalizing ctx F with
  | zero => rfl
  | succ m ih =>
    by_cases hh : ctx.halted = 0
    · rw [exec_loop_succ _ _ _ _ _ hh, exec_loop_succ _ _ _ _ _ hh,
        exec_iter_truncate s n pidx ctx F h]
      exact ih _ _
    · rw [exec_loop_halted _ _ _ _ _ hh, exec_loop_halted _ _ _ _ _ hh]

theorem run_steps_truncate (s : Sigil) (n : Nat) (F0 : Field) (m : Nat)
    (h : (toU8 n).val > 1 ↔ s.header.n_ops.val > 1) :
    run_steps (s.truncate n) F0 m = run_steps s F0 m :=
  exec_loop_truncate s n F0.n_particles m _ _ h

theorem similarity_zero_of_left (a b : Coord) (h : ∀ i, a.v i = 0) :
    coord_similarity a b = 0 := by
  have hsum : dims.foldl (fun m i => m + a.v i * a.v i) 0 = 0 := by
    simp [dims, h]
  unfold coord_similarity
  simp only [hsum, sqrt_approx_zero]
  norm_num

/-- The particle of a run starts at the origin: a `verify` at step 0 finds the
similarity 0 whatever the weights, and fails. -/
theorem first_step_similarity (s : Sigil) (F0 : Field) (w : Coord)
    (hroom : F0.n_particles < MAX_PARTICLES) :
    coord_similarity (((field_create (initial_coord s) F0).2).particles F0.n_particles).pos w
      = 0 := by
  have hno : ¬ F0.n_particles ≥ MAX_PARTICLES := by omega
  have hpos : (((field_create (initial_coord s) F0).2).particles F0.n_particles).pos =
      initial_coord s := by
    unfold field_create
    rw [if_neg hno]
    simp only [Function.update_same]
  rw [hpos]
  exact (similarity_zero_of_left (initial_coord s) w (fun _ => rfl))

/-- A first step that halts does the same under any weights: the first turn of a
program cut to one operation is the first turn of the whole program. -/
theorem run_steps_truncate_one (s : Sigil) (F0 : Field)
    (hroom : F0.n_particles < MAX_PARTICLES) (hh : step_halts s F0 0) :
    run_steps (s.truncate 1) F0 1 = run_steps s F0 1 := by
  have hstart : ∀ p : Sigil, run_steps p F0 1 =
      ({ (exec_iter p F0.n_particles (ExecCtx.start F0.n_particles (initial_coord p))
            (field_create (initial_coord p) F0).2).1 with
          ip := (exec_iter p F0.n_particles (ExecCtx.start F0.n_particles (initial_coord p))
            (field_create (initial_coord p) F0).2).1.ip + 1 },
        (exec_iter p F0.n_particles (ExecCtx.start F0.n_particles (initial_coord p))
            (field_create (initial_coord p) F0).2).2) := by
    intro p
    rw [run_steps_succ, run_steps_zero, if_neg (by simp [ExecCtx.start])]
  have hiter : exec_iter (s.truncate 1) F0.n_particles
      (ExecCtx.start F0.n_particles (initial_coord s)) (field_create (initial_coord s) F0).2 =
      exec_iter s F0.n_particles
      (ExecCtx.start F0.n_particles (initial_coord s)) (field_create (initial_coord s) F0).2 := by
    have e : step_op (s.truncate 1) F0.n_particles
        (ExecCtx.start F0.n_particles (initial_coord s)) (field_create (initial_coord s) F0).2 =
        step_op s F0.n_particles
        (ExecCtx.start F0.n_particles (initial_coord s)) (field_create (initial_coord s) F0).2 := by
      unfold step_op
      have hops : (s.truncate 1).ops = s.ops := rfl
      rw [hops, exec_op_truncate]
      rcases hh with h21 | ⟨h6, -⟩
      · have e21 : (s.ops (ExecCtx.start F0.n_particles (initial_coord s)).ip).opcode = 21 :=
          Fin.ext h21
        rw [e21, exec_op_complete, exec_op_complete]
      · have e6 : (s.ops (ExecCtx.start F0.n_particles (initial_coord s)).ip).opcode = 6 :=
          Fin.ext h6
        rw [e6, exec_op_verify, exec_op_verify]
        have hsim : ∀ w, ¬ coord_similarity
            (((field_create (initial_coord s) F0).2).particles
              ({ ExecCtx.start F0.n_particles (initial_coord s) with
                accumulator := (((field_create (initial_coord s) F0).2).particles
                  F0.n_particles).pos } : ExecCtx).particle_idx).pos w > 1 / 10 := by
          intro w
          have := first_step_similarity s F0 w hroom
          change ¬ coord_similarity
            (((field_create (initial_coord s) F0).2).particles F0.n_particles).pos w > 1 / 10
          rw [this]
          norm_num
        rw [if_neg (hsim _), if_neg (hsim _)]
    rw [exec_iter_step, exec_iter_step, e]
  rw [hstart, hstart]
  have hic : initial_coord (s.truncate 1) = initial_coord s := rfl
  rw [hic, hiter]

/-! ## What a run leaves alone -/

theorem frame_run_of_step (idx : Nat) (F G : Field) (h : frame_step idx F G) :
    frame_run idx F G := by
  obtain ⟨h1, -, h3, h4, h5, h6, h7, h8⟩ := h
  exact ⟨by rw [h1], h3, h4, fun j _ hj => h5 j hj, h6, h7, h8⟩

theorem frame_run_congr (idx : Nat) (F G G1 : Field) (h : frame_run idx F G1)
    (hn : G.n_particles = G1.n_particles) (hparts : G.particles = G1.particles)
    (he : G.edges = G1.edges) (hne : G.n_edges = G1.n_edges) : frame_run idx F G := by
  unfold frame_run at h ⊢
  rw [hn, hparts, he, hne]
  exact h

theorem frame_run_create (idx : Nat) (F : Field) (pos : Coord) (hidx : idx < F.n_particles) :
    frame_run idx F (field_create pos F).2 := by
  unfold field_create
  split
  · exact ⟨le_refl _, rfl, rfl, fun _ _ _ => rfl, rfl, rfl, rfl⟩
  · have hne : idx ≠ F.n_particles := by omega
    refine ⟨Nat.le_succ _, rfl, rfl, fun j hj _ => ?_, ?_, ?_, ?_⟩
    · exact Function.update_noteq (Nat.ne_of_lt hj) _ _
    · simp only [Function.update_noteq hne]
    · simp only [Function.update_noteq hne]
    · simp only [Function.update_noteq hne]

theorem frame_run_trans (idx : Nat) (F G H : Field)
    (h1 : frame_run idx F G) (h2 : frame_run idx G H) : frame_run idx F H := by
  obtain ⟨a1, a2, a3, a4, a5, a6, a7⟩ := h1
  obtain ⟨b1, b2, b3, b4, b5, b6, b7⟩ := h2
  refine ⟨le_trans a1 b1, b2.trans a2, b3.trans a3, fun j hj hne => ?_,
    b5.trans a5, b6.trans a6, b7.trans a7⟩
  rw [b4 j (by omega) hne, a4 j hj hne]

/-- Every operation leaves the edge table, the particles that exist and are not the
particle of the context, and the momentum, alive flag and id of that particle. -/
theorem exec_op_frame_run (ctx : ExecCtx) (s : Sigil) (opcode : u8) (w : Coord) (F : Field)
    (hidx : ctx.particle_idx < F.n_particles) :
    frame_run ctx.particle_idx F (exec_op ctx s opcode w F).2 := by
  by_cases h : opcode.val = 20
  · have e : opcode = 20 := Fin.ext h
    rw [e, exec_op_succeed]
    exact frame_run_congr _ F _ _ (frame_run_create _ F _ hidx) rfl rfl rfl rfl
  · exact frame_run_of_step _ F _ (exec_op_frame ctx s opcode w F h)

theorem exec_iter_frame_run (s : Sigil) (pidx : Nat) (ctx : ExecCtx) (F : Field)
    (hctx : ctx.particle_idx = pidx) (hidx : pidx < F.n_particles) :
    frame_run pidx F (exec_iter s pidx ctx F).2 := by
  obtain ⟨-, e2, e3, -, e5, e6, -⟩ := exec_iter_parts s pidx ctx F
  subst hctx
  exact frame_run_congr _ F _ _
    (exec_op_frame_run { ctx with accumulator := (F.particles ctx.particle_idx).pos } s
      (s.ops ctx.ip).opcode (step_weights s ctx.ip) F hidx) e3 e2 e5 e6

theorem exec_loop_frame_run (s : Sigil) (pidx m : Nat) (ctx : ExecCtx) (F : Field)
    (hctx : ctx.particle_idx = pidx) (hidx : pidx < F.n_particles) :
    frame_run pidx F (exec_loop s pidx m ctx F).2 := by
  induction m generalizing ctx F with
  | zero => exact ⟨le_refl _, rfl, rfl, fun _ _ _ => rfl, rfl, rfl, rfl⟩
  | succ m ih =>
    by_cases hh : ctx.halted = 0
    · rw [exec_loop_succ s pidx m ctx F hh]
      have h1 := exec_iter_frame_run s pidx ctx F hctx hidx
      have hc : (exec_iter s pidx ctx F).1.particle_idx = pidx := by
        rw [(exec_iter_parts s pidx ctx F).1]
        exact (exec_op_ctx _ _ _ _ _).2.trans hctx
      exact frame_run_trans pidx F _ _ h1
        (ih _ _ hc (lt_of_lt_of_le hidx h1.1))
    · rw [exec_loop_halted s pidx _ ctx F hh]
      exact ⟨le_refl _, rfl, rfl, fun _ _ _ => rfl, rfl, rfl, rfl⟩

/-- The call `exec_sigil(s)` either leaves the Field as it is (program not loaded or
empty, or no room for a particle) or leaves the last state of the run. -/
theorem exec_sigil_cases (s : Sigil) (F0 : Field) :
    (exec_sigil s F0).2 = F0 ∨
    (F0.n_particles < MAX_PARTICLES ∧ s.loaded ≠ 0 ∧ s.header.n_ops.val ≠ 0 ∧
      (exec_sigil s F0).2 = (run_steps s F0 s.header.n_ops.val).2) := by
  by_cases h1 : s.loaded = 0 ∨ s.header.n_ops.val = 0
  · left
    unfold exec_sigil
    rw [if_pos h1]
  · push_neg at h1
    by_cases hroom : F0.n_particles < MAX_PARTICLES
    · right
      refine ⟨hroom, h1.1, h1.2, ?_⟩
      rw [exec_sigil_run s F0 h1.1 h1.2 hroom]
    · left
      have hfull : F0.n_particles ≥ MAX_PARTICLES := by omega
      have hc : field_create (initial_coord s) F0 = (-1, F0) := by
        unfold field_create
        rw [if_pos hfull]
      unfold exec_sigil
      rw [if_neg (by push_neg; exact h1)]
      simp only [hc]
      rfl

/-- The states of a run keep the Field before the run, but for the new particles. -/
theorem run_steps_frame (s : Sigil) (F0 : Field) (m : Nat)
    (hroom : F0.n_particles < MAX_PARTICLES) :
    (run_steps s F0 m).2.edges = F0.edges ∧ (run_steps s F0 m).2.n_edges = F0.n_edges ∧
    (∀ j, j < F0.n_particles → (run_steps s F0 m).2.particles j = F0.particles j) ∧
    (∀ d, ((run_steps s F0 m).2.particles F0.n_particles).momentum.v d = 0) ∧
    ((run_steps s F0 m).2.particles F0.n_particles).momentum.astrocyte = 0 ∧
    ((run_steps s F0 m).2.particles F0.n_particles).alive = 1 ∧
    ((run_steps s F0 m).2.particles F0.n_particles).id = F0.next_id := by
  have hno : ¬ F0.n_particles ≥ MAX_PARTICLES := by omega
  have hF1 : (field_create (initial_coord s) F0).2.n_particles = F0.n_particles + 1 ∧
      (field_create (initial_coord s) F0).2.edges = F0.edges ∧
      (field_create (initial_coord s) F0).2.n_edges = F0.n_edges ∧
      (∀ j, j < F0.n_particles →
        (field_create (initial_coord s) F0).2.particles j = F0.particles j) ∧
      (∀ d, ((field_create (initial_coord s) F0).2.particles F0.n_particles).momentum.v d = 0) ∧
      ((field_create (initial_coord s) F0).2.particles F0.n_particles).momentum.astrocyte = 0 ∧
      ((field_create (initial_coord s) F0).2.particles F0.n_particles).alive = 1 ∧
      ((field_create (initial_coord s) F0).2.particles F0.n_particles).id = F0.next_id := by
    unfold field_create
    rw [if_neg hno]
    simp only [Function.update_same]
    refine ⟨trivial, trivial, trivial, fun j hj => ?_, fun _ => trivial, trivial, trivial,
      trivial⟩
    exact Function.update_noteq (by omega) _ _
  obtain ⟨c1, c2, c3, c4, c5, c6, c7, c8⟩ := hF1
  obtain ⟨a1, a2, a3, a4, a5, a6, a7⟩ := exec_loop_frame_run s F0.n_particles m
    (ExecCtx.start F0.n_particles (initial_coord s)) (field_create (initial_coord s) F0).2 rfl
    (by rw [c1]; exact Nat.lt_succ_self _)
  change (run_steps s F0 m).2.edges = _ at a2
  change (run_steps s F0 m).2.n_edges = _ at a3
  change ∀ j, j < _ → j ≠ _ → (run_steps s F0 m).2.particles j = _ at a4
  change ((run_steps s F0 m).2.particles F0.n_particles).momentum = _ at a5
  change ((run_steps s F0 m).2.particles F0.n_particles).alive = _ at a6
  change ((run_steps s F0 m).2.particles F0.n_particles).id = _ at a7
  refine ⟨a2.trans c2, a3.trans c3, fun j hj => ?_, ?_, ?_, a6.trans c7, a7.trans c8⟩
  · rw [a4 j (by rw [c1]; omega) (by omega), c4 j hj]
  · intro d
    rw [a5]
    exact c5 d
  · rw [a5]
    exact c6

/-! ## The numbering of the particles -/

theorem well_numbered_init : well_numbered Field.init :=
  ⟨by decide, rfl, fun k hk => absurd hk (Nat.not_lt_zero k)⟩

theorem well_numbered_congr (G G1 : Field) (h : well_numbered G1)
    (hn : G.n_particles = G1.n_particles) (hid : G.next_id = G1.next_id)
    (hparts : G.particles = G1.particles) : well_numbered G := by
  unfold well_numbered at h ⊢
  rw [hn, hid, hparts]
  exact h

/-- A call of `field_create` keeps the table well numbered: a new particle gets the
next id, a refused call changes nothing. -/
theorem well_numbered_create (pos : Coord) (F : Field) (h : well_numbered F) :
    well_numbered (field_create pos F).2 := by
  obtain ⟨h1, h2, h3⟩ := h
  unfold field_create
  split
  · exact ⟨h1, h2, h3⟩
  · rename_i hfull
    have hlt : F.n_particles < 1024 := by
      simp only [MAX_PARTICLES] at hfull
      omega
    refine ⟨?_, ?_, ?_⟩
    · simp only [MAX_PARTICLES]
      omega
    · simp only
      rw [h2]
      omega
    · intro k hk
      simp only at hk ⊢
      by_cases hkn : k = F.n_particles
      · rw [hkn, Function.update_same]
        exact ⟨h2, rfl, fun _ => rfl, rfl⟩
      · rw [Function.update_noteq hkn]
        exact h3 k (by omega)

theorem well_numbered_step (idx : Nat) (F G : Field) (hs : frame_step idx F G)
    (h : well_numbered F) : well_numbered G := by
  obtain ⟨a1, a2, -, -, a5, a6, a7, a8⟩ := hs
  obtain ⟨h1, h2, h3⟩ := h
  refine ⟨by rw [a1]; exact h1, by rw [a1, a2]; exact h2, ?_⟩
  intro k hk
  rw [a1] at hk
  by_cases hki : k = idx
  · rw [hki, a6, a7, a8]
    rw [hki] at hk
    exact h3 idx hk
  · rw [a5 k hki]
    exact h3 k hk

theorem exec_op_numbered (ctx : ExecCtx) (s : Sigil) (opcode : u8) (w : Coord) (F : Field)
    (h : well_numbered F) : well_numbered (exec_op ctx s opcode w F).2 := by
  by_cases h20 : opcode.val = 20
  · have e : opcode = 20 := Fin.ext h20
    rw [e, exec_op_succeed]
    exact well_numbered_congr _ _ (well_numbered_create _ F h) rfl rfl rfl
  · exact well_numbered_step _ F _ (exec_op_frame ctx s opcode w F h20) h

theorem exec_iter_numbered (s : Sigil) (pidx : Nat) (ctx : ExecCtx) (F : Field)
    (h : well_numbered F) : well_numbered (exec_iter s pidx ctx F).2 := by
  obtain ⟨-, e2, e3, e4, -, -, -⟩ := exec_iter_parts s pidx ctx F
  exact well_numbered_congr _ _ (exec_op_numbered _ s _ _ F h) e3 e4 e2

theorem exec_loop_numbered (s : Sigil) (pidx m : Nat) (ctx : ExecCtx) (F : Field)
    (h : well_numbered F) : well_numbered (exec_loop s pidx m ctx F).2 := by
  induction m generalizing ctx F with
  | zero => exact h
  | succ m ih =>
    by_cases hh : ctx.halted = 0
    · rw [exec_loop_succ s pidx m ctx F hh]
      exact ih _ _ (exec_iter_numbered s pidx ctx F h)
    · rw [exec_loop_halted s pidx _ ctx F hh]
      exact h

/-- A run keeps the table well numbered. -/
theorem exec_sigil_numbered (s : Sigil) (F : Field) (h : well_numbered F) :
    well_numbered (exec_sigil s F).2 := by
  rcases exec_sigil_cases s F with e | ⟨-, -, -, e⟩
  · rw [e]
    exact h
  · rw [e]
    exact exec_loop_numbered s F.n_particles _ _ _ (well_numbered_create _ F h)

theorem foldl_numbered (calls : List FieldAction) (F : Field) (h : well_numbered F) :
    well_numbered (calls.foldl FieldAction.apply F) := by
  induction calls generalizing F with
  | nil => exact h
  | cons c calls ih =>
    apply ih
    cases c with
    | create pos => exact well_numbered_create pos F h
    | run s => exact exec_sigil_numbered s F h

/-! ## The counters of the feedback along a run -/

theorem sq_dist_nonneg (a b : Coord) : 0 ≤ sq_dist a b := by
  unfold sq_dist
  have : ∀ (l : List (Fin 12)) (acc : ℚ), 0 ≤ acc →
      0 ≤ l.foldl (fun sum i => sum + (a.v i - b.v i) * (a.v i - b.v i)) acc := by
    intro l
    induction l with
    | nil => exact fun acc h => h
    | cons i l ih =>
      intro acc h
      exact ih _ (add_nonneg h (mul_self_nonneg _))
  exact this dims 0 (le_refl _)

theorem sqrt_approx_nonneg (sum : ℚ) (h : 0 ≤ sum) : 0 ≤ sqrt_approx sum := by
  by_cases h1 : (1 : ℚ) ≤ sum
  · have := (sqrt_approx_post sum h1).1
    linarith
  · push_neg at h1
    rw [sqrt_approx_small sum h1]
    exact h

/-- The value of `coord_distance` is never negative. -/
theorem coord_distance_nonneg (a b : Coord) : 0 ≤ coord_distance a b :=
  sqrt_approx_nonneg (sq_dist a b) (sq_dist_nonneg a b)

/-- The feedback leaves the global uncertainty in [0.01, 0.99], and a prediction error
that is not negative when it was not and the error is not. -/
theorem feedback_range (err : ℚ) (F : Field) :
    1 / 100 ≤ (feedback err F).global_astrocyte ∧ (feedback err F).global_astrocyte ≤ 99 / 100 ∧
    (0 ≤ err → 0 ≤ F.prediction_error → 0 ≤ (feedback err F).prediction_error) := by
  unfold feedback
  simp only
  refine ⟨?_, ?_, ?_⟩
  · split_ifs <;> linarith
  · split_ifs <;> linarith
  · intro h1 h2
    linarith

/-- One turn of the loop keeps the global uncertainty in [0.01, 0.99] and the
prediction error non-negative. -/
theorem exec_iter_stats (s : Sigil) (pidx : Nat) (ctx : ExecCtx) (F : Field) :
    ((1 / 100 ≤ F.global_astrocyte ∧ F.global_astrocyte ≤ 99 / 100) →
      1 / 100 ≤ (exec_iter s pidx ctx F).2.global_astrocyte ∧
      (exec_iter s pidx ctx F).2.global_astrocyte ≤ 99 / 100) ∧
    (0 ≤ F.prediction_error → 0 ≤ (exec_iter s pidx ctx F).2.prediction_error) := by
  obtain ⟨hpe, hga⟩ := exec_op_stats { ctx with accumulator := (F.particles pidx).pos } s
    (s.ops ctx.ip).opcode (step_weights s ctx.ip) F
  rw [exec_iter_eq]
  split
  · obtain ⟨f1, f2, f3⟩ := feedback_range
      (coord_distance
        (exec_op { ctx with accumulator := (F.particles pidx).pos } s (s.ops ctx.ip).opcode
          (step_weights s ctx.ip) F).1.accumulator
        ((exec_op { ctx with accumulator := (F.particles pidx).pos } s (s.ops ctx.ip).opcode
          (step_weights s ctx.ip) F).2.particles pidx).pos)
      (exec_op { ctx with accumulator := (F.particles pidx).pos } s (s.ops ctx.ip).opcode
        (step_weights s ctx.ip) F).2
    refine ⟨fun _ => ⟨f1, f2⟩, fun h => f3 (coord_distance_nonneg _ _) ?_⟩
    rw [hpe]
    exact h
  · refine ⟨fun h => ?_, fun h => ?_⟩
    · rw [hga]
      exact h
    · rw [hpe]
      exact h

theorem exec_loop_stats (s : Sigil) (pidx m : Nat) (ctx : ExecCtx) (F : Field) :
    ((1 / 100 ≤ F.global_astrocyte ∧ F.global_astrocyte ≤ 99 / 100) →
      1 / 100 ≤ (exec_loop s pidx m ctx F).2.global_astrocyte ∧
      (exec_loop s pidx m ctx F).2.global_astrocyte ≤ 99 / 100) ∧
    (0 ≤ F.prediction_error → 0 ≤ (exec_loop s pidx m ctx F).2.prediction_error) := by
  induction m generalizing ctx F with
  | zero => exact ⟨fun h => h, fun h => h⟩
  | succ m ih =>
    by_cases hh : ctx.halted = 0
    · rw [exec_loop_succ s pidx m ctx F hh]
      obtain ⟨a1, a2⟩ := exec_iter_stats s pidx ctx F
      obtain ⟨b1, b2⟩ := ih { (exec_iter s pidx ctx F).1 with
        ip := (exec_iter s pidx ctx F).1.ip + 1 } (exec_iter s pidx ctx F).2
      exact ⟨fun h => b1 (a1 h), fun h => b2 (a2 h)⟩
    · rw [exec_loop_halted s pidx _ ctx F hh]
      exact ⟨fun h => h, fun h => h⟩

theorem field_create_stats (pos : Coord) (F : Field) :
    (field_create pos F).2.global_astrocyte = F.global_astrocyte ∧
    (field_create pos F).2.prediction_error = F.prediction_error := by
  unfold field_create
  split <;> exact ⟨rfl, rfl⟩

theorem run_steps_stats (s : Sigil) (F0 : Field) (m : Nat) :
    ((1 / 100 ≤ F0.global_astrocyte ∧ F0.global_astrocyte ≤ 99 / 100) →
      1 / 100 ≤ (run_steps s F0 m).2.global_astrocyte ∧
      (run_steps s F0 m).2.global_astrocyte ≤ 99 / 100) ∧
    (0 ≤ F0.prediction_error → 0 ≤ (run_steps s F0 m).2.prediction_error) := by
  obtain ⟨c1, c2⟩ := field_create_stats (initial_coord s) F0
  obtain ⟨a1, a2⟩ := exec_loop_stats s F0.n_particles m
    (ExecCtx.start F0.n_particles (initial_coord s)) (field_create (initial_coord s) F0).2
  rw [c1] at a1
  rw [c2] at a2
  exact ⟨a1, a2⟩

/-! ## The scan of `field_find` -/

theorem foldl_dot_nonneg (a b : Coord) (ha : ∀ d, 0 ≤ a.v d) (hb : ∀ d, 0 ≤ b.v d) :
    0 ≤ dims.foldl (fun dot i => dot + a.v i * b.v i) 0 := by
  have : ∀ (l : List (Fin 12)) (acc : ℚ), 0 ≤ acc →
      0 ≤ l.foldl (fun dot i => dot + a.v i * b.v i) acc := by
    intro l
    induction l with
    | nil => exact fun acc h => h
    | cons i l ih =>
      intro acc h
      exact ih _ (add_nonneg h (mul_nonneg (ha i) (hb i)))
  exact this dims 0 (le_refl _)

/-- The similarity of two coordinates without negative dimensions is not negative. -/
theorem similarity_nonneg (a b : Coord) (ha : ∀ d, 0 ≤ a.v d) (hb : ∀ d, 0 ≤ b.v d) :
    0 ≤ coord_similarity a b := by
  unfold coord_similarity
  simp only
  split
  · exact le_refl _
  · rename_i hc
    push_neg at hc
    have h1 : (0 : ℚ) < sqrt_approx (dims.foldl (fun ma i => ma + a.v i * a.v i) 0) := by
      linarith [hc.1]
    have h2 : (0 : ℚ) < sqrt_approx (dims.foldl (fun mb i => mb + b.v i * b.v i) 0) := by
      linarith [hc.2]
    exact div_nonneg (foldl_dot_nonneg a b ha hb) (le_of_lt (mul_pos h1 h2))

theorem field_find_scan_succ (query : Coord) (F : Field) (k i : Nat) (best : Int) (bs : ℚ) :
    field_find_scan query F (k + 1) i best bs =
      if (F.particles i).alive = 0 then field_find_scan query F k (i + 1) best bs
      else if coord_similarity query (F.particles i).pos > bs then
        field_find_scan query F k (i + 1) (i : Int) (coord_similarity query (F.particles i).pos)
      else field_find_scan query F k (i + 1) best bs := rfl

/-- The scan keeps its invariant, as long as every similarity it meets is above -1. -/
theorem field_find_scan_inv (query : Coord) (F : Field) (k : Nat) :
    ∀ (i : Nat) (best : Int) (bs : ℚ), find_inv query F i best bs →
      (∀ j, i ≤ j → j < i + k → -1 < coord_similarity query (F.particles j).pos) →
      ∃ bs1, find_inv query F (i + k) (field_find_scan query F k i best bs) bs1 := by
  induction k with
  | zero =>
    intro i best bs h _
    exact ⟨bs, h⟩
  | succ k ih =>
    intro i best bs h hsim
    have hsim1 : ∀ j, i + 1 ≤ j → j < i + 1 + k →
        -1 < coord_similarity query (F.particles j).pos :=
      fun j h1 h2 => hsim j (by omega) (by omega)
    have hi := hsim i (le_refl _) (by omega)
    have e : i + (k + 1) = i + 1 + k := by omega
    rw [field_find_scan_succ, e]
    by_cases ha : (F.particles i).alive = 0
    · rw [if_pos ha]
      apply ih (i + 1) best bs _ hsim1
      rcases h with ⟨h1, h2, h3⟩ | ⟨b, h1, h2, h3, h4, h5, h6⟩
      · left
        refine ⟨h1, h2, fun j hj => ?_⟩
        by_cases hji : j = i
        · rw [hji]
          exact ha
        · exact h3 j (by omega)
      · right
        refine ⟨b, h1, by omega, h3, h4, fun j hj hjalive => ?_, h6⟩
        by_cases hji : j = i
        · rw [hji] at hjalive
          exact absurd ha hjalive
        · exact h5 j (by omega) hjalive
    · rw [if_neg ha]
      by_cases hgt : coord_similarity query (F.particles i).pos > bs
      · rw [if_pos hgt]
        apply ih (i + 1) _ _ _ hsim1
        right
        refine ⟨i, rfl, Nat.lt_succ_self _, ha, rfl, fun j hj hjalive => ?_,
          fun j hj hjalive => ?_⟩
        · by_cases hji : j = i
          · rw [hji]
          · rcases h with ⟨-, -, h3⟩ | ⟨b, -, -, -, h4, h5, -⟩
            · exact absurd (h3 j (by omega)) hjalive
            · have := h5 j (by omega) hjalive
              rw [← h4] at this
              linarith
        · rcases h with ⟨-, -, h3⟩ | ⟨b, -, -, -, h4, h5, -⟩
          · exact absurd (h3 j hj) hjalive
          · have := h5 j hj hjalive
            rw [← h4] at this
            linarith
      · rw [if_neg hgt]
        apply ih (i + 1) best bs _ hsim1
        rcases h with ⟨-, h2, -⟩ | ⟨b, h1, h2, h3, h4, h5, h6⟩
        · rw [h2] at hgt
          exact absurd hi hgt
        · right
          refine ⟨b, h1, by omega, h3, h4, fun j hj hjalive => ?_, h6⟩
          by_cases hji : j = i
          · rw [hji, ← h4]
            exact not_lt.mp hgt
          · exact h5 j (by omega) hjalive

theorem single_range (i : Fin 12) (x u : ℚ) (h : 0 ≤ x ∧ x ≤ 10) :
    (Coord.single i x u).in_range := by
  intro d
  simp only [Coord.single]
  split
  · exact h
  · norm_num

theorem one_particle_field_eq (pos : Coord) :
    (one_particle_field pos).n_particles = 1 ∧ ((one_particle_field pos).particles 0).pos = pos ∧
    ((one_particle_field pos).particles 0).alive = 1 := by
  unfold one_particle_field field_create
  rw [if_neg (by decide)]
  exact ⟨rfl, by simp [Field.init], by simp [Field.init]⟩

/-! ## The operation `rotate` -/

theorem exec_op_rotate (ctx : ExecCtx) (s : Sigil) (w : Coord) (F : Field) :
    exec_op ctx s 10 w F =
      ({ ctx with stage := op_stage 10 },
       { F.setPos ctx.particle_idx
          { (F.particles ctx.particle_idx).pos with
            v := Function.update
              (rotate_loop [11, 10, 9, 8, 7, 6, 5, 4, 3, 2, 1] (F.particles ctx.particle_idx).pos.v)
              0 ((F.particles ctx.particle_idx).pos.v 11) } with
         tick := (F.tick + 1) % 18446744073709551616 }) := rfl

/-- The loop of `rotate` and its last store move every value one index up, the last
one to index 0. -/
theorem rotate_values (v : Fin 12 → ℚ) (i : Fin 12) :
    Function.update (rotate_loop [11, 10, 9, 8, 7, 6, 5, 4, 3, 2, 1] v) 0 (v 11) i = v (i - 1) := by
  have e : ∀ j : Fin 12, j ≠ 0 →
      Function.update (rotate_loop [11, 10, 9, 8, 7, 6, 5, 4, 3, 2, 1] v) 0 (v 11) j = v (j - 1) := by
    intro j hj
    fin_cases j
    · exact absurd rfl hj
    all_goals simp [rotate_loop, Function.update]
  by_cases h0 : i = 0
  · rw [h0, Function.update_same]
    rfl
  · exact e i h0

theorem rotate_particle (ctx : ExecCtx) (s : Sigil) (w : Coord) (F : Field) :
    (∀ i, (((exec_op ctx s 10 w F).2.particles ctx.particle_idx).pos.v i =
      (F.particles ctx.particle_idx).pos.v (i - 1))) ∧
    ((exec_op ctx s 10 w F).2.particles ctx.particle_idx).pos.astrocyte =
      (F.particles ctx.particle_idx).pos.astrocyte ∧
    ((exec_op ctx s 10 w F).2.particles ctx.particle_idx).domain =
      (F.particles ctx.particle_idx).domain ∧
    ((exec_op ctx s 10 w F).2.particles ctx.particle_idx).sealed =
      (F.particles ctx.particle_idx).sealed := by
  rw [exec_op_rotate]
  simp only [Field.setPos, Field.setParticle, Function.update_same]
  exact ⟨fun i => rotate_values _ i, trivial, trivial, trivial⟩

/-- After `n` turns of `rotate` the value at index `i` is the one that was at `i - n`
(modulo 12), and the uncertainty is as it was. -/
theorem rotate_times_values (ctx : ExecCtx) (s : Sigil) (w : Coord) (n : Nat) :
    ∀ (F : Field),
      (∀ i : Fin 12, ((rotate_times ctx s w n F).particles ctx.particle_idx).pos.v i =
        (F.particles ctx.particle_idx).pos.v (i - (n : Fin 12))) ∧
      ((rotate_times ctx s w n F).particles ctx.particle_idx).pos.astrocyte =
        (F.particles ctx.particle_idx).pos.astrocyte := by
  induction n with
  | zero =>
    intro F
    exact ⟨fun i => by simp [rotate_times], rfl⟩
  | succ n ih =>
    intro F
    obtain ⟨h1, h2⟩ := ih (exec_op ctx s 10 w F).2
    obtain ⟨r1, r2, -, -⟩ := rotate_particle ctx s w F
    refine ⟨fun i => ?_, ?_⟩
    · change ((rotate_times ctx s w n (exec_op ctx s 10 w F).2).particles
        ctx.particle_idx).pos.v i = _
      rw [h1 i, r1]
      congr 1
      push_cast
      ring
    · change ((rotate_times ctx s w n (exec_op ctx s 10 w F).2).particles
        ctx.particle_idx).pos.astrocyte = _
      rw [h2, r2]

theorem rotate_perm (v v1 : Fin 12 → ℚ) (h : ∀ i, v1 i = v (i - 1)) :
    (dims.map v1).Perm (dims.map v) := by
  have e : dims.map v1 = [v 11] ++ [v 0, v 1, v 2, v 3, v 4, v 5, v 6, v 7, v 8, v 9, v 10] := by
    simp only [dims, List.map, h]
    rfl
  have e2 : dims.map v = [v 0, v 1, v 2, v 3, v 4, v 5, v 6, v 7, v 8, v 9, v 10] ++ [v 11] := rfl
  rw [e, e2]
  exact List.perm_append_comm

/-! ## The operation `succeed` -/

/-- On a full table `succeed` changes nothing but the stage and the tick: the refusal of
`field_create` leaves no trace in the context or in the Field. -/
theorem succeed_when_full (ctx : ExecCtx) (s : Sigil) (w : Coord) (F : Field)
    (h : MAX_PARTICLES ≤ F.n_particles) :
    exec_op ctx s 20 w F =
      ({ ctx with stage := 3 }, { F with tick := (F.tick + 1) % 18446744073709551616 }) := by
  rw [exec_op_succeed]
  have hc : ∀ pos, field_create pos F = (-1, F) := by
    intro pos
    unfold field_create
    rw [if_pos h]
  rw [hc]

/-- While the loop index stays below 256 every store is inside the array, and the checked
loop is the loop of `load_edges`. -/
theorem load_edges_checked_some (data : List u8) (base k : Nat) :
    ∀ (i : Nat) (s : Sigil), i + k ≤ 256 →
      load_edges_checked data base k i s = some (load_edges data base k i s) := by
  induction k with
  | zero => intro i s _; rfl
  | succ k ih =>
    intro i s h
    have hi : i < 256 := by omega
    rw [load_edges_checked, load_edges]
    simp only [Sigil.storeEdge, Sigil.setEdge, dif_pos hi]
    exact ih (i + 1) _ (by omega)

/-- A loop that runs from an index of at most 256 to an index above 256 stores record
256 past the array. -/
theorem load_edges_checked_none (data : List u8) (base k : Nat) :
    ∀ (i : Nat) (s : Sigil), i ≤ 256 → 256 < i + k →
      load_edges_checked data base k i s = none := by
  induction k with
  | zero => intro i s h1 h2; omega
  | succ k ih =>
    intro i s h1 h2
    rw [load_edges_checked]
    by_cases hi : i < 256
    · simp only [Sigil.storeEdge, dif_pos hi]
      exact ih (i + 1) _ (by omega) (by omega)
    · simp only [Sigil.storeEdge, dif_neg hi]

/-- The checked loader gives the result of `sigil_load`, but for the accepted buffers
that declare more than 256 edges: there the edge loop stores past the array. -/
theorem sigil_load_checked_eq (s : Sigil) (data : List u8) :
    sigil_load_checked s data =
      if (sigil_load s data).1 = 0 ∧ 256 < (rd data 8).val + 256 * (rd data 9).val then none
      else some (sigil_load s data) := by
  by_cases h16 : data.length < 16
  · have e1 : sigil_load s data = (-1, s) := by simp [sigil_load, h16]
    have e2 : sigil_load_checked s data = some (-1, s) := by simp [sigil_load_checked, h16]
    rw [e1, e2, if_neg (by simp)]
  · by_cases hmag : magic_le data ≠ MAGIC_L7PR ∧ magic_be data ≠ MAGIC_L7PR
    · have e1 : sigil_load s data =
          (-2, { s with header := { s.header with magic := magic_be data } }) := by
        simp only [sigil_load, h16, if_false, if_pos hmag]
      have e2 : sigil_load_checked s data =
          some (-2, { s with header := { s.header with magic := magic_be data } }) := by
        simp only [sigil_load_checked, h16, if_false, if_pos hmag]
      rw [e1, e2, if_neg (by simp)]
    · simp only [sigil_load, sigil_load_checked, h16, if_false, if_neg hmag, le16_eq]
      by_cases hsz : data.length <
          16 + (rd data 7).val * 2 + ((rd data 8).val + 256 * (rd data 9).val) * 14
      · have hc : ¬ ((-3 : Int) = 0 ∧ 256 < (rd data 8).val + 256 * (rd data 9).val) :=
          fun hc => absurd hc.1 (by decide)
        simp only [if_pos hsz, hc, if_false]
      · simp only [if_neg hsz]
        generalize hs1 : ({ s with header := _ } : Sigil) = s1
        by_cases hr : (load_ops data (rd data 7).val 0 s1).1 ≠ 0
        · have hc : ¬ ((load_ops data (rd data 7).val 0 s1).1 = 0 ∧
              256 < (rd data 8).val + 256 * (rd data 9).val) := fun hc => hr hc.1
          simp only [if_pos hr, hc, if_false]
        · simp only [if_neg hr]
          by_cases hn : 256 < (rd data 8).val + 256 * (rd data 9).val
          · rw [load_edges_checked_none data _ _ 0 _ (by omega) (by omega)]
            simp only [hn, and_self, if_true]
          · rw [load_edges_checked_some data _ _ 0 _ (by omega)]
            simp only [hn, and_false, if_false]

/-- An accepted buffer that declares more than 256 edges makes `sigil_load` store past
its edge array. -/
theorem sigil_load_checked_none (s : Sigil) (data : List u8) (h : ¬ load_rejects data)
    (hn : 256 < (rd data 8).val + 256 * (rd data 9).val) : sigil_load_checked s data = none := by
  rw [sigil_load_checked_eq, if_pos ⟨((sigil_load_code s data).2 h).1, hn⟩]

/-- For the buffers that declare at most 256 edges every store of `sigil_load` is inside
the Sigil object: the call fails exactly under the four conditions of `load_rejects`, and
otherwise returns 0 with `loaded` set to 1. -/
theorem sigil_load_checked_iff (s : Sigil) (data : List u8)
    (hn : (rd data 8).val + 256 * (rd data 9).val ≤ 256) :
    sigil_load_checked s data = some (sigil_load s data) ∧
    ((sigil_load s data).1 < 0 ↔ load_rejects data) ∧
    (¬ load_rejects data → (sigil_load s data).1 = 0 ∧ (sigil_load s data).2.loaded = 1) := by
  refine ⟨?_, sigil_load_code s data⟩
  rw [sigil_load_checked_eq, if_neg (fun hc => by omega)]

theorem edge_weights_scan_checked_some (s : Sigil) (a b k : Nat) :
    ∀ i, i + k ≤ 256 →
      edge_weights_scan_checked s a b k i = some (edge_weights_scan s a b k i) := by
  induction k with
  | zero => intro i _; rfl
  | succ k ih =>
    intro i h
    have hi : i < 256 := by omega
    have he : s.edgeAt i = some (s.edges ⟨i, hi⟩) := by
      unfold Sigil.edgeAt
      rw [dif_pos hi]
    rw [edge_weights_scan_checked, edge_weights_scan, he]
    simp only
    split
    · rfl
    · exact ih (i + 1) (by omega)

/-- For a program of at most 256 edges every read of `edge_weights` is inside the edge
array. -/
theorem edge_weights_checked_some (s : Sigil) (a b : Nat) (h : s.header.n_edges ≤ 256) :
    edge_weights_checked s a b = some (edge_weights s a b) :=
  edge_weights_scan_checked_some s a b _ 0 (by omega)

theorem buf_max_edges_split :
    buf_max_edges =
      [0x4C, 0x37, 0x50, 0x52, 1, 0, 0, 1, 0xFF, 0xFF, 0, 0x4C, 0, 0, 0, 0, 0, 0] ++
        List.replicate (14 * 65535) 0 := by
  unfold buf_max_edges
  rw [← List.append_assoc]
  rfl

/-- The buffer `buf_max_edges` has 917508 bytes and passes the four checks of
`sigil_load`. -/
theorem buf_max_edges_accepted :
    buf_max_edges.length = 917508 ∧ rd buf_max_edges 7 = 1 ∧
    (rd buf_max_edges 8).val + 256 * (rd buf_max_edges 9).val = 65535 ∧
    ¬ load_rejects buf_max_edges := by
  have hlen : buf_max_edges.length = 917508 := by
    rw [buf_max_edges_split, List.length_append, List.length_replicate]
    rfl
  have hrd : ∀ i, i < 18 → rd buf_max_edges i =
      rd [0x4C, 0x37, 0x50, 0x52, 1, 0, 0, 1, 0xFF, 0xFF, 0, 0x4C, 0, 0, 0, 0, 0, 0] i := by
    intro i hi
    rw [buf_max_edges_split]
    exact rd_append _ _ i hi
  have h7 : rd buf_max_edges 7 = 1 := by rw [hrd 7 (by omega)]; rfl
  have h8 : rd buf_max_edges 8 = 255 := by rw [hrd 8 (by omega)]; rfl
  have h9 : rd buf_max_edges 9 = 255 := by rw [hrd 9 (by omega)]; rfl
  have h16 : rd buf_max_edges 16 = 0 := by rw [hrd 16 (by omega)]; rfl
  have htake : buf_max_edges.take 4 = [0x4C, 0x37, 0x50, 0x52] := by
    rw [buf_max_edges_split, List.take_append_of_le_length (by simp)]
    rfl
  refine ⟨hlen, h7, by rw [h8, h9]; rfl, ?_⟩
  unfold load_rejects
  rw [hlen, h7, h8, h9, htake]
  push_neg
  refine ⟨by omega, by simp, by decide, ?_⟩
  intro i hi
  have hi0 : i = 0 := by
    have : ((1 : u8) : Nat) = 1 := rfl
    omega
  rw [hi0, h16]
  decide

/-! ## Sources of any length without their unknown pairs -/

/-- The line loop on the text of well-formed lines, however many. -/
theorem parse_all_render_capped (ls : List SrcLine) (hwf : ls.all SrcLine.wf = true) :
    parse_all (render ls) AsmState.init =
      some (ls.foldl SrcLine.run_capped AsmState.init) := by
  have := parse_all_lines ls [] AsmState.init hwf
  rw [List.append_nil, parse_all_nil] at this
  exact this

theorem run_capped_strip_unknown (ls : List SrcLine) (st : AsmState) :
    (ls.map SrcLine.strip_unknown).foldl SrcLine.run_capped st =
      ls.foldl SrcLine.run_capped st := by
  induction ls generalizing st with
  | nil => rfl
  | cons l ls ih =>
    have e : SrcLine.run_capped st l.strip_unknown = SrcLine.run_capped st l := by
      unfold SrcLine.run_capped
      rw [run_strip_unknown]
    simp only [List.map_cons, List.foldl_cons, e]
    exact ih _

/-! ## The number of particles along a run -/

theorem find_field_range :
    ∀ i, i < find_field.n_particles → (find_field.particles i).pos.in_range := by
  intro i hi
  have h5 : i < 5 := hi
  interval_cases i
  · exact single_range 0 1 0 (by norm_num)
  · exact single_range 1 1 0 (by norm_num)
  · exact single_range 0 2 0 (by norm_num)
  · exact single_range 0 2 0 (by norm_num)
  · intro d
    change (0 : ℚ) ≤ (if d = 0 ∨ d = 1 then 1 else 0) ∧
      (if d = 0 ∨ d = 1 then (1 : ℚ) else 0) ≤ 10
    split <;> norm_num

/-! ## The codec: properties C1 - C3 -/

/-- C1 (failing input): the buffer `buf_max_edges` of 917508 bytes (magic `4C 37 50 52`,
opCount 1 with opcode 0, edgeCount 65535) meets none of the four conditions of failure:
it has 16 bytes or more, starts with the magic, holds the `16 + 2*1 + 14*65535` bytes
it declares, and its one opcode byte is below 22. Yet `sigil_load` does not succeed on
it: after the four checks the edge loop stores record 256 past the 256 cells of `edges`,
where the call has no defined result (`sigil_load_checked` gives `none`). -/
theorem sigil_load_past_array :
    buf_max_edges.length = 917508 ∧
    ¬ (buf_max_edges.length < 16 ∨
       ¬ (buf_max_edges.take 4 = [0x4C, 0x37, 0x50, 0x52] ∨
          buf_max_edges.take 4 = [0x52, 0x50, 0x37, 0x4C]) ∨
       buf_max_edges.length < 16 + 2 * (rd buf_max_edges 7).val +
         14 * ((rd buf_max_edges 8).val + 256 * (rd buf_max_edges 9).val) ∨
       ∃ i, i < (rd buf_max_edges 7).val ∧ 22 ≤ (rd buf_max_edges (16 + 2 * i)).val) ∧
    (rd buf_max_edges 7).val = 1 ∧
    (rd buf_max_edges 8).val + 256 * (rd buf_max_edges 9).val = 65535 ∧
    ∀ s : Sigil, sigil_load_checked s buf_max_edges = none := by
  obtain ⟨h1, h2, h3, h4⟩ := buf_max_edges_accepted
  exact ⟨h1, h4, by rw [h2]; rfl, h3, fun s => sigil_load_checked_none s _ h4 (by omega)⟩

/-- C2 (at the failing input): the buffer `buf_257_edges` declares 257 edges and is
accepted, the decoded header says 257 edges, yet the Sigil object has no record for
edge 256 (the bytes `07 08 00 ...` at offset 16 + 14*256): its edge array has 256 cells. -/
theorem sigil_load_257_edges :
    (sigil_load Sigil.blank buf_257_edges).1 = 0 ∧
    (sigil_load Sigil.blank buf_257_edges).2.header.n_edges = 257 ∧
    rd buf_257_edges (16 + 14 * 256) = 7 ∧
    (sigil_load Sigil.blank buf_257_edges).2.edgeAt 256 = none ∧
    ((sigil_load Sigil.blank buf_257_edges).2.edgeAt 255).map (fun e => e.from_) = some 0 :=
  ⟨by decide!, by decide!, by decide!, rfl, by decide!⟩

/-- C3: when `sigil_load` accepts a buffer `b`, it also accepts `b` followed by any
bytes `t` and leaves the same Sigil object (header, operation records, edge records):
the bytes after the declared records are ignored. -/
theorem trailing_bytes_ignored (s : Sigil) (b t : List u8) (h : (sigil_load s b).1 = 0) :
    (sigil_load s (b ++ t)).1 = 0 ∧ (sigil_load s (b ++ t)).2 = (sigil_load s b).2 := by
  rw [sigil_load_append s b t h]
  exact ⟨h, rfl⟩

/-- C3 at a concrete input: the 34 bytes of scenario A followed by `09 09 09`. -/
theorem trailing_bytes_ignored_witness :
    (sigil_load Sigil.blank scenario_a_bytes).1 = 0 ∧
    ((sigil_load Sigil.blank (scenario_a_bytes ++ [9, 9, 9])).1 = 0 ∧
      (sigil_load Sigil.blank (scenario_a_bytes ++ [9, 9, 9])).2 =
        (sigil_load Sigil.blank scenario_a_bytes).2) :=
  ⟨by decide, trailing_bytes_ignored Sigil.blank scenario_a_bytes [9, 9, 9] (by decide)⟩

/-! ## The assembler: properties C4 and C6 - C10 -/

/-- C4 (at the failing input): on the 256 lines `seal`, `assemble` reads 256 operations
and returns 4098, but the operation count it writes into byte 7 is `(u8)256 = 0`;
`sigil_load` accepts the 4098 bytes and decodes a program with no operation and 255
edges, the first of them read from the operation records (`02 02 ...`). -/
theorem roundtrip_256_lines :
    (parse_all text_256 AsmState.init).map (fun st => st.n_ops) = some 256 ∧
    (assemble text_256 zero_buf 65536).1 = 4098 ∧
    (assemble text_256 zero_buf 65536).2 7 = 0 ∧
    (sigil_load Sigil.blank (bytes_of (assemble text_256 zero_buf 65536).2 4098)).1 = 0 ∧
    (sigil_load Sigil.blank
      (bytes_of (assemble text_256 zero_buf 65536).2 4098)).2.header.n_ops = 0 ∧
    (sigil_load Sigil.blank
      (bytes_of (assemble text_256 zero_buf 65536).2 4098)).2.header.n_edges = 255 ∧
    ((sigil_load Sigil.blank
      (bytes_of (assemble text_256 zero_buf 65536).2 4098)).2.edgeAt 0).map
        (fun e => (e.from_, e.to_)) = some (2, 2) := by
  decide!

/-- C6 (counterexample): the source `text_257` has, after 256 lines `seal`, the line
`bogus`, whose first token is no operation name; `assemble` returns 4098, not -1. -/
theorem unknown_op_after_256_lines :
    text_257 = text_256 ++ "bogus\n".toList ∧ "bogus".toList ∉ OP_NAMES ∧
    (assemble text_257 zero_buf 65536).1 = 4098 := by
  decide!

/-- C6 (amended): when fewer than 256 operation lines, all well-formed, come before a
line whose first token is not one of the 22 operation names, `assemble` returns -1 and
leaves the output buffer as it was, whatever follows the token. -/
theorem unknown_op_aborts (ls : List SrcLine) (indent tok rest : List Char) (out : Nat → u8)
    (outmax : Int) (hwf : ls.all SrcLine.wf = true) (hcount : count_ops ls < 256)
    (hind : indent.all is_blank = true) (htok : tok ≠ [])
    (hchars : tok.all is_name_char = true) (hhash : tok.head? ≠ some '#')
    (hrest : stops is_name_char rest) (hunk : tok ∉ OP_NAMES) :
    assemble (render ls ++ (indent ++ (tok ++ rest))) out outmax = (-1, out) := by
  apply assemble_none
  rw [parse_all_render ls _ AsmState.init hwf (by simp only [AsmState.init]; omega)]
  have hn : (run_lines ls AsmState.init).n_ops < 256 := by
    rw [run_lines_n_ops]
    simp only [AsmState.init]
    omega
  obtain ⟨c, t, rfl⟩ := List.exists_cons_of_ne_nil htok
  have hc : is_name_char c = true := by
    simp only [List.all_cons, Bool.and_eq_true] at hchars
    exact hchars.1
  have hc' := hc
  simp only [is_name_char, Bool.and_eq_true, bne_iff_ne, ne_eq] at hc'
  have hb : is_blank c = false := by
    simp only [is_blank, Bool.or_eq_false_iff, beq_eq_false_iff_ne, ne_eq]
    exact ⟨⟨hc'.1.1.1, hc'.1.1.2⟩, hc'.2⟩
  have e1 : (indent ++ (c :: t ++ rest)).dropWhile is_blank = c :: (t ++ rest) :=
    dropWhile_run _ _ _ hind (by simpa [stops] using hb)
  have e2 : (c :: (t ++ rest)).takeWhile is_name_char = c :: t := by
    have := takeWhile_run is_name_char (c :: t) rest hchars hrest
    simpa using this
  have hfind : find_op_by_name (c :: t) < 0 := (find_op_neg_iff _).mpr hunk
  have hne : indent ++ (c :: t ++ rest) ≠ [] := by simp
  have h1 : ¬ ((some c : Option Char) = some '\n') := by simpa using hc'.1.2
  have h2 : ¬ ((some c : Option Char) = some '#') := by simpa using hhash
  unfold parse_all
  rw [parse_lines_succ]
  simp only [hne, hn, not_true_eq_false, or_self, if_false, e1, reduceCtorEq, List.head?_cons,
    h1, h2, e2, hfind, if_true]

/-- C6 (amended) at a concrete input: the two lines of scenario A, then the line
`  bogus x=1`, then `complete`. -/
theorem unknown_op_aborts_witness :
    scenario_a_source.all SrcLine.wf = true ∧ count_ops scenario_a_source < 256 ∧
    ("  ".toList).all is_blank = true ∧ "bogus".toList ≠ [] ∧
    ("bogus".toList).all is_name_char = true ∧ ("bogus".toList).head? ≠ some '#' ∧
    stops is_name_char " x=1\ncomplete\n".toList ∧ "bogus".toList ∉ OP_NAMES ∧
    assemble (render scenario_a_source ++ ("  ".toList ++ ("bogus".toList ++
      " x=1\ncomplete\n".toList))) zero_buf 4096 = (-1, zero_buf) :=
  ⟨by decide, by decide, by decide, by decide, by decide, by decide,
    (by decide : is_name_char ' ' = false), by decide,
    unknown_op_aborts scenario_a_source "  ".toList "bogus".toList " x=1\ncomplete\n".toList
      zero_buf 4096 (by decide) (by decide) (by decide) (by decide) (by decide) (by decide)
      (by decide : is_name_char ' ' = false) (by decide)⟩

/-- C7 (counterexample): the source `invoke foo=5` / `complete` has a pair whose name
`foo` is no dimension name; `assemble` returns 34, not a failure. -/
theorem unknown_dim_assembles :
    "foo".toList ∉ DIM_NAMES ∧
    (assemble "invoke foo=5\ncomplete\n".toList zero_buf 4096).1 = 34 := by
  decide!

/-- C7 (amended): in a source of well-formed lines, the pairs whose name is not one of
the 12 dimension names are skipped: `assemble` returns the same value and leaves the
same output as for the source without these pairs. -/
theorem unknown_dim_ignored (ls : List SrcLine) (out : Nat → u8) (outmax : Int)
    (hwf : ls.all SrcLine.wf = true) :
    assemble (render ls) out outmax =
      assemble (render (ls.map SrcLine.strip_unknown)) out outmax := by
  apply assemble_congr
  have hwf' : (ls.map SrcLine.strip_unknown).all SrcLine.wf = true := by
    rw [List.all_eq_true] at hwf ⊢
    intro l hl
    obtain ⟨l0, hl0, rfl⟩ := List.mem_map.mp hl
    exact wf_strip_unknown l0 (hwf l0 hl0)
  rw [parse_all_render_capped ls hwf, parse_all_render_capped _ hwf',
    run_capped_strip_unknown]

/-- C7 (amended) at a concrete input: the source `invoke foo=7 capability=` / `complete`,
which assembles to the 34 bytes of `invoke capability=` / `complete`. -/
theorem unknown_dim_ignored_witness :
    malformed_source.all SrcLine.wf = true ∧
    render malformed_source = "invoke foo=7 capability=\ncomplete\n".toList ∧
    render (malformed_source.map SrcLine.strip_unknown) =
      "invoke capability=\ncomplete\n".toList ∧
    (assemble (render (malformed_source.map SrcLine.strip_unknown)) zero_buf 4096).1 = 34 ∧
    assemble (render malformed_source) zero_buf 4096 =
      assemble (render (malformed_source.map SrcLine.strip_unknown)) zero_buf 4096 :=
  ⟨by decide, by decide, by decide, by decide!,
    unknown_dim_ignored malformed_source zero_buf 4096 (by decide)⟩

/-- C8 (failing input): on the source `invoke foo` / `complete`, whose first line has
an operand without `=`, `assemble` does not fail: it returns 18 and emits a program of
one operation, `invoke` (opcode 0). The line `complete` is absorbed: the pair loop of
the first line, looking for `=`, reads across the newline to the end of the text. The
source `invoke` / `complete` gives 34 bytes and two operations, the second of opcode 21. -/
theorem missing_eq_assembles :
    (assemble "invoke foo\ncomplete\n".toList zero_buf 4096).1 = 18 ∧
    (assemble "invoke foo\ncomplete\n".toList zero_buf 4096).2 7 = 1 ∧
    (assemble "invoke foo\ncomplete\n".toList zero_buf 4096).2 16 = 0 ∧
    (parse_pairs 15 " foo\ncomplete\n".toList (fun _ => 0)).2 = [] ∧
    (assemble "invoke\ncomplete\n".toList zero_buf 4096).1 = 34 ∧
    (assemble "invoke\ncomplete\n".toList zero_buf 4096).2 7 = 2 ∧
    (assemble "invoke\ncomplete\n".toList zero_buf 4096).2 18 = 21 := by
  decide!

/-- A source whose operation lines start with an operation name and go on with
blank-separated tokens `name=digits`, where a name may be empty or unknown and a digit
string empty, is assembled without failure: with n such lines, 1 ≤ n ≤ 255, and room in
the output, `assemble` returns `16 + 2n + 14(n-1)`, and the emitted bytes decode to n
operations, the k-th with the opcode of the k-th line, and to the edges (k -> k+1)
carrying the row of line k, in which the tokens that are no `dim=digits` pair set no
weight. -/
theorem malformed_pairs_do_not_fail (ls : List SrcLine) (out : Nat → u8) (outmax : Int)
    (s : Sigil) (hwf : ls.all SrcLine.wf = true) (h1 : 1 ≤ count_ops ls)
    (h255 : count_ops ls ≤ 255)
    (hroom : ((16 + count_ops ls * 2 + (count_ops ls - 1) * 14 : Nat) : Int) ≤ outmax) :
    (assemble (render ls) out outmax).1 =
      ((16 + count_ops ls * 2 + (count_ops ls - 1) * 14 : Nat) : Int) ∧
    (sigil_load s (bytes_of (assemble (render ls) out outmax).2
      (16 + count_ops ls * 2 + (count_ops ls - 1) * 14))).1 = 0 ∧
    (sigil_load s (bytes_of (assemble (render ls) out outmax).2
      (16 + count_ops ls * 2 + (count_ops ls - 1) * 14))).2.header.n_ops.val = count_ops ls ∧
    ∀ k o, (op_lines ls)[k]? = some o →
      ((sigil_load s (bytes_of (assemble (render ls) out outmax).2
        (16 + count_ops ls * 2 + (count_ops ls - 1) * 14))).2.ops k).opcode.val = o.op.val ∧
      (k + 1 < count_ops ls →
        (sigil_load s (bytes_of (assemble (render ls) out outmax).2
          (16 + count_ops ls * 2 + (count_ops ls - 1) * 14))).2.edgeAt k =
          some ⟨toU8 k, toU8 (k + 1), fun d => o.row d.val⟩) := by
  have hp := parse_all_source ls hwf (by omega)
  have hn : (run_lines ls AsmState.init).n_ops = count_ops ls := by
    rw [run_lines_n_ops]
    simp [AsmState.init]
  have h0 : (run_lines ls AsmState.init).n_ops ≠ 0 := by omega
  have hsome := assemble_some (render ls) out outmax _ hp h0 (by rw [hn]; exact hroom)
  obtain ⟨d1, -, d3, -, -, -, d7, d8⟩ := decode_assemble (render ls) out outmax s _ hp h0
    (by omega) (by rw [hn]; exact hroom)
  rw [hn] at d1 d3 d7 d8
  refine ⟨?_, d1, d3, ?_⟩
  · rw [hsome, hn]
  · intro k o hk
    have hklt : k < count_ops ls := by
      rw [count_ops_eq]
      exact (List.getElem?_eq_some_iff.mp hk).1
    obtain ⟨s1, s2⟩ := run_lines_spec ls AsmState.init k o hk
    have hz : AsmState.init.n_ops + k = k := by simp [AsmState.init]
    rw [hz] at s1 s2
    constructor
    · rw [d7 k hklt, s1, intToU8_op]
    · intro hk1
      rw [d8 k (by omega), s2]
      rfl

/-- C9: whenever `assemble` returns a failure, which it does only at an unknown
operation name, when it has read no operation, or when the encoded size exceeds
`outmax`, the output buffer is exactly as it was before the call. -/
theorem assemble_failure_writes_nothing (text : List Char) (out : Nat → u8) (outmax : Int)
    (h : (assemble text out outmax).1 < 0) :
    (assemble text out outmax).2 = out ∧ (assemble text out outmax).1 = -1 ∧
    (parse_lines (text.length + 1) text AsmState.init = none ∨
      ∃ st, parse_lines (text.length + 1) text AsmState.init = some st ∧
        (st.n_ops = 0 ∨
          ((16 + st.n_ops * 2 + (if st.n_ops > 1 then st.n_ops - 1 else 0) * 14 : Nat) : Int)
            > outmax)) := by
  rcases assemble_cases text out outmax with ⟨h1, h2⟩ | ⟨st, -, -, -, h4⟩
  · rw [h1]
    exact ⟨rfl, rfl, h2⟩
  · rw [h4] at h
    omega

/-- C9 at a concrete input: the source `invoke capability=8` / `bogus` fails and the
all-zero buffer is left all zero. -/
theorem assemble_failure_writes_nothing_witness :
    (assemble "invoke capability=8\nbogus\n".toList zero_buf 4096).1 < 0 ∧
    ((assemble "invoke capability=8\nbogus\n".toList zero_buf 4096).2 = zero_buf ∧
      (assemble "invoke capability=8\nbogus\n".toList zero_buf 4096).1 = -1 ∧
      (parse_lines ("invoke capability=8\nbogus\n".toList.length + 1)
          "invoke capability=8\nbogus\n".toList AsmState.init = none ∨
        ∃ st, parse_lines ("invoke capability=8\nbogus\n".toList.length + 1)
            "invoke capability=8\nbogus\n".toList AsmState.init = some st ∧
          (st.n_ops = 0 ∨
            ((16 + st.n_ops * 2 + (if st.n_ops > 1 then st.n_ops - 1 else 0) * 14 : Nat) : Int)
              > 4096))) :=
  ⟨by decide, assemble_failure_writes_nothing _ zero_buf 4096 (by decide)⟩

/-- C10 (at the failing input): in the source `invoke capability=4294967297` /
`complete` the value is above 10, so the weight byte of `capability` on edge 0 should be
250; `parse_int` wraps at 32 bits to 1 and `assemble` emits the byte 25 at offset 22. -/
theorem weight_overflow :
    (assemble "invoke capability=4294967297\ncomplete\n".toList zero_buf 4096).1 = 34 ∧
    parse_int "4294967297".toList = 1 ∧
    (assemble "invoke capability=4294967297\ncomplete\n".toList zero_buf 4096).2 22 = 25 := by
  decide!

/-! ## The executor: property C5 -/

/-- C5 (counterexample): in scenario A the run does not leave position[capability] at 8
nor position[security] at 7; `invoke` copies the edge weights 200/25.5 and 175/25.5. -/
theorem scenario_a_not_exact :
    ((exec_sigil scenario_a_sigil Field.init).2.particles 0).pos.v 0 ≠ 8 ∧
    ((exec_sigil scenario_a_sigil Field.init).2.particles 0).pos.v 4 ≠ 7 ∧
    (scenario_a_step1.2.particles 0).pos.v 0 ≠ 8 ∧
    (scenario_a_step1.2.particles 0).pos.v 4 ≠ 7 := by
  decide!

/-- C5 (amended): scenario A. The source assembles to 34 bytes, a program of 2
operations and 1 edge; `invoke` reads edge (0 -> 1) and sets position[capability] =
200/25.5 = 400/51 (about 7.84), position[security] = 175/25.5 = 350/51 (about 6.86),
every other dimension to 0 and the uncertainty to 0x4C00/65535; `complete` then sets the
uncertainty to 0 and halts without error, the dimensions unchanged, and `exec_sigil`
returns 0. -/
theorem scenario_a :
    (assemble scenario_a_text zero_buf 4096).1 = 34 ∧
    bytes_of (assemble scenario_a_text zero_buf 4096).2 34 = scenario_a_bytes ∧
    (sigil_load Sigil.blank scenario_a_bytes).1 = 0 ∧
    scenario_a_sigil.header.n_ops = 2 ∧ scenario_a_sigil.header.n_edges = 1 ∧
    (scenario_a_sigil.ops 0).opcode = 0 ∧ (scenario_a_sigil.ops 1).opcode = 21 ∧
    (scenario_a_step1.2.particles 0).pos.v 0 = 400 / 51 ∧
    (scenario_a_step1.2.particles 0).pos.v 4 = 350 / 51 ∧
    (∀ d : Fin 12, d ≠ 0 → d ≠ 4 → (scenario_a_step1.2.particles 0).pos.v d = 0) ∧
    (scenario_a_step1.2.particles 0).pos.astrocyte = 19456 / 65535 ∧
    scenario_a_step1.1.halted = 0 ∧
    (exec_run scenario_a_sigil 0 scenario_a_field).1.halted = 1 ∧
    (exec_run scenario_a_sigil 0 scenario_a_field).1.error = 0 ∧
    (exec_sigil scenario_a_sigil Field.init).1 = 0 ∧
    ((exec_sigil scenario_a_sigil Field.init).2.particles 0).pos.astrocyte = 0 ∧
    (∀ d : Fin 12, ((exec_sigil scenario_a_sigil Field.init).2.particles 0).pos.v d =
      (scenario_a_step1.2.particles 0).pos.v d) := by
  decide!

/-! ## The Field and single operations: properties C12, C13, C16 - C18 -/

/-- C16: when all 12 dimensions of `a`, or all 12 dimensions of `b`, are zero,
`coord_similarity a b` is exactly 0: the square-root loop of the zero operand makes no
turn, its result 0 is below 0.001, and the function returns before its division. -/
theorem similarity_zero (a b : Coord) (h : (∀ i, a.v i = 0) ∨ (∀ i, b.v i = 0)) :
    coord_similarity a b = 0 ∧
    ((∀ i, a.v i = 0) → sqrt_approx (dims.foldl (fun ma i => ma + a.v i * a.v i) 0) = 0) ∧
    ((∀ i, b.v i = 0) → sqrt_approx (dims.foldl (fun mb i => mb + b.v i * b.v i) 0) = 0) := by
  have hz : sqrt_approx 0 = 0 := by
    unfold sqrt_approx sqrt_fuel
    simp [sqrt_loop]
    norm_num
  have hsum : ∀ c : Coord, (∀ i, c.v i = 0) →
      dims.foldl (fun m i => m + c.v i * c.v i) 0 = 0 := by
    intro c hc
    simp [dims, hc]
  refine ⟨?_, fun ha => by rw [hsum a ha, hz], fun hb => by rw [hsum b hb, hz]⟩
  unfold coord_similarity
  rcases h with h | h
  · simp only [hsum a h, hz]
    norm_num
  · simp only [hsum b h, hz]
    norm_num

/-- C16 at a concrete input: the zero vector against (3, 0, ..., 0). -/
theorem similarity_zero_witness :
    ((∀ i, Coord.zero.v i = 0) ∨ (∀ i, (Coord.single 0 3 0).v i = 0)) ∧
    coord_similarity Coord.zero (Coord.single 0 3 0) = 0 :=
  ⟨Or.inl (fun _ => rfl),
    (similarity_zero Coord.zero (Coord.single 0 3 0) (Or.inl (fun _ => rfl))).1⟩

/-- C17: `field_create` on a Field that holds 1024 particles (or more) returns -1 and
leaves the Field as it is, and so does `field_connect` on a Field that holds 4096
edges; below capacity each returns the previous count, raises that count by one and
leaves the entries below it, and the other table, as they are; `field_create` takes the
next id only when it succeeds. -/
theorem field_capacity (pos w : Coord) (a b : Nat) (F : Field) :
    (1024 ≤ F.n_particles → field_create pos F = (-1, F)) ∧
    (4096 ≤ F.n_edges → field_connect a b w F = (-1, F)) ∧
    (F.n_particles < 1024 →
      (field_create pos F).1 = (F.n_particles : Int) ∧
      (field_create pos F).2.n_particles = F.n_particles + 1 ∧
      (∀ i, i < F.n_particles → (field_create pos F).2.particles i = F.particles i) ∧
      ((field_create pos F).2.particles F.n_particles).pos = pos ∧
      ((field_create pos F).2.particles F.n_particles).id = F.next_id ∧
      (field_create pos F).2.edges = F.edges ∧ (field_create pos F).2.n_edges = F.n_edges) ∧
    (F.n_edges < 4096 →
      (field_connect a b w F).1 = (F.n_edges : Int) ∧
      (field_connect a b w F).2.n_edges = F.n_edges + 1 ∧
      (∀ i, i < F.n_edges → (field_connect a b w F).2.edges i = F.edges i) ∧
      (field_connect a b w F).2.edges F.n_edges = ⟨a, b, w⟩ ∧
      (field_connect a b w F).2.particles = F.particles ∧
      (field_connect a b w F).2.n_particles = F.n_particles) := by
  refine ⟨?_, ?_, ?_, ?_⟩
  · intro h
    simp [field_create, MAX_PARTICLES, h]
  · intro h
    simp [field_connect, MAX_EDGES, h]
  · intro h
    have hn : ¬ F.n_particles ≥ MAX_PARTICLES := by
      simp only [MAX_PARTICLES]
      omega
    simp only [field_create, hn, if_false, Function.update_same]
    refine ⟨trivial, trivial, ?_, trivial, trivial, trivial, trivial⟩
    intro i hi
    exact Function.update_noteq (by omega) _ _
  · intro h
    have hn : ¬ F.n_edges ≥ MAX_EDGES := by
      simp only [MAX_EDGES]
      omega
    simp only [field_connect, hn, if_false, Function.update_same]
    refine ⟨trivial, trivial, ?_, trivial, trivial, trivial⟩
    intro i hi
    exact Function.update_noteq (by omega) _ _

/-- C17 at concrete inputs: a full Field refuses both calls, the initial Field gives
index 0 to both. -/
theorem field_capacity_witness :
    field_create Coord.zero full_field = (-1, full_field) ∧
    field_connect 0 1 Coord.zero full_field = (-1, full_field) ∧
    (field_create Coord.zero Field.init).1 = 0 ∧
    (field_connect 0 1 Coord.zero Field.init).1 = 0 :=
  ⟨(field_capacity Coord.zero Coord.zero 0 1 full_field).1 (by decide),
    (field_capacity Coord.zero Coord.zero 0 1 full_field).2.1 (by decide),
    ((field_capacity Coord.zero Coord.zero 0 1 Field.init).2.2.1 (by decide)).1,
    ((field_capacity Coord.zero Coord.zero 0 1 Field.init).2.2.2 (by decide)).1⟩

/-- C18: a 16-byte buffer with the magic in either byte order, version 1, operation
count 0 and edge count 0 is accepted by `sigil_load`, which decodes an operation count
of 0; and on every program with operation count 0, loaded or not, `exec_sigil` returns
-1 and leaves the Field as it is (no particle created, counters unchanged). -/
theorem scenario_c (s : Sigil) (data : List u8) (F : Field) (hlen : data.length = 16)
    (hmagic : data.take 4 = [0x4C, 0x37, 0x50, 0x52] ∨ data.take 4 = [0x52, 0x50, 0x37, 0x4C])
    (hver : rd data 4 = 1 ∧ rd data 5 = 0) (hops : rd data 7 = 0)
    (hedges : rd data 8 = 0 ∧ rd data 9 = 0) :
    (sigil_load s data).1 = 0 ∧ (sigil_load s data).2.loaded = 1 ∧
    (sigil_load s data).2.header.version = 1 ∧
    (sigil_load s data).2.header.n_ops = 0 ∧
    exec_sigil (sigil_load s data).2 F = (-1, F) ∧
    (∀ (p : Sigil) (G : Field), p.header.n_ops = 0 → exec_sigil p G = (-1, G)) := by
  have hexec : ∀ (p : Sigil) (G : Field), p.header.n_ops = 0 → exec_sigil p G = (-1, G) := by
    intro p G hp
    simp [exec_sigil, hp]
  have hacc : ¬ load_rejects data := by
    unfold load_rejects
    rw [hops, hedges.1, hedges.2, hlen]
    push_neg
    refine ⟨by omega, hmagic, by simp, ?_⟩
    intro i hi
    simp at hi
  obtain ⟨h0, h1⟩ := (sigil_load_code s data).2 hacc
  obtain ⟨f1, -, f3, -⟩ := sigil_load_fields s data h0
  have hn : (sigil_load s data).2.header.n_ops = 0 := by rw [f3, hops]
  refine ⟨h0, h1, ?_, hn, hexec _ F hn, hexec⟩
  rw [f1, hver.1, hver.2]
  rfl

/-- C18 at a concrete input: the buffer `scenario_c_bytes` and the initial Field. -/
theorem scenario_c_witness :
    scenario_c_bytes.length = 16 ∧
    (scenario_c_bytes.take 4 = [0x4C, 0x37, 0x50, 0x52] ∨
      scenario_c_bytes.take 4 = [0x52, 0x50, 0x37, 0x4C]) ∧
    (rd scenario_c_bytes 4 = 1 ∧ rd scenario_c_bytes 5 = 0) ∧ rd scenario_c_bytes 7 = 0 ∧
    (rd scenario_c_bytes 8 = 0 ∧ rd scenario_c_bytes 9 = 0) ∧
    (sigil_load Sigil.blank scenario_c_bytes).1 = 0 ∧
    exec_sigil (sigil_load Sigil.blank scenario_c_bytes).2 Field.init = (-1, Field.init) :=
  ⟨by decide, by decide, by decide, by decide, by decide,
    (scenario_c Sigil.blank scenario_c_bytes Field.init (by decide) (by decide) (by decide)
      (by decide) (by decide)).1,
    (scenario_c Sigil.blank scenario_c_bytes Field.init (by decide) (by decide) (by decide)
      (by decide) (by decide)).2.2.2.2.1⟩

/-- C12 (counterexample): at position (1, 0, ..., 0) with uncertainty 0 and weights
(1, 0, ..., 0) the similarity is 1, above 0.1, `verify` does not halt, and the
uncertainty after it is 0, not strictly smaller than the 0 before. -/
theorem verify_keeps_zero :
    coord_similarity
      ((one_particle_field (Coord.single 0 1 0)).particles 0).pos (Coord.single 0 1 0) = 1 ∧
    (exec_op (ExecCtx.start 0 Coord.zero) complete_sigil 6 (Coord.single 0 1 0)
      (one_particle_field (Coord.single 0 1 0))).1.halted = 0 ∧
    ((one_particle_field (Coord.single 0 1 0)).particles 0).pos.astrocyte = 0 ∧
    ((exec_op (ExecCtx.start 0 Coord.zero) complete_sigil 6 (Coord.single 0 1 0)
      (one_particle_field (Coord.single 0 1 0))).2.particles 0).pos.astrocyte = 0 := by
  decide!

/-- C12 (amended): in a running context, `verify` sets the halted and error flags
exactly when similarity(position, weights) ≤ 0.1, and then leaves the particle as it
is; when the similarity `sim` is above 0.1 it sets neither flag and multiplies the
uncertainty by `1 - sim/2`, which makes it strictly smaller when it was positive and
leaves it at 0 when it was 0. -/
theorem verify_semantics (ctx : ExecCtx) (s : Sigil) (w : Coord) (F : Field)
    (hrun : ctx.halted = 0) (herr : ctx.error = 0) :
    (((exec_op ctx s 6 w F).1.halted = 1 ∧ (exec_op ctx s 6 w F).1.error = 1) ↔
      coord_similarity (F.particles ctx.particle_idx).pos w ≤ 1 / 10) ∧
    (coord_similarity (F.particles ctx.particle_idx).pos w ≤ 1 / 10 →
      (exec_op ctx s 6 w F).2.particles = F.particles) ∧
    (coord_similarity (F.particles ctx.particle_idx).pos w > 1 / 10 →
      (exec_op ctx s 6 w F).1.halted = 0 ∧ (exec_op ctx s 6 w F).1.error = 0 ∧
      ((exec_op ctx s 6 w F).2.particles ctx.particle_idx).pos.astrocyte =
        (F.particles ctx.particle_idx).pos.astrocyte *
          (1 - coord_similarity (F.particles ctx.particle_idx).pos w * (1 / 2)) ∧
      ((exec_op ctx s 6 w F).2.particles ctx.particle_idx).pos.v =
        (F.particles ctx.particle_idx).pos.v ∧
      (0 < (F.particles ctx.particle_idx).pos.astrocyte →
        ((exec_op ctx s 6 w F).2.particles ctx.particle_idx).pos.astrocyte <
          (F.particles ctx.particle_idx).pos.astrocyte) ∧
      ((F.particles ctx.particle_idx).pos.astrocyte = 0 →
        ((exec_op ctx s 6 w F).2.particles ctx.particle_idx).pos.astrocyte = 0)) := by
  rw [exec_op_verify]
  by_cases hs : coord_similarity (F.particles ctx.particle_idx).pos w > 1 / 10
  · have hle : ¬ coord_similarity (F.particles ctx.particle_idx).pos w ≤ 1 / 10 := not_le.mpr hs
    simp only [if_pos hs, hrun, herr]
    refine ⟨?_, fun h => absurd h hle, fun _ => ⟨trivial, trivial, ?_, ?_, ?_, ?_⟩⟩
    · constructor
      · intro h
        exact absurd h.1 (by decide)
      · intro h
        exact absurd h hle
    · simp [Field.setPos, Field.setParticle]
    · simp [Field.setPos, Field.setParticle]
    · intro hpos
      simp only [Field.setPos, Field.setParticle, Function.update_same]
      nlinarith
    · intro hz
      simp [Field.setPos, Field.setParticle, hz]
  · have hle : coord_similarity (F.particles ctx.particle_idx).pos w ≤ 1 / 10 := not_lt.mp hs
    simp only [if_neg hs]
    exact ⟨⟨fun _ => hle, fun _ => ⟨trivial, trivial⟩⟩, fun _ => trivial, fun h => absurd h hs⟩

/-- C12 (amended) at a concrete input: position (1, 0, ..., 0) with uncertainty 1/2 and
weights (1, 0, ..., 0): the uncertainty becomes 1/4. -/
theorem verify_semantics_witness :
    (ExecCtx.start 0 Coord.zero).halted = 0 ∧ (ExecCtx.start 0 Coord.zero).error = 0 ∧
    ((exec_op (ExecCtx.start 0 Coord.zero) complete_sigil 6 (Coord.single 0 1 0)
        (one_particle_field (Coord.single 0 1 (1 / 2)))).1.halted = 1 ∧
      (exec_op (ExecCtx.start 0 Coord.zero) complete_sigil 6 (Coord.single 0 1 0)
        (one_particle_field (Coord.single 0 1 (1 / 2)))).1.error = 1 ↔
      coord_similarity
        ((one_particle_field (Coord.single 0 1 (1 / 2))).particles
          (ExecCtx.start 0 Coord.zero).particle_idx).pos (Coord.single 0 1 0) ≤ 1 / 10) :=
  ⟨rfl, rfl,
    (verify_semantics (ExecCtx.start 0 Coord.zero) complete_sigil (Coord.single 0 1 0)
      (one_particle_field (Coord.single 0 1 (1 / 2))) rfl rfl).1⟩

/-- C13: in a running context (not halted, no error) `complete` sets the uncertainty of
the particle to exactly 0, sets halted, leaves error unset and leaves the 12 dimensions,
the domain and the sealed flag as they are, whatever the weights; and a run that
reaches `complete` at its instruction pointer stops there: the loop ends halted without
error, which `exec_sigil` reports as status 0, with the uncertainty at 0. -/
theorem complete_semantics (s : Sigil) (pidx k : Nat) (ctx : ExecCtx) (F : Field) (w : Coord)
    (hrun : ctx.halted = 0) (herr : ctx.error = 0) (hidx : ctx.particle_idx = pidx)
    (hop : (s.ops ctx.ip).opcode = 21) :
    ((exec_op ctx s 21 w F).2.particles pidx).pos.astrocyte = 0 ∧
    (exec_op ctx s 21 w F).1.halted = 1 ∧ (exec_op ctx s 21 w F).1.error = 0 ∧
    ((exec_op ctx s 21 w F).2.particles pidx).pos.v = (F.particles pidx).pos.v ∧
    ((exec_op ctx s 21 w F).2.particles pidx).domain = (F.particles pidx).domain ∧
    ((exec_op ctx s 21 w F).2.particles pidx).sealed = (F.particles pidx).sealed ∧
    (exec_loop s pidx (k + 1) ctx F).1.halted = 1 ∧
    (exec_loop s pidx (k + 1) ctx F).1.error = 0 ∧
    (exec_loop s pidx (k + 1) ctx F).1.ip = ctx.ip + 1 ∧
    (if (exec_loop s pidx (k + 1) ctx F).1.error ≠ 0 then (-3 : Int) else 0) = 0 ∧
    ((exec_loop s pidx (k + 1) ctx F).2.particles pidx).pos.astrocyte = 0 ∧
    ((exec_loop s pidx (k + 1) ctx F).2.particles pidx).pos.v = (F.particles pidx).pos.v ∧
    ((exec_loop s pidx (k + 1) ctx F).2.particles pidx).domain = (F.particles pidx).domain ∧
    ((exec_loop s pidx (k + 1) ctx F).2.particles pidx).sealed = (F.particles pidx).sealed := by
  have hop1 : ∀ (c : ExecCtx) (v : Coord), c.particle_idx = pidx → c.error = 0 →
      ((exec_op c s 21 v F).2.particles pidx).pos.astrocyte = 0 ∧
      (exec_op c s 21 v F).1.halted = 1 ∧ (exec_op c s 21 v F).1.error = 0 ∧
      ((exec_op c s 21 v F).2.particles pidx).pos.v = (F.particles pidx).pos.v ∧
      ((exec_op c s 21 v F).2.particles pidx).domain = (F.particles pidx).domain ∧
      ((exec_op c s 21 v F).2.particles pidx).sealed = (F.particles pidx).sealed ∧
      (exec_op c s 21 v F).1.ip = c.ip := by
    intro c v hc he
    rw [exec_op_complete, hc]
    simp [Field.setPos, Field.setParticle, he]
  obtain ⟨a1, a2, a3, a4, a5, a6, -⟩ := hop1 ctx w hidx herr
  refine ⟨a1, a2, a3, a4, a5, a6, ?_⟩
  obtain ⟨b1, b2, b3, b4, b5, b6, b7⟩ :=
    hop1 { ctx with accumulator := (F.particles pidx).pos } (step_weights s ctx.ip) hidx herr
  have hit : (exec_iter s pidx ctx F).1.halted = 1 ∧ (exec_iter s pidx ctx F).1.error = 0 ∧
      (exec_iter s pidx ctx F).1.ip = ctx.ip ∧
      (exec_iter s pidx ctx F).2.particles pidx =
        (exec_op { ctx with accumulator := (F.particles pidx).pos } s 21
          (step_weights s ctx.ip) F).2.particles pidx := by
    rw [exec_iter_eq, hop]
    split
    · exact ⟨b2, b3, b7, rfl⟩
    · exact ⟨b2, b3, b7, rfl⟩
  obtain ⟨c1, c2, c3, c4⟩ := hit
  rw [exec_loop_succ s pidx k ctx F hrun, exec_loop_halted _ _ _ _ _ (by simp [c1])]
  simp only [c1, c2, c3, c4, b1, b4, b5, b6]
  simp

/-- C13 at a concrete input: the one-operation program `complete` on a particle at
(3, 0, ..., 0) with uncertainty 1/2. -/
theorem complete_semantics_witness :
    (ExecCtx.start 0 Coord.zero).halted = 0 ∧ (ExecCtx.start 0 Coord.zero).error = 0 ∧
    (ExecCtx.start 0 Coord.zero).particle_idx = 0 ∧
    (complete_sigil.ops (ExecCtx.start 0 Coord.zero).ip).opcode = 21 ∧
    ((exec_op (ExecCtx.start 0 Coord.zero) complete_sigil 21 Coord.zero
      (one_particle_field (Coord.single 0 3 (1 / 2)))).2.particles 0).pos.astrocyte = 0 :=
  ⟨rfl, rfl, rfl, rfl,
    (complete_semantics complete_sigil 0 0 (ExecCtx.start 0 Coord.zero)
      (one_particle_field (Coord.single 0 3 (1 / 2))) Coord.zero rfl rfl rfl rfl).1⟩

/-! ## The steps of a run: properties C19 and C20 -/

/-- C19 (counterexample): the program decoded from `single_op_bytes` has one operation
and an edge record keyed (0 -> 1) with all weight bytes 255, so the specification
gives step 0 the weights 10; `exec_sigil` hands it the all-zero weights, and its
`invoke` leaves the particle at the origin. -/
theorem single_op_gets_no_weights :
    (sigil_load Sigil.blank single_op_bytes).1 = 0 ∧
    single_op_sigil.header.n_ops = 1 ∧ single_op_sigil.header.n_edges = 1 ∧
    (first_edge single_op_sigil 0 1).map (fun e => (e.weights 0).val) = some 255 ∧
    (spec_step_weights single_op_sigil 0).v 0 = 10 ∧
    (∀ d, (step_weights single_op_sigil 0).v d = 0) ∧
    (exec_sigil single_op_sigil Field.init).1 = 0 ∧
    (∀ d, ((exec_sigil single_op_sigil Field.init).2.particles 0).pos.v d = 0) := by
  decide!

/-- C19 (amended): for a program of at most 256 edges, the weights handed to step `i`
are: for `i = 0`, those of the first edge record keyed (0 -> 1) if the program has more
than one operation and has such an edge, else all zero; for `i > 0`, those of the first
edge record keyed (i-1 -> i) if present, else all zero; each weight is the edge byte
divided by 25.5, and a later record with the same key is never used. -/
theorem step_weights_spec (s : Sigil) (i : Nat) (h : s.header.n_edges ≤ 256) :
    (edge_records s).length = s.header.n_edges ∧
    step_weights s i =
      (if i = 0 ∧ s.header.n_ops.val ≤ 1 then Coord.zero else spec_step_weights s i) ∧
    (∀ pidx ctx F, ctx.ip = i →
      exec_iter s pidx ctx F =
        (if 0 < i then
          ((exec_op { ctx with accumulator := (F.particles pidx).pos } s (s.ops i).opcode
              (step_weights s i) F).1,
            feedback
              (coord_distance
                (exec_op { ctx with accumulator := (F.particles pidx).pos } s (s.ops i).opcode
                  (step_weights s i) F).1.accumulator
                ((exec_op { ctx with accumulator := (F.particles pidx).pos } s (s.ops i).opcode
                  (step_weights s i) F).2.particles pidx).pos)
              (exec_op { ctx with accumulator := (F.particles pidx).pos } s (s.ops i).opcode
                (step_weights s i) F).2)
         else
          exec_op { ctx with accumulator := (F.particles pidx).pos } s (s.ops i).opcode
            (step_weights s i) F)) := by
  refine ⟨edge_records_length s h, ?_, ?_⟩
  · unfold step_weights spec_step_weights
    by_cases h0 : i = 0
    · subst h0
      by_cases h1 : s.header.n_ops.val > 1
      · have h1' : ¬ s.header.n_ops.val ≤ 1 := by omega
        simp only [h1, h1', and_true, and_false, if_true, if_false]
        exact edge_weights_eq s 0 1
      · have h1' : s.header.n_ops.val ≤ 1 := by omega
        simp [h1, h1']
    · have hpos : i > 0 := Nat.pos_of_ne_zero h0
      simp only [h0, false_and, if_false, hpos, if_true]
      exact edge_weights_eq s (i - 1) i
  · intro pidx ctx F hip
    subst hip
    rw [exec_iter_eq, (exec_op_ctx _ s _ _ F).1]

/-- C19 (amended) at a concrete input: step 1 of scenario A gets the weights of its
edge (0 -> 1). -/
theorem step_weights_spec_witness :
    scenario_a_sigil.header.n_edges ≤ 256 ∧
    step_weights scenario_a_sigil 1 =
      (if 1 = 0 ∧ scenario_a_sigil.header.n_ops.val ≤ 1 then Coord.zero
       else spec_step_weights scenario_a_sigil 1) :=
  ⟨by decide!, (step_weights_spec scenario_a_sigil 1 (by decide!)).2.1⟩

/-- C20 (counterexample): at step 0 of scenario A, `invoke` moves the particle from the
origin, so the distance between its position before and after is not 0 and the
specification gives a prediction error above 0; the Field keeps its prediction error 0
and its global uncertainty 3/10. -/
theorem no_feedback_at_step_0 :
    scenario_a_field.prediction_error = 0 ∧ scenario_a_field.global_astrocyte = 3 / 10 ∧
    coord_distance (scenario_a_field.particles 0).pos (scenario_a_step1.2.particles 0).pos > 10 ∧
    scenario_a_step1.2.prediction_error = 0 ∧
    scenario_a_step1.2.global_astrocyte = 3 / 10 ∧
    scenario_a_step1.2.prediction_error ≠
      scenario_a_field.prediction_error * (9 / 10) +
        coord_distance (scenario_a_field.particles 0).pos
          (scenario_a_step1.2.particles 0).pos * (1 / 10) := by
  decide!

/-- C20 (amended): a step at index 0 leaves `Field.prediction_error` and
`Field.global_astrocyte` as they are; a step at an index above 0 whose operation is not
`transmute` sets the prediction error to 0.9 times its previous value plus 0.1 * err and
the global uncertainty to its previous value plus 0.1 * (err/20 - previous value),
clamped to [0.01, 0.99], where err = `coord_distance` of the position of the active
particle before the operation and its position after it. -/
theorem feedback_after_step (s : Sigil) (pidx : Nat) (ctx : ExecCtx) (F : Field) :
    (ctx.ip = 0 →
      (exec_iter s pidx ctx F).2.prediction_error = F.prediction_error ∧
      (exec_iter s pidx ctx F).2.global_astrocyte = F.global_astrocyte) ∧
    (0 < ctx.ip → (s.ops ctx.ip).opcode ≠ 1 →
      (exec_iter s pidx ctx F).2.prediction_error =
        F.prediction_error * (9 / 10) +
          coord_distance (F.particles pidx).pos
            ((exec_iter s pidx ctx F).2.particles pidx).pos * (1 / 10) ∧
      (exec_iter s pidx ctx F).2.global_astrocyte =
        min (99 / 100) (max (1 / 100)
          (F.global_astrocyte +
            (coord_distance (F.particles pidx).pos
              ((exec_iter s pidx ctx F).2.particles pidx).pos / 20 - F.global_astrocyte) *
              (1 / 10)))) := by
  obtain ⟨hip, -⟩ := exec_op_ctx { ctx with accumulator := (F.particles pidx).pos } s
    (s.ops ctx.ip).opcode (step_weights s ctx.ip) F
  obtain ⟨hpe, hga⟩ := exec_op_stats { ctx with accumulator := (F.particles pidx).pos } s
    (s.ops ctx.ip).opcode (step_weights s ctx.ip) F
  constructor
  · intro h0
    rw [exec_iter_eq, hip, if_neg (by simp [h0])]
    exact ⟨hpe, hga⟩
  · intro hpos hop
    have hacc := exec_op_accumulator { ctx with accumulator := (F.particles pidx).pos } s
      (s.ops ctx.ip).opcode (step_weights s ctx.ip) F hop
    rw [exec_iter_eq, hip, if_pos hpos]
    simp only [feedback, hpe, hga, hacc]
    refine ⟨trivial, ?_⟩
    generalize F.global_astrocyte + (coord_distance (F.particles pidx).pos
      ((exec_op { ctx with accumulator := (F.particles pidx).pos } s (s.ops ctx.ip).opcode
        (step_weights s ctx.ip) F).2.particles pidx).pos / 20 - F.global_astrocyte) *
        (1 / 10) = x
    by_cases h1 : x < 1 / 100
    · have h2 : ¬ (1 / 100 : ℚ) > 99 / 100 := by norm_num
      rw [if_pos h1, if_neg h2, max_eq_left (le_of_lt h1), min_eq_right (by norm_num)]
    · rw [if_neg h1, max_eq_right (not_lt.mp h1)]
      by_cases h3 : x > 99 / 100
      · rw [if_pos h3, min_eq_left (le_of_lt h3)]
      · rw [if_neg h3, min_eq_right (not_lt.mp h3)]

/-- C20 (amended) at a concrete input: step 1 of scenario A (`complete`, at index 1). -/
theorem feedback_after_step_witness :
    (0 < ({ scenario_a_step1.1 with ip := 1 } : ExecCtx).ip) ∧
    (scenario_a_sigil.ops ({ scenario_a_step1.1 with ip := 1 } : ExecCtx).ip).opcode ≠ 1 ∧
    (exec_iter scenario_a_sigil 0 { scenario_a_step1.1 with ip := 1 }
      scenario_a_step1.2).2.prediction_error =
        scenario_a_step1.2.prediction_error * (9 / 10) +
          coord_distance (scenario_a_step1.2.particles 0).pos
            ((exec_iter scenario_a_sigil 0 { scenario_a_step1.1 with ip := 1 }
              scenario_a_step1.2).2.particles 0).pos * (1 / 10) :=
  ⟨by decide, by decide!,
    ((feedback_after_step scenario_a_sigil 0 { scenario_a_step1.1 with ip := 1 }
      scenario_a_step1.2).2 (by decide) (by decide!)).1⟩

/-! ## Blank and comment lines: property C11 -/

/-- C11: two well-formed sources with the same operation lines in the same order
assemble to the same size and the same bytes; so putting blank lines, lines of spaces,
tabs and carriage returns, or lines whose first non-blank character is `#` before,
between or after the operation lines of a well-formed source changes nothing of what
`assemble` returns and emits. The last line of either source may lack its newline. -/
theorem blank_lines_ignored (ls1 ls2 : List SrcLine) (last1 last2 : Option SrcLine)
    (out : Nat → u8) (outmax : Int)
    (hwf1 : (source_lines ls1 last1).all SrcLine.wf = true)
    (hwf2 : (source_lines ls2 last2).all SrcLine.wf = true)
    (hops : op_lines (source_lines ls2 last2) = op_lines (source_lines ls1 last1)) :
    assemble (source_text ls2 last2) out outmax = assemble (source_text ls1 last1) out outmax := by
  apply assemble_congr
  rw [parse_all_source_text ls2 last2 _ hwf2, parse_all_source_text ls1 last1 _ hwf1,
    run_capped_op_lines (source_lines ls2 last2), run_capped_op_lines (source_lines ls1 last1),
    hops]

/-- C11 at a concrete input: scenario A, and scenario A with a comment and a blank line
before its operation lines, a line of blanks and a comment between them, and a blank
line and a comment without newline after them. -/
theorem blank_lines_ignored_witness :
    (source_lines scenario_a_source none).all SrcLine.wf = true ∧
    (source_lines scenario_a_spaced (some (.comment " ".toList "end".toList))).all
      SrcLine.wf = true ∧
    op_lines (source_lines scenario_a_spaced (some (.comment " ".toList "end".toList))) =
      op_lines (source_lines scenario_a_source none) ∧
    source_text scenario_a_source none = scenario_a_text ∧
    source_text scenario_a_spaced (some (.comment " ".toList "end".toList)) =
      "# scenario A\n\ninvoke capability=8 security=7\n \t\r\n  # invoke = 9\ncomplete\n\n #end".toList ∧
    assemble (source_text scenario_a_spaced (some (.comment " ".toList "end".toList)))
        zero_buf 4096 =
      assemble (source_text scenario_a_source none) zero_buf 4096 :=
  ⟨by decide, by decide, rfl, by decide, by decide,
    blank_lines_ignored scenario_a_source scenario_a_spaced none
      (some (.comment " ".toList "end".toList)) zero_buf 4096 (by decide) (by decide) rfl⟩

/-! ## Similarity of a coordinate with itself: property C15 -/

/-- C15 (failing input): for the coordinate with `v[0] = 0.5` and every other dimension
0, whose dimensions lie in [0,10] and are not all zero, `coord_similarity(a, a)` is 4:
the sum of squares 0.25 is below 1, the square-root loop does not turn once and leaves
0.25 in place of the root 0.5. -/
theorem similarity_self_small :
    (∀ i, 0 ≤ (Coord.single 0 (1 / 2) 0).v i ∧ (Coord.single 0 (1 / 2) 0).v i ≤ 10) ∧
    (Coord.single 0 (1 / 2) 0).v 0 ≠ 0 ∧
    sqrt_approx (1 / 4) = 1 / 4 ∧
    coord_similarity (Coord.single 0 (1 / 2) 0) (Coord.single 0 (1 / 2) 0) = 4 := by
  decide!

/-! ## The clamp invariant: property C14 -/

/-- C14: for every program and every starting Field with room for the particle of the
run, after each executed step of the run of `exec_sigil` (after `m` turns of its loop,
for every `m`) every one of the 12 dimensions of the active particle, and of every
particle `succeed` has created during the run, lies in [0,10]; the weights of every
step lie in [0,10]; and the Field `exec_sigil` leaves is the last of these states. -/
theorem clamp_invariant (s : Sigil) (F0 : Field) (m : Nat)
    (hroom : F0.n_particles < MAX_PARTICLES) :
    clamped_from F0.n_particles (run_steps s F0 m).2 ∧
    (step_weights s m).in_range ∧
    (s.loaded ≠ 0 → s.header.n_ops.val ≠ 0 →
      (exec_sigil s F0).2 = (run_steps s F0 s.header.n_ops.val).2 ∧
      clamped_from F0.n_particles (exec_sigil s F0).2) := by
  have hall : ∀ k, clamped_from F0.n_particles (run_steps s F0 k).2 := fun k =>
    exec_loop_clamp s F0.n_particles k _ _ rfl (clamped_start s F0 hroom)
  refine ⟨hall m, step_weights_range s m, ?_⟩
  intro hl hn
  rw [exec_sigil_run s F0 hl hn hroom]
  exact ⟨rfl, hall _⟩

/-- C14 at a concrete input: the program `invoke capability=8` / `succeed` / `complete`
run on the initial Field; after its three steps the Field has two particles, the
particle of the run and the one `succeed` has created. -/
theorem clamp_invariant_witness :
    Field.init.n_particles < MAX_PARTICLES ∧
    (run_steps spawn_sigil Field.init 3).2.n_particles = 2 ∧
    ((run_steps spawn_sigil Field.init 3).2.particles 1).pos.v 0 = 400 / 51 ∧
    clamped_from Field.init.n_particles (run_steps spawn_sigil Field.init 3).2 :=
  ⟨by decide, by decide!, by decide!, (clamp_invariant spawn_sigil Field.init 3 (by decide)).1⟩

/-! ## The square root of `coord_distance`: properties C21 and C30 -/

/-- C21 (failing input): for `a = (0.5, 0, ..., 0)` and `b` the origin the sum of squared
differences is 0.25 and `coord_distance(a, b)` is 0.25: the test `x - y > 0.001` of its
loop fails at once on `x = 0.25`, `y = 1`. The iteration of the specification, which
runs until `|x − y| < 0.001`, makes three turns and gives 3281/6560, within 0.001 of the
square root 0.5. -/
theorem distance_below_one :
    sq_dist (Coord.single 0 (1 / 2) 0) Coord.zero = 1 / 4 ∧
    coord_distance (Coord.single 0 (1 / 2) 0) Coord.zero = 1 / 4 ∧
    (∀ fuel, 3 ≤ fuel → spec_sqrt_loop (1 / 4) fuel (1 / 4) 1 = 3281 / 6560) ∧
    |(3281 / 6560 : ℚ) - 1 / 2| < 1 / 1000 ∧ ¬ |(1 / 4 : ℚ) - 1 / 2| < 1 / 1000 := by
  refine ⟨by decide!, by decide!, ?_, by decide!, by decide!⟩
  intro fuel h
  obtain ⟨k, rfl⟩ : ∃ k, fuel = k + 3 := ⟨fuel - 3, by omega⟩
  have t0 : ¬ |(1 / 4 : ℚ) - 1| < 1 / 1000 := by decide!
  have t1 : ¬ |((1 / 4 : ℚ) + 1) / 2 - 1 / 4 / (((1 / 4 : ℚ) + 1) / 2)| < 1 / 1000 := by decide!
  have e1 : ((1 / 4 : ℚ) + 1) / 2 = 5 / 8 := by norm_num
  have e2 : (1 / 4 : ℚ) / (5 / 8) = 2 / 5 := by norm_num
  have e3 : ((5 / 8 : ℚ) + 2 / 5) / 2 = 41 / 80 := by norm_num
  have e4 : (1 / 4 : ℚ) / (41 / 80) = 20 / 41 := by norm_num
  have e5 : ((41 / 80 : ℚ) + 20 / 41) / 2 = 3281 / 6560 := by norm_num
  have e6 : (1 / 4 : ℚ) / (3281 / 6560) = 1640 / 3281 := by norm_num
  have t2 : ¬ |(41 / 80 : ℚ) - 20 / 41| < 1 / 1000 := by decide!
  have t3 : |(3281 / 6560 : ℚ) - 1640 / 3281| < 1 / 1000 := by decide!
  rw [e1] at t1
  rw [e2] at t1
  simp only [spec_sqrt_loop, t0, if_false, e1, e2, t1, e3, e4, t2, e5, e6]
  cases k with
  | zero => rfl
  | succ k => simp only [spec_sqrt_loop, t3, if_true]

/-- C30: the square-root loop of `coord_distance` terminates on every sum `S`: after
some number `n` of turns its test `x - y > 0.001` fails for the first time, and the
result `r` is the `x` of that moment. For `S ≥ 1`, `sqrt(S) ≤ r ≤ sqrt(S) + 0.001`; for
`S < 1` the test fails before the first turn and `r = S`. For coordinates, `S` is the sum
of squared differences, which is not negative; `coord_distance(a, a) = 0`, and the
distance between (0.5, 0, ..., 0) and the origin is returned as 0.25. -/
theorem sqrt_loop_characterised (S : ℚ) (a b : Coord) :
    (∃ n, (∀ m, m < n → (sqrt_state S m).1 - (sqrt_state S m).2 > 1 / 1000) ∧
      ¬ (sqrt_state S n).1 - (sqrt_state S n).2 > 1 / 1000 ∧
      sqrt_approx S = (sqrt_state S n).1 ∧
      ∀ fuel, sqrt_fuel S ≤ fuel → sqrt_loop S fuel S 1 = (sqrt_state S n).1) ∧
    (1 ≤ S → Real.sqrt (S : ℝ) ≤ (sqrt_approx S : ℝ) ∧
      (sqrt_approx S : ℝ) ≤ Real.sqrt (S : ℝ) + 1 / 1000) ∧
    (S < 1 → ¬ (sqrt_state S 0).1 - (sqrt_state S 0).2 > 1 / 1000 ∧ sqrt_approx S = S) ∧
    coord_distance a b = sqrt_approx (sq_dist a b) ∧ 0 ≤ sq_dist a b ∧
    coord_distance a a = 0 ∧
    coord_distance (Coord.single 0 (1 / 2) 0) Coord.zero = 1 / 4 := by
  refine ⟨?_, sqrt_approx_real S, ?_, rfl, ?_, coord_distance_self a, by decide!⟩
  · obtain ⟨n, -, h1, h2, h3⟩ := sqrt_terminates S
    exact ⟨n, h1, h2, h3, fun fuel hf => (sqrt_approx_fuel S fuel hf).trans h3⟩
  · intro h
    refine ⟨?_, sqrt_approx_small S h⟩
    simp only [sqrt_state]
    linarith
  · unfold sq_dist
    have : ∀ (l : List (Fin 12)) (acc : ℚ), 0 ≤ acc →
        0 ≤ l.foldl (fun sum i => sum + (a.v i - b.v i) * (a.v i - b.v i)) acc := by
      intro l
      induction l with
      | nil => exact fun acc h => h
      | cons i l ih =>
        intro acc h
        exact ih _ (add_nonneg h (mul_self_nonneg _))
    exact this dims 0 (le_refl _)

/-- C30 at concrete sums: for the sum 4 the result is between 2 and 2.001; the sum 1/4
is returned as it is. -/
theorem sqrt_loop_characterised_witness :
    (1 : ℚ) ≤ 4 ∧ (1 / 4 : ℚ) < 1 ∧
    (Real.sqrt ((4 : ℚ) : ℝ) ≤ (sqrt_approx 4 : ℝ) ∧
      (sqrt_approx 4 : ℝ) ≤ Real.sqrt ((4 : ℚ) : ℝ) + 1 / 1000) ∧
    sqrt_approx (1 / 4) = 1 / 4 :=
  ⟨by norm_num, by norm_num,
    (sqrt_loop_characterised 4 Coord.zero Coord.zero).2.1 (by norm_num),
    ((sqrt_loop_characterised (1 / 4) Coord.zero Coord.zero).2.2.1 (by norm_num)).2⟩

/-! ## The status of a run: property C23 -/

/-- C23: for a loaded program with at least one operation, run on a Field with room for
the particle of the run, `exec_sigil` returns -3 exactly when some step that the run
executes (the run has not halted before it) is a `verify` that finds a similarity of at
most 0.1, and returns 0 otherwise; and an operation sets the halted flag of a running
context exactly when it is `complete` or such a failing `verify`. -/
theorem run_status (s : Sigil) (F0 : Field) (hl : s.loaded ≠ 0)
    (hn : s.header.n_ops.val ≠ 0) (hroom : F0.n_particles < MAX_PARTICLES) :
    ((exec_sigil s F0).1 = -3 ↔
      ∃ j, j < s.header.n_ops.val ∧ (run_steps s F0 j).1.halted = 0 ∧ verify_fails s F0 j) ∧
    ((¬ ∃ j, j < s.header.n_ops.val ∧ (run_steps s F0 j).1.halted = 0 ∧ verify_fails s F0 j) →
      (exec_sigil s F0).1 = 0) ∧
    (∀ (ctx : ExecCtx) (p : Sigil) (opcode : u8) (w : Coord) (F : Field), ctx.halted = 0 →
      ((exec_op ctx p opcode w F).1.halted ≠ 0 ↔
        opcode.val = 21 ∨
          (opcode.val = 6 ∧ coord_similarity (F.particles ctx.particle_idx).pos w ≤ 1 / 10))) := by
  have herr := run_error_iff s F0 s.header.n_ops.val
  rw [exec_sigil_run s F0 hl hn hroom]
  refine ⟨?_, ?_, ?_⟩
  · rw [← herr]
    constructor
    · intro h
      by_contra hc
      simp only [hc, if_false] at h
      exact absurd h (by decide)
    · intro h
      rw [if_pos h]
  · intro h
    rw [← herr] at h
    rw [if_neg h]
  · intro ctx p opcode w F hrun
    rw [(exec_op_flags ctx p opcode w F).1]
    constructor
    · intro h
      by_contra hc
      rw [if_neg hc] at h
      exact h hrun
    · intro h
      rw [if_pos h]
      decide

/-- C23 at a concrete input: scenario A runs without a `verify` and returns 0. -/
theorem run_status_witness :
    scenario_a_sigil.loaded ≠ 0 ∧ scenario_a_sigil.header.n_ops.val ≠ 0 ∧
    Field.init.n_particles < MAX_PARTICLES ∧
    (exec_sigil scenario_a_sigil Field.init).1 = 0 ∧
    ((exec_sigil scenario_a_sigil Field.init).1 = -3 ↔
      ∃ j, j < scenario_a_sigil.header.n_ops.val ∧
        (run_steps scenario_a_sigil Field.init j).1.halted = 0 ∧
        verify_fails scenario_a_sigil Field.init j) :=
  ⟨by decide!, by decide!, by decide, by decide!,
    (run_status scenario_a_sigil Field.init (by decide!) (by decide!) (by decide)).1⟩

/-! ## The steps a run executes: property C28 -/

/-- C28: let `k` be the index of the first step of a run that halts it (a `complete`, or
a `verify` that finds a similarity of at most 0.1), or the last index when no step
halts. Then the run executes the steps 0..k, each at its own index, and no step after
`k`; the state after all turns of the loop is the state after step `k`; the tick of the
Field has advanced by `k + 1` (modulo 2^64); and the program cut after operation `k`
gives the same return value, the same Field and the same final context. -/
theorem run_truncated (s : Sigil) (F0 : Field) (k : Nat) (hl : s.loaded ≠ 0)
    (hk : k < s.header.n_ops.val) (hroom : F0.n_particles < MAX_PARTICLES)
    (hbefore : ∀ j, j < k → ¬ step_halts s F0 j)
    (hat : step_halts s F0 k ∨ k + 1 = s.header.n_ops.val) :
    (∀ m, m ≤ k → (run_steps s F0 m).1.halted = 0 ∧ (run_steps s F0 m).1.ip = m) ∧
    (k + 1 < s.header.n_ops.val → (run_steps s F0 (k + 1)).1.halted ≠ 0) ∧
    run_steps s F0 s.header.n_ops.val = run_steps s F0 (k + 1) ∧
    (exec_sigil s F0).2.tick = (F0.tick + (k + 1)) % 18446744073709551616 ∧
    exec_sigil (s.truncate (k + 1)) F0 = exec_sigil s F0 ∧
    run_steps (s.truncate (k + 1)) F0 (k + 1) = run_steps s F0 s.header.n_ops.val := by
  have hn : s.header.n_ops.val ≠ 0 := by omega
  have hlt : s.header.n_ops.val < 256 := s.header.n_ops.isLt
  have h1 : ∀ m, m ≤ k → (run_steps s F0 m).1.halted = 0 := by
    intro m hm
    by_contra hc
    obtain ⟨j, hj, -, hj2⟩ := (run_halted_iff s F0 m).mp hc
    exact hbefore j (by omega) hj2
  have h2 : k + 1 < s.header.n_ops.val → (run_steps s F0 (k + 1)).1.halted ≠ 0 := by
    intro hlt1
    rcases hat with h | h
    · exact (run_steps_flags s F0 k (h1 k (le_refl _))).1.mpr h
    · omega
  have h3 : run_steps s F0 s.header.n_ops.val = run_steps s F0 (k + 1) := by
    by_cases he : k + 1 = s.header.n_ops.val
    · rw [he]
    · exact run_steps_halted s F0 (k + 1) (h2 (by omega)) _ (by omega)
  have htick : (run_steps s F0 (k + 1)).2.tick = (F0.tick + (k + 1)) % 18446744073709551616 := by
    rcases run_steps_tick s F0 (k + 1) (fun j hj => h1 j (by omega)) with h | ⟨h, -⟩
    · exact h
    · omega
  have hval : (toU8 (k + 1)).val = k + 1 := by
    simp only [toU8_val]
    omega
  have htr : run_steps (s.truncate (k + 1)) F0 (k + 1) = run_steps s F0 (k + 1) := by
    by_cases hc : (toU8 (k + 1)).val > 1 ↔ s.header.n_ops.val > 1
    · exact run_steps_truncate s (k + 1) F0 (k + 1) hc
    · have hk0 : k = 0 := by
        by_contra hne
        apply hc
        rw [hval]
        constructor <;> intro _ <;> omega
      subst hk0
      have hmany : ¬ 0 + 1 = s.header.n_ops.val := by
        intro he
        apply hc
        rw [hval, ← he]
      rcases hat with h | h
      · exact run_steps_truncate_one s F0 hroom h
      · exact absurd h hmany
  have hl2 : (s.truncate (k + 1)).loaded ≠ 0 := hl
  have hn2 : (s.truncate (k + 1)).header.n_ops.val ≠ 0 := by
    change (toU8 (k + 1)).val ≠ 0
    rw [hval]
    omega
  have hcount : (s.truncate (k + 1)).header.n_ops.val = k + 1 := hval
  refine ⟨fun m hm => ⟨h1 m hm, ((run_steps_ctx s F0 m).2 (h1 m hm)).1⟩, h2, h3, ?_, ?_, ?_⟩
  · rw [exec_sigil_run s F0 hl hn hroom, h3]
    exact htick
  · rw [exec_sigil_run s F0 hl hn hroom, exec_sigil_run _ F0 hl2 hn2 hroom, hcount, htr, h3]
  · rw [htr, h3]

/-- C28 at a concrete input: the program `complete` / `seal` halts at its first step;
the program cut after that step gives the same result. -/
theorem run_truncated_witness :
    halt_first_sigil.loaded ≠ 0 ∧ 0 < halt_first_sigil.header.n_ops.val ∧
    Field.init.n_particles < MAX_PARTICLES ∧
    (halt_first_sigil.ops 0).opcode.val = 21 ∧
    (exec_sigil halt_first_sigil Field.init).2.tick = 1 ∧
    exec_sigil (halt_first_sigil.truncate (0 + 1)) Field.init =
      exec_sigil halt_first_sigil Field.init :=
  ⟨by decide!, by decide!, by decide, by decide!,
    (run_truncated halt_first_sigil Field.init 0 (by decide!) (by decide!) (by decide)
      (fun j hj => absurd hj (Nat.not_lt_zero j)) (Or.inl (Or.inl (by decide!)))).2.2.2.1,
    (run_truncated halt_first_sigil Field.init 0 (by decide!) (by decide!) (by decide)
      (fun j hj => absurd hj (Nat.not_lt_zero j)) (Or.inl (Or.inl (by decide!)))).2.2.2.2.1⟩

/-! ## The frame of a run and the numbering of the particles: properties C24 and C26 -/

/-- C24: a call of `exec_sigil` leaves the edge table, the edge count and every
particle that existed before the call as they are; and in a run, after every number `m`
of turns and at the end, the same holds and the particle of the run has zero momentum,
is alive and has the id it got at its creation. So a run changes only the position,
uncertainty, domain and sealed flag of its own particle, and the particles it adds. -/
theorem run_frame (s : Sigil) (F0 : Field) (m : Nat) :
    ((exec_sigil s F0).2.edges = F0.edges ∧ (exec_sigil s F0).2.n_edges = F0.n_edges ∧
      ∀ j, j < F0.n_particles → (exec_sigil s F0).2.particles j = F0.particles j) ∧
    (F0.n_particles < MAX_PARTICLES →
      (run_steps s F0 m).2.edges = F0.edges ∧ (run_steps s F0 m).2.n_edges = F0.n_edges ∧
      (∀ j, j < F0.n_particles → (run_steps s F0 m).2.particles j = F0.particles j) ∧
      (∀ d, ((run_steps s F0 m).2.particles F0.n_particles).momentum.v d = 0) ∧
      ((run_steps s F0 m).2.particles F0.n_particles).momentum.astrocyte = 0 ∧
      ((run_steps s F0 m).2.particles F0.n_particles).alive = 1 ∧
      ((run_steps s F0 m).2.particles F0.n_particles).id = F0.next_id) ∧
    (F0.n_particles < MAX_PARTICLES → s.loaded ≠ 0 → s.header.n_ops.val ≠ 0 →
      (∀ d, ((exec_sigil s F0).2.particles F0.n_particles).momentum.v d = 0) ∧
      ((exec_sigil s F0).2.particles F0.n_particles).momentum.astrocyte = 0 ∧
      ((exec_sigil s F0).2.particles F0.n_particles).alive = 1 ∧
      ((exec_sigil s F0).2.particles F0.n_particles).id = F0.next_id) := by
  refine ⟨?_, run_steps_frame s F0 m, ?_⟩
  · rcases exec_sigil_cases s F0 with e | ⟨hroom, -, -, e⟩
    · rw [e]
      exact ⟨rfl, rfl, fun _ _ => rfl⟩
    · rw [e]
      obtain ⟨a1, a2, a3, -⟩ := run_steps_frame s F0 s.header.n_ops.val hroom
      exact ⟨a1, a2, a3⟩
  · intro hroom hl hn
    rw [exec_sigil_run s F0 hl hn hroom]
    obtain ⟨-, -, -, a4, a5, a6, a7⟩ := run_steps_frame s F0 s.header.n_ops.val hroom
    exact ⟨a4, a5, a6, a7⟩

/-- C24 at a concrete input: the program `invoke capability=8` / `succeed` / `complete`
run on a Field that holds one particle, at (3, 0, ..., 0): that particle is left as it
is, and the particle of the run, at index 1, keeps the id 2. -/
theorem run_frame_witness :
    (one_particle_field (Coord.single 0 3 (1 / 2))).n_particles < MAX_PARTICLES ∧
    spawn_sigil.loaded ≠ 0 ∧ spawn_sigil.header.n_ops.val ≠ 0 ∧
    (exec_sigil spawn_sigil (one_particle_field (Coord.single 0 3 (1 / 2)))).2.particles 0 =
      (one_particle_field (Coord.single 0 3 (1 / 2))).particles 0 ∧
    ((exec_sigil spawn_sigil (one_particle_field (Coord.single 0 3 (1 / 2)))).2.particles
      (one_particle_field (Coord.single 0 3 (1 / 2))).n_particles).id =
      (one_particle_field (Coord.single 0 3 (1 / 2))).next_id :=
  ⟨by decide, by decide!, by decide!,
    (run_frame spawn_sigil (one_particle_field (Coord.single 0 3 (1 / 2))) 0).1.2.2 0
      (by decide),
    ((run_frame spawn_sigil (one_particle_field (Coord.single 0 3 (1 / 2))) 0).2.2
      (by decide) (by decide!) (by decide!)).2.2.2⟩

/-- C26: after any sequence of `field_create` calls and runs from the initial Field, the
table holds at most 1024 particles, the next id is the count plus one, and the particle
at index `k` has id `k + 1`, is alive and has zero momentum; so the ids increase strictly
with the index. A further `field_create` with room creates its particle at the index
of the count with the next id, zero momentum, alive, domain 0 (morph) and not sealed;
without room it fails and leaves the Field, its next id included, as it is. -/
theorem ids_monotonic (calls : List FieldAction) (pos : Coord) :
    well_numbered (field_after calls) ∧
    (∀ i j, i < j → j < (field_after calls).n_particles →
      ((field_after calls).particles i).id < ((field_after calls).particles j).id) ∧
    ((field_after calls).n_particles < MAX_PARTICLES →
      (field_create pos (field_after calls)).1 = ((field_after calls).n_particles : Int) ∧
      ((field_create pos (field_after calls)).2.particles (field_after calls).n_particles).id =
        (field_after calls).n_particles + 1 ∧
      (field_create pos (field_after calls)).2.next_id = (field_after calls).n_particles + 2 ∧
      ((field_create pos (field_after calls)).2.particles (field_after calls).n_particles).alive
        = 1 ∧
      ((field_create pos (field_after calls)).2.particles (field_after calls).n_particles).domain
        = 0 ∧
      ((field_create pos (field_after calls)).2.particles (field_after calls).n_particles).sealed
        = 0 ∧
      ((field_create pos (field_after calls)).2.particles
        (field_after calls).n_particles).momentum = ⟨fun _ => 0, 0⟩ ∧
      ((field_create pos (field_after calls)).2.particles (field_after calls).n_particles).pos
        = pos) ∧
    (MAX_PARTICLES ≤ (field_after calls).n_particles →
      field_create pos (field_after calls) = (-1, field_after calls)) := by
  have hw : well_numbered (field_after calls) := foldl_numbered calls Field.init well_numbered_init
  obtain ⟨h1, h2, h3⟩ := hw
  refine ⟨⟨h1, h2, h3⟩, ?_, ?_, ?_⟩
  · intro i j hij hj
    rw [(h3 i (by omega)).1, (h3 j hj).1]
    omega
  · intro hroom
    have hno : ¬ (field_after calls).n_particles ≥ MAX_PARTICLES := by omega
    have hmax : (field_after calls).n_particles < 1024 := hroom
    unfold field_create
    rw [if_neg hno]
    simp only [Function.update_same]
    refine ⟨trivial, h2, ?_, trivial, trivial, trivial, trivial, trivial⟩
    rw [h2]
    omega
  · intro hfull
    unfold field_create
    rw [if_pos hfull]

/-- C26 at a concrete input: after a `field_create`, a run of the program `invoke` /
`succeed` / `complete` and a second `field_create`, the Field holds four particles with
the ids 1, 2, 3, 4 and the next id is 5. -/
theorem ids_monotonic_witness :
    (field_after [.create Coord.zero, .run spawn_sigil, .create Coord.zero]).n_particles
      < MAX_PARTICLES ∧
    (field_after [.create Coord.zero, .run spawn_sigil, .create Coord.zero]).n_particles = 4 ∧
    (field_after [.create Coord.zero, .run spawn_sigil, .create Coord.zero]).next_id = 5 ∧
    ((field_after [.create Coord.zero, .run spawn_sigil, .create Coord.zero]).particles 3).id
      = 4 ∧
    well_numbered (field_after [.create Coord.zero, .run spawn_sigil, .create Coord.zero]) ∧
    (field_create Coord.zero
      (field_after [.create Coord.zero, .run spawn_sigil, .create Coord.zero])).1 =
      ((field_after [.create Coord.zero, .run spawn_sigil, .create Coord.zero]).n_particles
        : Int) :=
  ⟨by decide!, by decide!, by decide!, by decide!,
    (ids_monotonic [.create Coord.zero, .run spawn_sigil, .create Coord.zero] Coord.zero).1,
    ((ids_monotonic [.create Coord.zero, .run spawn_sigil, .create Coord.zero] Coord.zero).2.2.1
      (by decide!)).1⟩

/-! ## The counters of the feedback and the full table: properties C29 and C22 -/

/-- C29: when the global uncertainty of the Field is in [0.01, 0.99] before a run (it
is 0.3 initially), it is in [0.01, 0.99] after every number `m` of turns of the run and
after the call of `exec_sigil`; and when the prediction error is not negative before
the run, it is not negative after every number of turns and after the call. -/
theorem stats_invariant (s : Sigil) (F0 : Field) (m : Nat) :
    ((1 / 100 ≤ F0.global_astrocyte ∧ F0.global_astrocyte ≤ 99 / 100) →
      (1 / 100 ≤ (run_steps s F0 m).2.global_astrocyte ∧
        (run_steps s F0 m).2.global_astrocyte ≤ 99 / 100) ∧
      (1 / 100 ≤ (exec_sigil s F0).2.global_astrocyte ∧
        (exec_sigil s F0).2.global_astrocyte ≤ 99 / 100)) ∧
    (0 ≤ F0.prediction_error →
      0 ≤ (run_steps s F0 m).2.prediction_error ∧ 0 ≤ (exec_sigil s F0).2.prediction_error) ∧
    Field.init.global_astrocyte = 3 / 10 ∧ Field.init.prediction_error = 0 := by
  refine ⟨fun h => ⟨(run_steps_stats s F0 m).1 h, ?_⟩,
    fun h => ⟨(run_steps_stats s F0 m).2 h, ?_⟩, rfl, rfl⟩
  · rcases exec_sigil_cases s F0 with e | ⟨-, -, -, e⟩
    · rw [e]
      exact h
    · rw [e]
      exact (run_steps_stats s F0 _).1 h
  · rcases exec_sigil_cases s F0 with e | ⟨-, -, -, e⟩
    · rw [e]
      exact h
    · rw [e]
      exact (run_steps_stats s F0 _).2 h

/-- C29 at a concrete input: scenario A on the initial Field. -/
theorem stats_invariant_witness :
    (1 / 100 ≤ Field.init.global_astrocyte ∧ Field.init.global_astrocyte ≤ 99 / 100) ∧
    0 ≤ Field.init.prediction_error ∧
    (1 / 100 ≤ (exec_sigil scenario_a_sigil Field.init).2.global_astrocyte ∧
      (exec_sigil scenario_a_sigil Field.init).2.global_astrocyte ≤ 99 / 100) ∧
    0 ≤ (exec_sigil scenario_a_sigil Field.init).2.prediction_error :=
  ⟨by decide!, by decide!,
    ((stats_invariant scenario_a_sigil Field.init 0).1 (by decide!)).2,
    ((stats_invariant scenario_a_sigil Field.init 0).2.1 (by decide!)).2⟩

/-- C25: for a query and a Field whose coordinates lie in [0,10], `field_find` returns
-1 when the Field has no alive particle, and otherwise the index of an alive particle
whose similarity to the query is at least that of every alive particle and strictly
above that of every alive particle before it: the lowest index of maximal similarity.
The function returns an index and nothing else; it does not write the Field. -/
theorem find_nearest (query : Coord) (F : Field) (hq : query.in_range)
    (hF : ∀ i, i < F.n_particles → (F.particles i).pos.in_range) :
    ((∀ i, ¬ alive_at F i) → field_find query F = -1) ∧
    ((∃ i, alive_at F i) →
      ∃ b : Nat, field_find query F = (b : Int) ∧ alive_at F b ∧
        (∀ j, alive_at F j →
          coord_similarity query (F.particles j).pos ≤
            coord_similarity query (F.particles b).pos) ∧
        (∀ j, j < b → alive_at F j →
          coord_similarity query (F.particles j).pos <
            coord_similarity query (F.particles b).pos)) := by
  have hsim : ∀ j, 0 ≤ j → j < 0 + F.n_particles →
      -1 < coord_similarity query (F.particles j).pos := by
    intro j _ hj
    have := similarity_nonneg query (F.particles j).pos (fun d => (hq d).1)
      (fun d => (hF j (by omega) d).1)
    linarith
  obtain ⟨bs1, hinv⟩ := field_find_scan_inv query F F.n_particles 0 (-1) (-1)
    (Or.inl ⟨rfl, rfl, fun j hj => absurd hj (Nat.not_lt_zero j)⟩) hsim
  rw [Nat.zero_add] at hinv
  change find_inv query F F.n_particles (field_find query F) bs1 at hinv
  constructor
  · intro hnone
    rcases hinv with ⟨h1, -, -⟩ | ⟨b, -, h2, h3, -⟩
    · exact h1
    · exact absurd ⟨h2, h3⟩ (hnone b)
  · rintro ⟨i, hi1, hi2⟩
    rcases hinv with ⟨-, -, h3⟩ | ⟨b, h1, h2, h3, -, h5, h6⟩
    · exact absurd (h3 i hi1) hi2
    · exact ⟨b, h1, ⟨h2, h3⟩, fun j hj => h5 j hj.1 hj.2, fun j hjb hj => h6 j hjb hj.2⟩

/-- C25 at a concrete input: the Field `find_field` of five particles and the query
(1, 0, ..., 0). Particle 0 has the highest similarity, 1, but is dead; of the alive
particles 1 to 4, the particles 2 and 3 lie at the same place and share the highest
similarity, above that of 1 and 4: `field_find` returns 2, the lower index of the tie.
On the Field of the program, which has no particle, it returns -1. -/
theorem find_nearest_witness :
    (Coord.single 0 1 0).in_range ∧
    (∀ i, i < find_field.n_particles → (find_field.particles i).pos.in_range) ∧
    (¬ alive_at find_field 0 ∧ alive_at find_field 1 ∧ alive_at find_field 2 ∧
      alive_at find_field 3 ∧ alive_at find_field 4) ∧
    (coord_similarity (Coord.single 0 1 0) (find_field.particles 0).pos = 1 ∧
      coord_similarity (Coord.single 0 1 0) (find_field.particles 1).pos = 0 ∧
      coord_similarity (Coord.single 0 1 0) (find_field.particles 2).pos < 1 ∧
      coord_similarity (Coord.single 0 1 0) (find_field.particles 3).pos =
        coord_similarity (Coord.single 0 1 0) (find_field.particles 2).pos ∧
      coord_similarity (Coord.single 0 1 0) (find_field.particles 4).pos <
        coord_similarity (Coord.single 0 1 0) (find_field.particles 2).pos ∧
      0 < coord_similarity (Coord.single 0 1 0) (find_field.particles 4).pos) ∧
    field_find (Coord.single 0 1 0) find_field = 2 ∧
    field_find (Coord.single 0 1 0) Field.init = -1 ∧
    ∃ b : Nat, field_find (Coord.single 0 1 0) find_field = (b : Int) ∧ alive_at find_field b ∧
      (∀ j, alive_at find_field j →
        coord_similarity (Coord.single 0 1 0) (find_field.particles j).pos ≤
          coord_similarity (Coord.single 0 1 0) (find_field.particles b).pos) ∧
      (∀ j, j < b → alive_at find_field j →
        coord_similarity (Coord.single 0 1 0) (find_field.particles j).pos <
          coord_similarity (Coord.single 0 1 0) (find_field.particles b).pos) :=
  ⟨single_range 0 1 0 (by norm_num), find_field_range,
    ⟨fun h => h.2 rfl, ⟨by decide, by decide⟩, ⟨by decide, by decide⟩, ⟨by decide, by decide⟩,
      ⟨by decide, by decide⟩⟩,
    ⟨by decide!, by decide!, by decide!, rfl, by decide!, by decide!⟩,
    by decide!,
    (find_nearest (Coord.single 0 1 0) Field.init (single_range 0 1 0 (by norm_num))
      (fun i hi => absurd hi (Nat.not_lt_zero i))).1 (fun i h => Nat.not_lt_zero i h.1),
    (find_nearest (Coord.single 0 1 0) find_field (single_range 0 1 0 (by norm_num))
      find_field_range).2 ⟨2, by decide, by decide⟩⟩

/-- C27: `rotate` maps the dimensions (v0, v1, ..., v11) of the particle to
(v11, v0, ..., v10): the value at index `i` becomes the one that was at `i - 1` (modulo
12); it leaves the uncertainty, the domain and the sealed flag as they are; twelve
turns of `rotate` restore the position; and the new dimensions are the old ones in
another order, with the same multiplicities. -/
theorem rotate_shift (ctx : ExecCtx) (s : Sigil) (w : Coord) (F : Field) :
    dims.map ((exec_op ctx s 10 w F).2.particles ctx.particle_idx).pos.v =
      [(F.particles ctx.particle_idx).pos.v 11, (F.particles ctx.particle_idx).pos.v 0,
       (F.particles ctx.particle_idx).pos.v 1, (F.particles ctx.particle_idx).pos.v 2,
       (F.particles ctx.particle_idx).pos.v 3, (F.particles ctx.particle_idx).pos.v 4,
       (F.particles ctx.particle_idx).pos.v 5, (F.particles ctx.particle_idx).pos.v 6,
       (F.particles ctx.particle_idx).pos.v 7, (F.particles ctx.particle_idx).pos.v 8,
       (F.particles ctx.particle_idx).pos.v 9, (F.particles ctx.particle_idx).pos.v 10] ∧
    (∀ i, ((exec_op ctx s 10 w F).2.particles ctx.particle_idx).pos.v i =
      (F.particles ctx.particle_idx).pos.v (i - 1)) ∧
    ((exec_op ctx s 10 w F).2.particles ctx.particle_idx).pos.astrocyte =
      (F.particles ctx.particle_idx).pos.astrocyte ∧
    ((exec_op ctx s 10 w F).2.particles ctx.particle_idx).domain =
      (F.particles ctx.particle_idx).domain ∧
    ((exec_op ctx s 10 w F).2.particles ctx.particle_idx).sealed =
      (F.particles ctx.particle_idx).sealed ∧
    ((rotate_times ctx s w 12 F).particles ctx.particle_idx).pos =
      (F.particles ctx.particle_idx).pos ∧
    (dims.map ((exec_op ctx s 10 w F).2.particles ctx.particle_idx).pos.v).Perm
      (dims.map (F.particles ctx.particle_idx).pos.v) := by
  obtain ⟨r1, r2, r3, r4⟩ := rotate_particle ctx s w F
  obtain ⟨t1, t2⟩ := rotate_times_values ctx s w 12 F
  refine ⟨?_, r1, r2, r3, r4, ?_, rotate_perm _ _ r1⟩
  · simp only [dims, List.map, r1]
    rfl
  · have hv : ((rotate_times ctx s w 12 F).particles ctx.particle_idx).pos.v =
        (F.particles ctx.particle_idx).pos.v := by
      funext i
      rw [t1 i]
      have e12 : ((12 : Nat) : Fin 12) = 0 := rfl
      rw [e12, sub_zero]
    generalize ((rotate_times ctx s w 12 F).particles ctx.particle_idx).pos = c1 at hv t2
    generalize (F.particles ctx.particle_idx).pos = c2 at hv t2
    cases c1
    cases c2
    simp only at hv t2
    rw [hv, t2]

end PrimaVM
